import Mathlib

/-!
# The Chaos virtual machine core (vm/cpu.c)

A shallow embedding of the register machine of `vm/cpu.c`: the CPU record, `fetch`,
`execute`, `run_cpu` and the decimal codec `build_f64` / `parse_f64`.

Conventions of the embedding.

* `i64` cells and registers are integers; arithmetic that C performs in 64 bits is reduced
  with `wrap64`.
* An access outside `mem[0 .. max_mem)` or `r[0 .. 16)` and an integer division by zero are
  undefined in C: the operations return `none` there.  A shift, which C leaves undefined for
  a count outside `0 .. 63`, takes its count modulo 64, as the shift instructions of the
  64-bit targets do.
* `f64` (C `long double`) values are exact rationals: the codec is a decimal text codec, and
  the embedding follows its text path (`"%Lf"`, `sscanf`) exactly while the rounding error of
  the binary format is not represented, with one exception: the digit count of `build_f64`
  passes the logarithm through `floor`, which takes a `double`, and that rounding changes
  the count next to a power of ten; it is modelled by `floor_log10l`.  A value that is not a
  finite number (`log10l` of a negative number, a division by zero) is `none`, and so is a
  value whose digit count the last bit of the library logarithm decides.
* The header `cpu.h` (opcode numbering, type tag numbering, flag helpers) is not among the
  sources.  The numbering is a parameter (`Numbering`); the flag helpers follow the
  specification.
* Text written to standard output is accumulated in the field `out`.
-/

namespace Chaos

/-! ## Machine integers -/

/-- Smallest `i64`. -/
def INT64_MIN : Int := -(2 ^ 63)

/-- Largest `i64`. -/
def INT64_MAX : Int := 2 ^ 63 - 1

/-- Two's complement reduction of an integer into the range of `i64`. -/
def wrap64 (x : Int) : Int := (x + 2 ^ 63) % 2 ^ 64 - 2 ^ 63

/-- Membership in the range of `i64`. -/
def fits64 (x : Int) : Prop := INT64_MIN ≤ x ∧ x ≤ INT64_MAX

instance (x : Int) : Decidable (fits64 x) := by
  unfold fits64; exact inferInstance

/-- Values of the C type `f64`, as exact rationals. -/
abbrev f64 := ℚ

/-! ## Decimal codec -/

/-- Repeated division by ten: `log10Aux fuel n` is `floor (log10 n)` when `n ≤ fuel`. -/
def log10Aux : Nat → Nat → Nat
  | 0, _ => 0
  | fuel + 1, n => if n < 10 then 0 else log10Aux fuel (n / 10) + 1

/-- The integer part of the decimal logarithm of a positive integer, computed exactly. -/
def ilog10 (n : Nat) : Nat := log10Aux n n

/-- The exponent `e` for which `2 ^ (-e)` is half the distance from the integer `k` to the
`double` next below it, for `k` from 1 to 32 (a `double` has 53 significant bits). -/
def halfSpacingExp (k : Nat) : Nat :=
  if k ≤ 1 then 54 else if k ≤ 2 then 53 else if k ≤ 4 then 52 else if k ≤ 8 then 51
  else if k ≤ 16 then 50 else 49

/-- The value of the C expression `floor(log10l((f64)frac))` of `build_f64` at a positive
`n` below `2 ^ 63`.  The conversion to `long double` is exact; `floor` takes a `double`, so
the logarithm is rounded to 53 bits before it is floored.  For `n` of `k` digits, with
`g = 10 ^ k - n` and `t = g / 10 ^ k`, the logarithm is `k - l`, where
`0.4342944 * t ≤ l ≤ 0.4342945 * t / (1 - t)` (the constant is `1 / ln 10`), and it rounds
to the `double` `k` exactly when `l` is at most `h = 2 ^ (-halfSpacingExp k)`.  The library
logarithm is taken to be within `2 ^ (-58)` of the true one:

* `l > h + 2 ^ (-58)`: the rounded logarithm is below `k` and the result is `k - 1`;
* `l < h - 2 ^ (-58)`: the rounded logarithm is `k` and the result is `k`, one more than
  the exact integer part (the first such `n` is 999999999999998);
* in between (a few values next to `10 ^ 17` and `10 ^ 18`) the last bit of the library
  logarithm decides, and the result is `none`.

Both tests are written without division, multiplied through by `10 ^ (k + 7) * 2 ^ 58`. -/
def floor_log10l (n : Nat) : Option Nat :=
  let k := ilog10 n + 1
  let g := 10 ^ k - n
  let e := halfSpacingExp k
  if 10 ^ (k + 7) * (2 ^ (58 - e) + 1) < g * 4342944 * 2 ^ 58 then some (k - 1)
  else if g * 4342945 * 2 ^ 58 < n * 10 ^ 7 * (2 ^ (58 - e) - 1) then some k
  else none

/-- Decimal value from the register triple (cpu.c, `build_f64`).  `log10l` of a negative
`frac` is not a number. -/
def build_f64 (ipart frac leading_zeros : Int) : Option f64 :=
  let sign : Int := if ipart < 0 then -1 else 1
  let ipart := wrap64 (sign * ipart)
  if frac < 0 then none
  else
    let digits : Option Nat :=
      if frac = 0 then some 0 else (floor_log10l frac.toNat).map (fun d => d + 1)
    match digits with
    | none => none
    | some k =>
      let exp : Int := (k : Int)
      let exp : Int := if leading_zeros > 0 then exp + leading_zeros else exp
      some ((sign : ℚ) * ((ipart : ℚ) + (frac : ℚ) * (10 : ℚ) ^ (-exp)))

/-- Rounding of a non-negative rational to the nearest natural number, ties to even. -/
def roundHalfEven (x : ℚ) : Nat :=
  let n : Nat := ⌊x⌋.toNat
  let r : ℚ := x - (n : ℚ)
  if r < 1 / 2 then n
  else if 1 / 2 < r then n + 1
  else if n % 2 = 0 then n else n + 1

/-- The six digit characters of a number below `10 ^ 6`, zero padded. -/
def fracText (m : Nat) : List Char :=
  [Nat.digitChar (m / 100000 % 10), Nat.digitChar (m / 10000 % 10),
   Nat.digitChar (m / 1000 % 10), Nat.digitChar (m / 100 % 10),
   Nat.digitChar (m / 10 % 10), Nat.digitChar (m % 10)]

/-- Modelled from the spec: `snprintf_concat_float` (utilities/helpers) is not among the
sources.  Called on an empty buffer with the format `"%Lf"` it "formats the value as
fixed-point text": a minus sign for a negative value, the digits of the integer part, the
point, and six fractional digits, the value being rounded to the nearest such text. -/
def snprintf_concat_float (f : f64) : List Char :=
  let scaled : Nat := roundHalfEven (|f| * 1000000)
  (if f < 0 then ['-'] else []) ++ Nat.toDigits 10 (scaled / 1000000)
    ++ '.' :: fracText (scaled % 1000000)

/-- The digit run at the head of a text: accumulated value, number of digits, rest. -/
def scanDigits : List Char → Nat → Nat → Nat × Nat × List Char
  | [], acc, k => (acc, k, [])
  | c :: cs, acc, k =>
    if c.isDigit then scanDigits cs (10 * acc + (c.toNat - 48)) (k + 1) else (acc, k, c :: cs)

/-- The `sscanf` conversion `%lld` on a text without leading blanks: an optional sign and a
non-empty digit run.  Yields the value, the number of characters consumed and the rest of
the text; a value outside `i64` is undefined. -/
def scan_lld (s : List Char) : Option (Int × Nat × List Char) :=
  let start : Bool × Nat × List Char :=
    match s with
    | '-' :: t => (true, 1, t)
    | '+' :: t => (false, 1, t)
    | _ => (false, 0, s)
  match scanDigits start.2.2 0 0 with
  | (_, 0, _) => none
  | (v, k + 1, rest) =>
    let x : Int := if start.1 then -(v : Int) else (v : Int)
    if fits64 x then some (x, start.2.1 + (k + 1), rest) else none

/-- Register triple of a decimal value (cpu.c, `parse_f64`): the integer part and the
fractional digit run are the two outputs, the count of leading zeros is the result.
The format `"%lld.%n%lld%n"` is followed directive by directive.  `digits` is `log10l` of
the run converted to `int`, which truncates the `long double` itself; the run has at most
six digits, where that is the exact integer part of the logarithm. -/
def parse_f64 (f : f64) : Option (Int × Int × Int) :=
  let buf := snprintf_concat_float f
  match scan_lld buf with
  | none => none
  | some (ipart, n1, rest1) =>
    match rest1 with
    | '.' :: rest2 =>
      let frac_start : Int := (n1 : Int) + 1
      match scan_lld rest2 with
      | none => none
      | some (frac, n2, _) =>
        let frac_end : Int := frac_start + (n2 : Int)
        let digits : Int := if frac = 0 then 0 else (ilog10 frac.toNat : Int)
        some (ipart, frac, frac_end - (frac_start + digits) - 1)
    | _ => none

/-- The text of `printf("%lld", v)`. -/
def lld (v : Int) : List Char := (toString v).toList

/-! ## Numbering of opcodes and type tags -/

/-- The opcodes that `run_cpu` and `execute` name. -/
inductive Opcode
  | HLT | CLF | CMP | CMPI | MOV | STI | LDI | LII | PUSH | POP | INC | DEC
  | ADD | SUB | MUL | DIV | MOD | JLZ | JGZ | JEZ | JNZ | JMP
  | SHL | SHR | BAND | BOR | BNOT | BXOR | LAND | LOR | LNOT | PRNT
  deriving DecidableEq, Repr

/-- The type tags that `execute` names. -/
inductive VType
  | V_BOOL | V_INT | V_FLOAT | V_STRING
  deriving DecidableEq, Repr

/-- What `cpu.c` takes from outside the sources: the enumeration constants of `cpu.h`
(read here as the map from a cell value to the constant it equals, if any) and the C
library format `"%Lg"` used by `PRNT`. -/
structure Numbering where
  /-- the opcode constant a cell value equals -/
  opcode : Int → Option Opcode
  /-- the type tag constant a register value equals -/
  vtype : Int → Option VType
  /-- the text of `printf("%Lg", x)`; `none` stands for a value that `build_f64` leaves
  undetermined -/
  fmt_Lg : Option f64 → List Char

/-! ## CPU state -/

/-- Number of registers (the length of `reg_names`). -/
def NUM_REGISTERS : Int := 16

/-- Index of register `R0A` in `reg_names`. -/
def R0A : Int := 0

/-- Index of register `R1A` in `reg_names`. -/
def R1A : Int := 1

/-- Index of register `R2A` in `reg_names`. -/
def R2A : Int := 2

/-- Index of register `R3A` in `reg_names`. -/
def R3A : Int := 3

/-- Index of register `R0B` in `reg_names`. -/
def R0B : Int := 8

/-- Modelled from the spec: the record `cpu` of `cpu.h` is not among the sources; the
fields are those of the data model (memory and its capacity, `pc`, `sp`, sixteen
registers, the decoded window, three boolean flags, the debug switch).  The field `out`
is the text written to standard output so far. -/
structure cpu where
  mem : Int → Int
  max_mem : Int
  pc : Int
  sp : Int
  r : Int → Int
  inst : Int
  dest : Int
  src : Int
  zero : Bool
  ltz : Bool
  gtz : Bool
  debug : Bool
  out : List Char

/-- Read of `c->mem[i]`. -/
def load (c : cpu) (i : Int) : Option Int :=
  if 0 ≤ i ∧ i < c.max_mem then some (c.mem i) else none

/-- Write `c->mem[i] = v`. -/
def store (c : cpu) (i v : Int) : Option cpu :=
  if 0 ≤ i ∧ i < c.max_mem then some { c with mem := Function.update c.mem i v } else none

/-- Read of `c->r[i]`. -/
def getr (c : cpu) (i : Int) : Option Int :=
  if 0 ≤ i ∧ i < NUM_REGISTERS then some (c.r i) else none

/-- Write `c->r[i] = v`. -/
def setr (c : cpu) (i v : Int) : Option cpu :=
  if 0 ≤ i ∧ i < NUM_REGISTERS then some { c with r := Function.update c.r i v } else none

/-- Modelled from the spec: the helper `clear_flags` of `cpu.h` is not among the sources;
it "clears all three flags to false". -/
def clear_flags (c : cpu) : cpu := { c with zero := false, ltz := false, gtz := false }

/-- Modelled from the spec: the helper `set_flags` of `cpu.h` is not among the sources; it
compares the two values "as signed integers" and "sets zero/ltz/gtz to reflect equal /
less-than / greater-than respectively". -/
def set_flags (c : cpu) (a b : Int) : cpu :=
  { c with zero := decide (a = b), ltz := decide (a < b), gtz := decide (a > b) }

/-- Modelled from the spec: the helper `fset_flags` of `cpu.h` is not among the sources; it
is `set_flags` on two values compared "as floating values". -/
def fset_flags (c : cpu) (a b : f64) : cpu :=
  { c with zero := decide (a = b), ltz := decide (a < b), gtz := decide (a > b) }

/-- Table of register names (cpu.c, `reg_names`). -/
def reg_names : List String :=
  ["R0A", "R1A", "R2A", "R3A", "R4A", "R5A", "R6A", "R7A",
   "R0B", "R1B", "R2B", "R3B", "R4B", "R5B", "R6B", "R7B"]

/-- Name of a register (cpu.c, `getRegName`). -/
def getRegName (i : Nat) : String := reg_names.getD i ""

/-- One entry `"[%s: %lld] "` of the register dump. -/
def print_register (c : cpu) (i : Nat) : List Char :=
  "[".toList ++ (getRegName i).toList ++ ": ".toList ++ lld (c.r i) ++ "] ".toList

/-- Register dump (cpu.c, `print_registers`). -/
def print_registers (c : cpu) : cpu :=
  { c with out := c.out ++ (List.range 16).flatMap (print_register c) ++ [Char.ofNat 10] }

/-- Constructor (cpu.c, `new_cpu`).  The storage returned by `malloc` is not initialised:
`raw` stands for its contents, of which `new_cpu` sets six fields. -/
def new_cpu (raw : cpu) (memory : Int → Int) (mem_size : Int) (debug : Bool) : cpu :=
  { raw with mem := memory, sp := mem_size - 1, max_mem := mem_size, pc := -1, inst := 0,
             debug := debug }

/-- Decoding of the three-cell window (cpu.c, `fetch`). -/
def fetch (c : cpu) : Option cpu := do
  let pc := c.pc + 1
  let inst ← load c pc
  let dest ← load c (pc + 1)
  let src ← load c (pc + 2)
  pure { c with pc := pc, inst := inst, dest := dest, src := src }

/-- Storing a decimal value in the registers `dest`, `dest + 1`, `dest + 2`
(cpu.c, `load_f64`). -/
def load_f64 (c : cpu) (f : f64) : Option cpu := do
  let t ← parse_f64 f
  let c1 ← setr c c.dest t.1
  let c2 ← setr c1 (c.dest + 1) t.2.1
  setr c2 (c.dest + 2) t.2.2

/-- Decoding of the two operands of a decimal instruction (cpu.c, `get_f64_operands`). -/
def get_f64_operands (N : Numbering) (c : cpu) : Option (f64 × f64) := do
  let d0 ← getr c c.dest
  let d1 ← getr c (c.dest + 1)
  let d2 ← getr c (c.dest + 2)
  let f1 ← build_f64 d0 d1 d2
  if N.vtype (c.r R0B) = some VType.V_FLOAT then do
    let s0 ← getr c c.src
    let s1 ← getr c (c.src + 1)
    let s2 ← getr c (c.src + 2)
    let f2 ← build_f64 s0 s1 s2
    pure (f1, f2)
  else do
    let s0 ← getr c c.src
    pure (f1, (s0 : ℚ))

/-- Integer branch of a two-operand arithmetic case of `execute`:
`c->r[c->dest] = op (c->r[c->dest], c->r[c->src])`; `none` from `op` is an operation that
C leaves undefined. -/
def int_op (c : cpu) (op : Int → Int → Option Int) : Option cpu := do
  let a ← getr c c.dest
  let b ← getr c c.src
  let v ← op a b
  setr c c.dest v

/-- Decimal branch of a two-operand arithmetic case of `execute`:
`get_f64_operands (c, &f1, &f2); f1 = op (f1, f2); load_f64 (c, f1)`. -/
def float_op (N : Numbering) (c : cpu) (op : f64 → f64 → Option f64) : Option cpu := do
  let fs ← get_f64_operands N c
  let v ← op fs.1 fs.2
  load_f64 c v

/-- An arithmetic case of `execute` (`ADD`, `SUB`, `MUL`, `DIV`, `MOD`): the branch is
chosen by the tag in `R0A`, then `c->pc += 2`. -/
def arith (N : Numbering) (c : cpu) (iop : Int → Int → Option Int)
    (fop : f64 → f64 → Option f64) : Option cpu := do
  let c1 ← (if N.vtype (c.r R0A) = some VType.V_FLOAT then float_op N c fop
            else int_op c iop)
  pure { c1 with pc := c1.pc + 2 }

/-- A case of `execute` that combines two registers as integers whatever the tag
(`SHL`, `SHR`, `BAND`, `BOR`, `BXOR`), then `c->pc += 2`. -/
def bin_op (c : cpu) (op : Int → Int → Option Int) : Option cpu := do
  let c1 ← int_op c op
  pure { c1 with pc := c1.pc + 2 }

/-- A case of `execute` whose operator is `&&` or `||` (`LAND`, `LOR`):
`c->r[c->dest] = c->r[c->dest] && c->r[c->src]`, then `c->pc += 2`.  The left operand is
read first; when it decides the result (`short`), the result is `v` and the right operand
`c->r[c->src]` is not read. -/
def logic_op (c : cpu) (short : Int → Bool) (v : Int) : Option cpu := do
  let a ← getr c c.dest
  let w ← (if short a then some v
           else (getr c c.src).map (fun b => if b ≠ 0 then (1 : Int) else 0))
  let c1 ← setr c c.dest w
  pure { c1 with pc := c1.pc + 2 }

/-- A case of `execute` that rewrites the register `dest` (`INC`, `DEC`, `BNOT`, `LNOT`),
then `c->pc++`. -/
def un_op (c : cpu) (op : Int → Int) : Option cpu := do
  let a ← getr c c.dest
  let c1 ← setr c c.dest (op a)
  pure { c1 with pc := c1.pc + 1 }

/-- A jump case of `execute`: when the condition holds, `++(c->pc); c->pc = c->mem[c->pc]`,
otherwise `c->pc++`. -/
def jump (c : cpu) (taken : Bool) : Option cpu :=
  if taken then do
    let target ← load c (c.pc + 1)
    pure { c with pc := target }
  else some { c with pc := c.pc + 1 }

/-- C integer division: undefined for a zero divisor and for `INT64_MIN / -1`. -/
def c_div (a b : Int) : Option Int :=
  if b = 0 ∨ (a = INT64_MIN ∧ b = -1) then none else some (Int.tdiv a b)

/-- C integer remainder: undefined where the division is. -/
def c_mod (a b : Int) : Option Int :=
  if b = 0 ∨ (a = INT64_MIN ∧ b = -1) then none else some (Int.tmod a b)

/-- Left shift of an `i64` (`<<=`), kept to 64 bits; the count is taken modulo 64. -/
def c_shl (a b : Int) : Option Int := some (wrap64 (a * 2 ^ (b % 64).toNat))

/-- Right shift of an `i64` (`>>=`, arithmetic); the count is taken modulo 64. -/
def c_shr (a b : Int) : Option Int := some (a / 2 ^ (b % 64).toNat)

/-- Division of decimal values; a zero divisor gives no finite value. -/
def f_div (a b : f64) : Option f64 := if b = 0 then none else some (a / b)

/-- The C library `fmodl`: the remainder of the division truncated toward zero. -/
def fmodl (a b : f64) : Option f64 :=
  if b = 0 then none
  else
    let q : ℚ := a / b
    let n : Int := if 0 ≤ q then ⌊q⌋ else ⌈q⌉
    some (a - (n : ℚ) * b)

/-- The string case of `PRNT`: the loop `for (i = 0; i < len; i++)`, with `n` iterations
left; each iteration pops a cell into `R1A` and prints `(int)c->r[R1A] + '0'` with `%c`. -/
def prnt_string : Nat → cpu → Option cpu
  | 0, c => some c
  | n + 1, c => do
    let v ← load c c.sp
    prnt_string n { c with sp := c.sp + 1, r := Function.update c.r R1A v,
                           out := c.out ++ [Char.ofNat ((v + 48) % 256).toNat] }

/-- The case `PRNT` of `execute`. -/
def prnt (N : Numbering) (c : cpu) : Option cpu :=
  match N.vtype (c.r R0A) with
  | some VType.V_BOOL =>
    some { c with out := c.out ++ (if c.r R1A ≠ 0 then "true" else "false").toList
                           ++ [Char.ofNat 10] }
  | some VType.V_INT => some { c with out := c.out ++ lld (c.r R1A) ++ [Char.ofNat 10] }
  | some VType.V_FLOAT =>
    some { c with out := c.out ++ N.fmt_Lg (build_f64 (c.r R1A) (c.r R2A) (c.r R3A))
                           ++ [Char.ofNat 10] }
  | some VType.V_STRING => do
    let c1 ← prnt_string (c.r R1A % 2 ^ 64).toNat c
    pure { c1 with out := c1.out ++ [Char.ofNat 10] }
  | none => some c

/-- The `switch` of `execute`, before the debug hook. -/
def dispatch (N : Numbering) (c : cpu) : Option cpu :=
  match N.opcode c.inst with
  | some Opcode.CLF => some (clear_flags c)
  | some Opcode.CMP => do
    let c1 ←
      (if N.vtype (c.r R0A) = some VType.V_FLOAT then do
        let fs ← get_f64_operands N c
        pure (fset_flags c fs.1 fs.2)
      else do
        let a ← getr c c.dest
        let b ← getr c c.src
        pure (set_flags c a b))
    pure { c1 with pc := c1.pc + 2 }
  | some Opcode.CMPI => do
    let a ← getr c c.dest
    let c1 := set_flags c a c.src
    pure { c1 with pc := c1.pc + 2 }
  | some Opcode.MOV => do
    let b ← getr c c.src
    let c1 ← setr c c.dest b
    pure { c1 with pc := c1.pc + 2 }
  | some Opcode.STI => do
    let b ← getr c c.src
    let c1 ← store c c.dest b
    pure { c1 with pc := c1.pc + 2 }
  | some Opcode.LDI => do
    let v ← load c c.src
    let c1 ← setr c c.dest v
    pure { c1 with pc := c1.pc + 2 }
  | some Opcode.LII => do
    let c1 ← setr c c.dest c.src
    pure { c1 with pc := c1.pc + 2 }
  | some Opcode.PUSH => do
    let idx ← load c (c.pc + 1)
    let v ← getr c idx
    store { c with pc := c.pc + 1, sp := c.sp - 1 } (c.sp - 1) v
  | some Opcode.POP => do
    let idx ← load c (c.pc + 1)
    let v ← load c c.sp
    setr { c with pc := c.pc + 1, sp := c.sp + 1 } idx v
  | some Opcode.INC => un_op c (fun a => wrap64 (a + 1))
  | some Opcode.DEC => un_op c (fun a => wrap64 (a - 1))
  | some Opcode.ADD => arith N c (fun a b => some (wrap64 (a + b))) (fun a b => some (a + b))
  | some Opcode.SUB => arith N c (fun a b => some (wrap64 (a - b))) (fun a b => some (a - b))
  | some Opcode.MUL => arith N c (fun a b => some (wrap64 (a * b))) (fun a b => some (a * b))
  | some Opcode.DIV => arith N c c_div f_div
  | some Opcode.MOD => arith N c c_mod fmodl
  | some Opcode.JLZ => jump c c.ltz
  | some Opcode.JGZ => jump c c.gtz
  | some Opcode.JEZ => jump c c.zero
  | some Opcode.JNZ => jump c (!c.zero)
  | some Opcode.JMP => jump c true
  | some Opcode.SHL => bin_op c c_shl
  | some Opcode.SHR => bin_op c c_shr
  | some Opcode.BAND => bin_op c (fun a b => some (Int.land a b))
  | some Opcode.BOR => bin_op c (fun a b => some (Int.lor a b))
  | some Opcode.BNOT => un_op c (fun a => Int.not a)
  | some Opcode.BXOR => bin_op c (fun a b => some (Int.xor a b))
  | some Opcode.LAND => logic_op c (fun a => decide (a = 0)) 0
  | some Opcode.LOR => logic_op c (fun a => decide (a ≠ 0)) 1
  | some Opcode.LNOT => un_op c (fun a => if a = 0 then 1 else 0)
  | some Opcode.PRNT => prnt N c
  | some Opcode.HLT => some c
  | none => some c

/-- One instruction (cpu.c, `execute`): the `switch`, then the debug hook. -/
def execute (N : Numbering) (c : cpu) : Option cpu := do
  let c1 ← dispatch N c
  pure (if c1.debug then print_registers c1 else c1)

/-- One fetch-execute cycle: the body of the loop of `run_cpu`. -/
def cycle (N : Numbering) (c : cpu) : Option cpu := do
  let c1 ← fetch c
  execute N c1

/-- The state after `n` cycles, `none` when one of them is undefined. -/
def cycles (N : Numbering) : Nat → cpu → Option cpu
  | 0, c => some c
  | n + 1, c => do
    let c1 ← cycle N c
    cycles N n c1

/-- Result of a bounded run. -/
inductive Outcome
  | halted (c : cpu)
  | running (c : cpu)
  | undefined

/-- The loop (cpu.c, `run_cpu`): `while (c->inst != HLT) { fetch (c); execute (c); }`,
cut after `fuel` cycles. -/
def run_cpu (N : Numbering) : Nat → cpu → Outcome
  | 0, c => if N.opcode c.inst = some Opcode.HLT then Outcome.halted c else Outcome.running c
  | fuel + 1, c =>
    if N.opcode c.inst = some Opcode.HLT then Outcome.halted c
    else
      match cycle N c with
      | none => Outcome.undefined
      | some c1 => run_cpu N fuel c1

/-- A numbering used for the concrete witnesses: the opcodes in the order of the `switch` of
`execute` after `HLT`, the tags in the order of the `switch` of `PRNT`. -/
def sampleNumbering : Numbering where
  opcode := fun v =>
    [Opcode.HLT, Opcode.CLF, Opcode.CMP, Opcode.CMPI, Opcode.MOV, Opcode.STI, Opcode.LDI,
     Opcode.LII, Opcode.PUSH, Opcode.POP, Opcode.INC, Opcode.DEC, Opcode.ADD, Opcode.SUB,
     Opcode.MUL, Opcode.DIV, Opcode.MOD, Opcode.JLZ, Opcode.JGZ, Opcode.JEZ, Opcode.JNZ,
     Opcode.JMP, Opcode.SHL, Opcode.SHR, Opcode.BAND, Opcode.BOR, Opcode.BNOT, Opcode.BXOR,
     Opcode.LAND, Opcode.LOR, Opcode.LNOT, Opcode.PRNT].get? v.toNat |>.filter (fun _ => 0 ≤ v)
  vtype := fun v =>
    [VType.V_BOOL, VType.V_INT, VType.V_FLOAT, VType.V_STRING].get? v.toNat
      |>.filter (fun _ => 0 ≤ v)
  fmt_Lg := fun _ => []

/-- A memory image given by the list of its first cells, zero elsewhere. -/
def image (cells : List Int) : Int → Int :=
  fun i => if 0 ≤ i then cells.getD i.toNat 0 else 0

/-- A CPU over the given memory image with all registers zero and flags clear, as
`new_cpu` leaves it when the allocated storage was zeroed. -/
def sampleCpu (cells : List Int) (mem_size : Int) : cpu :=
  new_cpu { mem := fun _ => 0, max_mem := 0, pc := 0, sp := 0, r := fun _ => 0, inst := 0,
            dest := 0, src := 0, zero := false, ltz := false, gtz := false, debug := false,
            out := [] }
    (image cells) mem_size false

/-- A state about to execute `CMP 1, 9` under an integer tag, with `r[1] = INT64_MIN` and
`r[9] = 1`: the difference of the two operands does not fit in 64 bits. -/
def cmpCpu : cpu :=
  { sampleCpu [] 32 with
    inst := 2, dest := 1, src := 9,
    r := fun i => if i = 0 then 1 else if i = 1 then INT64_MIN else if i = 9 then 1 else 0 }

/-- The window decoded by `fetch` where it is defined. -/
def fetched (c : cpu) : cpu :=
  { c with pc := c.pc + 1, inst := c.mem (c.pc + 1), dest := c.mem (c.pc + 1 + 1),
           src := c.mem (c.pc + 1 + 2) }

/-- The debug hook at the end of `execute`, applied to a state. -/
def traced (c : cpu) : cpu := if c.debug then print_registers c else c

/-- The two-operand opcodes that do not alter control flow. -/
def generalForm : List Opcode :=
  [Opcode.CMP, Opcode.CMPI, Opcode.MOV, Opcode.STI, Opcode.LDI, Opcode.LII, Opcode.ADD,
   Opcode.SUB, Opcode.MUL, Opcode.DIV, Opcode.MOD, Opcode.SHL, Opcode.SHR, Opcode.BAND,
   Opcode.BOR, Opcode.BXOR, Opcode.LAND, Opcode.LOR]

/-- A fresh CPU whose first instruction is `JEZ 7`, with the flag `zero` set. -/
def jezTakenCpu : cpu := { sampleCpu [19, 7, 0, 0, 0, 0, 0, 0, 0, 0] 32 with zero := true }

/-- A fresh CPU whose first instruction is `JEZ 7`, with the flag `zero` clear. -/
def jezUntakenCpu : cpu := sampleCpu [19, 7, 0, 0, 0, 0, 0, 0, 0, 0] 32

/-- A fresh CPU whose first instruction is `LII 1, 7`. -/
def liiCpu : cpu := sampleCpu [7, 1, 7, 0, 0, 0] 32

/-- A state that has decoded `CLF` at cell 0. -/
def clfCpu : cpu :=
  { sampleCpu [1, 7, 1, 5, 0, 0, 0] 32 with pc := 0, inst := 1, dest := 7, src := 1 }

/-- A state that has decoded `INC 3` at cell 0. -/
def incCpu : cpu :=
  { sampleCpu [10, 3, 0, 0, 0] 32 with pc := 0, inst := 10, dest := 3, src := 0 }

/-- A fresh CPU whose first cell holds 99, which is no opcode, followed by `LII 1, 5`. -/
def unknownCpu : cpu := sampleCpu [99, 7, 1, 5, 0, 0, 0] 32

/-- A fresh CPU over `PUSH 1; PUSH 2; POP 3; POP 4` with `r[1] = 11` and `r[2] = 22`. -/
def stackCpu : cpu :=
  { sampleCpu [8, 1, 8, 2, 9, 3, 9, 4, 0, 0, 0] 32 with
    r := fun i => if i = 1 then 11 else if i = 2 then 22 else 0 }

/-- Registers pushed by the program of `stackCpu`. -/
def stackA (i : Nat) : Int := if i = 0 then 1 else 2

/-- Registers popped by the program of `stackCpu`. -/
def stackB (i : Nat) : Int := if i = 0 then 3 else 4

/-- A state that has decoded `ADD 1, 9` under an integer tag, with `r[1] = INT64_MAX` and
`r[9] = 1`: the sum leaves the range of `i64`. -/
def addCpu : cpu :=
  { sampleCpu [] 32 with
    inst := 12, dest := 1, src := 9,
    r := fun i => if i = 0 then 1 else if i = 1 then INT64_MAX else if i = 9 then 1 else 0 }

/-- A state that has decoded `CLF` with the flag `zero` set. -/
def clfSetCpu : cpu :=
  { sampleCpu [1, 0, 0, 0] 32 with pc := 0, inst := 1, zero := true }

/-- A state that has decoded `DIV 1, 9` under an integer tag, with `r[1] = -7` and
`r[9] = 2`. -/
def divCpu : cpu :=
  { sampleCpu [] 32 with
    inst := 15, dest := 1, src := 9,
    r := fun i => if i = 0 then 1 else if i = 1 then -7 else if i = 9 then 2 else 0 }

/-- The state with the debug switch set to `b`. -/
def withDebug (b : Bool) (c : cpu) : cpu := { c with debug := b }

/-- A state that has decoded `CMP 1, 9` under the decimal tag in `R0A` and the integer tag
in `R0B`; both register triples `r[1 .. 3]` and `r[9 .. 11]` are `(1, 500000, 0)`, the
encoding of 1.5. -/
def cmpDecimalCpu : cpu :=
  { sampleCpu [] 32 with
    inst := 2, dest := 1, src := 9,
    r := fun i => if i = 0 then 2 else if i = 8 then 1
           else if i = 1 ∨ i = 9 then 1 else if i = 2 ∨ i = 10 then 500000 else 0 }

/-- A state that has decoded `ADD 1, 9` under the decimal tag in `R0A` and the integer tag
in `R0B`; the triple `r[1 .. 3] = (0, 500000, 0)` encodes 0.5 and `r[9] = -1`. -/
def addDecimalCpu : cpu :=
  { sampleCpu [] 32 with
    inst := 12, dest := 1, src := 9,
    r := fun i => if i = 0 then 2 else if i = 8 then 1
           else if i = 2 then 500000 else if i = 9 then -1 else 0 }

/-- A state that has decoded `PRNT` at cell 0 under the string tag, with `r[R1A] = 3`,
`sp = 29` and the digits 4, 2, 7 in the cells 29, 30, 31 of a 32 cell memory. -/
def prntCpu : cpu :=
  { sampleCpu [31, 0, 0] 32 with
    pc := 0, inst := 31, sp := 29,
    mem := fun i => if i = 0 then 31 else if i = 29 then 4 else if i = 30 then 2
             else if i = 31 then 7 else 0,
    r := fun i => if i = 0 then 3 else if i = 1 then 3 else 0 }

/-- The digits on the stack of `prntCpu`, from the top. -/
def prntDigits (i : Nat) : Nat := if i = 0 then 4 else if i = 1 then 2 else 7

/-- A second numbering for the concrete witnesses, with `HLT` after the opcodes of the
`switch` of `execute` (`CLF` is 0, `LII` is 6, `HLT` is 31). -/
def haltLastNumbering : Numbering where
  opcode := fun v =>
    [Opcode.CLF, Opcode.CMP, Opcode.CMPI, Opcode.MOV, Opcode.STI, Opcode.LDI,
     Opcode.LII, Opcode.PUSH, Opcode.POP, Opcode.INC, Opcode.DEC, Opcode.ADD, Opcode.SUB,
     Opcode.MUL, Opcode.DIV, Opcode.MOD, Opcode.JLZ, Opcode.JGZ, Opcode.JEZ, Opcode.JNZ,
     Opcode.JMP, Opcode.SHL, Opcode.SHR, Opcode.BAND, Opcode.BOR, Opcode.BNOT, Opcode.BXOR,
     Opcode.LAND, Opcode.LOR, Opcode.LNOT, Opcode.PRNT, Opcode.HLT].get? v.toNat
      |>.filter (fun _ => 0 ≤ v)
  vtype := sampleNumbering.vtype
  fmt_Lg := sampleNumbering.fmt_Lg

/-- The storage handed to `new_cpu` in the witnesses: all fields zero. -/
def zeroCpu : cpu :=
  { mem := fun _ => 0, max_mem := 0, pc := 0, sp := 0, r := fun _ => 0, inst := 0,
    dest := 0, src := 0, zero := false, ltz := false, gtz := false, debug := false,
    out := [] }

/-- The program `LII 1, 7; HLT` under `haltLastNumbering`. -/
def haltProgram : Int → Int := image [6, 1, 7, 31, 0, 0]

/-- The program-counter of the state a bounded run halts in, when it does. -/
def haltedPc : Outcome → Option Int
  | Outcome.halted s => some s.pc
  | _ => none

/-- The index `i` names a register. -/
def is_reg (i : Int) : Prop := 0 ≤ i ∧ i < 16

/-- The registers `i`, `i + 1`, `i + 2` exist and hold a triple that `build_f64` decodes
to a number. -/
def decodes (c : cpu) (i : Int) : Prop :=
  (0 ≤ i ∧ i + 2 < 16) ∧ ∃ f, build_f64 (c.r i) (c.r (i + 1)) (c.r (i + 2)) = some f

/-- The integer part of the text `"%Lf"` of `v` is an `i64`, so that `sscanf` reads it
back in `parse_f64`. -/
def storable (v : f64) : Prop :=
  fits64 (if v < 0 then -((roundHalfEven (|v| * 1000000) / 1000000 : Nat) : Int)
          else ((roundHalfEven (|v| * 1000000) / 1000000 : Nat) : Int))

/-- The operands of a decimal instruction can be read by `get_f64_operands`: the
destination triple decodes, and so does the source triple or, when `R0B` does not hold the
decimal tag, the source is a register. -/
def decimal_ready (N : Numbering) (c : cpu) : Prop :=
  decodes c c.dest ∧
    (if N.vtype (c.r R0B) = some VType.V_FLOAT then decodes c c.src else is_reg c.src)

/-- An arithmetic case (`ADD`, `SUB`, `MUL`, `DIV`, `MOD`) runs without fault.  Under the
decimal tag the operands can be read and the result `fop f1 f2` is a number that can be
stored; otherwise both operands are registers and the integer operation is defined on
their contents (`int_ok`). -/
def arith_ready (N : Numbering) (c : cpu) (int_ok : Int → Int → Prop)
    (fop : f64 → f64 → Option f64) : Prop :=
  if N.vtype (c.r R0A) = some VType.V_FLOAT then
    decimal_ready N c ∧
      ∀ f1 f2, get_f64_operands N c = some (f1, f2) → ∃ v, fop f1 f2 = some v ∧ storable v
  else is_reg c.dest ∧ is_reg c.src ∧ int_ok (c.r c.dest) (c.r c.src)

/-- The decoded instruction `op`, one of the two-operand opcodes that do not alter control
flow, runs without fault in the state `c`: every register and memory cell it accesses
exists, an integer division has a divisor other than zero and is not `INT64_MIN / -1`,
and a decimal instruction has operands and a result that are numbers.  `LAND` and `LOR`
access `r[src]` only when `r[dest]` does not decide the result. -/
def no_fault (N : Numbering) (c : cpu) : Opcode → Prop
  | Opcode.CMP =>
    if N.vtype (c.r R0A) = some VType.V_FLOAT then decimal_ready N c
    else is_reg c.dest ∧ is_reg c.src
  | Opcode.CMPI => is_reg c.dest
  | Opcode.MOV => is_reg c.src ∧ is_reg c.dest
  | Opcode.STI => is_reg c.src ∧ (0 ≤ c.dest ∧ c.dest < c.max_mem)
  | Opcode.LDI => (0 ≤ c.src ∧ c.src < c.max_mem) ∧ is_reg c.dest
  | Opcode.LII => is_reg c.dest
  | Opcode.ADD => arith_ready N c (fun _ _ => True) (fun a b => some (a + b))
  | Opcode.SUB => arith_ready N c (fun _ _ => True) (fun a b => some (a - b))
  | Opcode.MUL => arith_ready N c (fun _ _ => True) (fun a b => some (a * b))
  | Opcode.DIV => arith_ready N c (fun a b => b ≠ 0 ∧ ¬ (a = INT64_MIN ∧ b = -1)) f_div
  | Opcode.MOD => arith_ready N c (fun a b => b ≠ 0 ∧ ¬ (a = INT64_MIN ∧ b = -1)) fmodl
  | Opcode.SHL => is_reg c.dest ∧ is_reg c.src
  | Opcode.SHR => is_reg c.dest ∧ is_reg c.src
  | Opcode.BAND => is_reg c.dest ∧ is_reg c.src
  | Opcode.BOR => is_reg c.dest ∧ is_reg c.src
  | Opcode.BXOR => is_reg c.dest ∧ is_reg c.src
  | Opcode.LAND => is_reg c.dest ∧ (c.r c.dest ≠ 0 → is_reg c.src)
  | Opcode.LOR => is_reg c.dest ∧ (c.r c.dest = 0 → is_reg c.src)
  | _ => True

/-- A fresh CPU whose first instruction is `LAND 1, 100`, all registers zero: `r[1]`
decides the result and 100, which is no register index, is not used. -/
def landCpu : cpu := sampleCpu [28, 1, 100, 0, 0, 0] 32

/-- A fresh CPU whose first instruction is `LOR 1, 100`, with `r[1] = 5`. -/
def lorCpu : cpu :=
  { sampleCpu [29, 1, 100, 0, 0, 0] 32 with r := fun i => if i = 1 then 5 else 0 }

/-- A fresh CPU whose first instruction is `SHL 1, 2`, with `r[1] = 1` and `r[2] = 64`. -/
def shlCpu : cpu :=
  { sampleCpu [22, 1, 2, 0, 0, 0] 32 with
    r := fun i => if i = 1 then 1 else if i = 2 then 64 else 0 }

/-- A fresh CPU whose first instruction is `ADD 1, 9`, with the registers of
`addDecimalCpu`: the decimal tag in `R0A`, the triple of 0.5 in `r[1 .. 3]`, `r[9] = -1`. -/
def addDecimalFresh : cpu := { sampleCpu [12, 1, 9, 0, 0, 0] 32 with r := addDecimalCpu.r }

/-! # Properties -/

/-! ## Machine integers and registers -/

theorem wrap64_of_fits (x : Int) (h : fits64 x) : wrap64 x = x := by
  unfold fits64 INT64_MIN INT64_MAX at h
  unfold wrap64
  omega

theorem getr_of_lt (c : cpu) (i : Int) (h : 0 ≤ i ∧ i < 16) : getr c i = some (c.r i) := by
  simp [getr, NUM_REGISTERS, h.1, h.2]

/-! ## The digit count -/

theorem log10Aux_eq_log (fuel : Nat) :
    ∀ n : Nat, n ≤ fuel → log10Aux fuel n = Nat.log 10 n := by
  induction fuel with
  | zero =>
    intro n hn
    have h0 : n = 0 := by omega
    subst h0
    simp [log10Aux]
  | succ k ih =>
    intro n hn
    unfold log10Aux
    by_cases h : n < 10
    · simp [h, Nat.log_of_lt h]
    · have h10 : 10 ≤ n := by omega
      have hk : n / 10 ≤ k := by omega
      simp only [h, if_false]
      rw [ih _ hk, Nat.log_of_one_lt_of_le (by norm_num) h10]

theorem ilog10_eq_log (n : Nat) : ilog10 n = Nat.log 10 n :=
  log10Aux_eq_log n n le_rfl

theorem digits_length_eq (n : Nat) (hn : n ≠ 0) :
    (Nat.digits 10 n).length = ilog10 n + 1 := by
  rw [ilog10_eq_log, Nat.digits_len 10 n (by norm_num) hn]

/-- Below 999999999999998 the rounding to `double` does not reach the next integer: the
floored logarithm is the exact one. -/
theorem floor_log10l_exact (n : Nat) (h0 : n ≠ 0) (hn : n < 999999999999998) :
    floor_log10l n = some (ilog10 n) := by
  have hlt : n < 10 ^ (ilog10 n + 1) := by
    rw [ilog10_eq_log]; exact Nat.lt_pow_succ_log_self (by norm_num) n
  have hj : ilog10 n < 15 := by
    rw [ilog10_eq_log]; exact Nat.log_lt_of_lt_pow h0 (by omega)
  have hge : 10 ^ ilog10 n ≤ n := by
    rw [ilog10_eq_log]; exact Nat.pow_log_le_self 10 h0
  unfold floor_log10l
  generalize ilog10 n = j at *
  interval_cases j <;> simp only [halfSpacingExp] <;> norm_num at hlt hge ⊢ <;> omega

/-- The value of `build_f64` where the floored logarithm of `frac` is the exact one. -/
theorem build_f64_exact (ipart frac lz : Int) (hfrac : 0 ≤ frac)
    (hd : frac ≠ 0 → floor_log10l frac.toNat = some (ilog10 frac.toNat)) :
    build_f64 ipart frac lz =
      some ((((if ipart < 0 then -1 else 1 : Int) : Int) : ℚ) *
        ((wrap64 ((if ipart < 0 then -1 else 1) * ipart) : ℚ) + (frac : ℚ) * (10 : ℚ) ^
          (-(if lz > 0 then (if frac = 0 then 0 else (ilog10 frac.toNat : Int) + 1) + lz
             else (if frac = 0 then 0 else (ilog10 frac.toNat : Int) + 1))))) := by
  unfold build_f64
  simp only [not_lt.mpr hfrac, if_false]
  by_cases h : frac = 0
  · simp only [h, if_true, Nat.cast_zero]
  · simp only [h, if_false, hd h, Option.map_some', Nat.cast_add, Nat.cast_one]

/-! ## Comparison -/

/-- C1: when the tag in `R0A` is not the decimal tag and `dest`, `src` are register
indices, `CMP` executes and leaves `zero` iff `r[dest] = r[src]`, `ltz` iff
`r[dest] < r[src]`, `gtz` iff `r[dest] > r[src]`, exactly one of the three being true;
the operands are arbitrary integers, so pairs whose difference leaves 64 bits are
included. -/
theorem cmp_int_flags (N : Numbering) (c : cpu)
    (hop : N.opcode c.inst = some Opcode.CMP)
    (htag : N.vtype (c.r R0A) ≠ some VType.V_FLOAT)
    (hd : 0 ≤ c.dest ∧ c.dest < 16) (hs : 0 ≤ c.src ∧ c.src < 16) :
    ∃ c', execute N c = some c' ∧
      (c'.zero = true ↔ c.r c.dest = c.r c.src) ∧
      (c'.ltz = true ↔ c.r c.dest < c.r c.src) ∧
      (c'.gtz = true ↔ c.r c.dest > c.r c.src) ∧
      ((c'.zero = true ∧ c'.ltz = false ∧ c'.gtz = false) ∨
       (c'.zero = false ∧ c'.ltz = true ∧ c'.gtz = false) ∨
       (c'.zero = false ∧ c'.ltz = false ∧ c'.gtz = true)) := by
  simp only [execute, dispatch, hop, htag, if_false, getr_of_lt c _ hd, getr_of_lt c _ hs,
    Option.bind_eq_bind, Option.some_bind, Option.pure_def]
  refine ⟨_, rfl, ?_⟩
  rcases lt_trichotomy (c.r c.dest) (c.r c.src) with h | h | h
  · have h1 : c.r c.dest ≠ c.r c.src := ne_of_lt h
    have h2 : ¬ c.r c.src < c.r c.dest := not_lt.mpr (le_of_lt h)
    split_ifs <;> simp [set_flags, print_registers, h, h1, h2]
  · split_ifs <;> simp [set_flags, print_registers, h]
  · have h1 : c.r c.dest ≠ c.r c.src := ne_of_gt h
    have h2 : ¬ c.r c.dest < c.r c.src := not_lt.mpr (le_of_lt h)
    split_ifs <;> simp [set_flags, print_registers, h, h1, h2]

/-- Instance of `cmp_int_flags` at `r[dest] = INT64_MIN`, `r[src] = 1`. -/
theorem cmp_int_flags_witness :
    (sampleNumbering.opcode cmpCpu.inst = some Opcode.CMP ∧
      sampleNumbering.vtype (cmpCpu.r R0A) ≠ some VType.V_FLOAT ∧
      cmpCpu.r cmpCpu.dest = INT64_MIN ∧ cmpCpu.r cmpCpu.src = 1) ∧
    ∃ c', execute sampleNumbering cmpCpu = some c' ∧
      (c'.zero = true ↔ cmpCpu.r cmpCpu.dest = cmpCpu.r cmpCpu.src) ∧
      (c'.ltz = true ↔ cmpCpu.r cmpCpu.dest < cmpCpu.r cmpCpu.src) ∧
      (c'.gtz = true ↔ cmpCpu.r cmpCpu.dest > cmpCpu.r cmpCpu.src) ∧
      ((c'.zero = true ∧ c'.ltz = false ∧ c'.gtz = false) ∨
       (c'.zero = false ∧ c'.ltz = true ∧ c'.gtz = false) ∨
       (c'.zero = false ∧ c'.ltz = false ∧ c'.gtz = true)) :=
  ⟨by decide,
   cmp_int_flags sampleNumbering cmpCpu (by decide) (by decide) (by decide) (by decide)⟩

/-! ## The decimal codec -/

/-- C2: the codec at the value -0.5.  `parse_f64` yields the triple `(0, 500000, 0)`, the
text `-0` being read as the integer zero, and `build_f64` decodes that triple to +0.5:
the sign of a value strictly between -1 and 0 does not survive the round trip. -/
theorem codec_roundtrip_loses_sign :
    parse_f64 (-1 / 2) = some (0, 500000, 0) ∧ build_f64 0 500000 0 = some (1 / 2) ∧
      build_f64 0 500000 0 ≠ some (-1 / 2) := by
  have hfmt : snprintf_concat_float (-1 / 2) = "-0.500000".toList := by
    with_unfolding_all decide
  have hlog : floor_log10l 500000 = some 5 := by decide
  refine ⟨?_, ?_, ?_⟩
  · simp only [parse_f64, hfmt]
    decide
  · simp [build_f64, wrap64, hlog]; norm_num
  · simp [build_f64, wrap64, hlog]; norm_num

/-- C3, as stated, fails: `parse_f64` at 12.034 does not produce `(12, 34, 1)`. -/
theorem parse_scenario_c_refuted : parse_f64 (12034 / 1000) ≠ some (12, 34, 1) := by
  have hfmt : snprintf_concat_float (12034 / 1000) = "12.034000".toList := by
    with_unfolding_all decide
  simp only [parse_f64, hfmt]
  decide

/-- C3, amended: `parse_f64` at 12.034 produces `ipart = 12`, `frac = 34000`, `lz = 1`: the
fractional run is the six digit run `034000` of the fixed-point text read as an integer, so
its leading zero is stripped and counted while its trailing zeros are kept; `build_f64`
decodes that triple to 12.034. -/
theorem parse_scenario_c :
    parse_f64 (12034 / 1000) = some (12, 34000, 1) ∧
      build_f64 12 34000 1 = some (12034 / 1000) := by
  have hfmt : snprintf_concat_float (12034 / 1000) = "12.034000".toList := by
    with_unfolding_all decide
  have hlog : floor_log10l 34000 = some 4 := by decide
  refine ⟨?_, ?_⟩
  · simp only [parse_f64, hfmt]
    decide
  · simp [build_f64, wrap64, hlog]; norm_num

/-- The reference formula below the first rounded digit count: for `ipart` in `i64` other
than `INT64_MIN`, `0 ≤ frac < 999999999999998` and `lz ≥ 0`, `build_f64` is
`s * (|ipart| + frac / 10 ^ (k + lz))` with `s = -1` for a negative `ipart` and `1`
otherwise, `k = 0` for `frac = 0` and the number of decimal digits of `frac` otherwise. -/
theorem build_f64_formula_below (ipart frac lz : Int)
    (hmin : INT64_MIN < ipart) (hmax : ipart ≤ INT64_MAX) (hfrac : 0 ≤ frac)
    (hbelow : frac < 999999999999998) (hlz : 0 ≤ lz) :
    build_f64 ipart frac lz =
        some ((if ipart < 0 then (-1 : ℚ) else 1) *
          ((|ipart| : ℚ) + (frac : ℚ) /
            (10 : ℚ) ^ ((if frac = 0 then 0 else (Nat.digits 10 frac.toNat).length)
              + lz.toNat))) := by
  have hw : wrap64 ((if ipart < 0 then -1 else 1) * ipart) = |ipart| := by
    rw [wrap64_of_fits]
    · split_ifs with h
      · rw [abs_of_neg h]; ring
      · rw [abs_of_nonneg (not_lt.mp h)]; ring
    · unfold fits64 INT64_MIN INT64_MAX
      unfold INT64_MIN at hmin
      unfold INT64_MAX at hmax
      split_ifs with h <;> constructor <;> omega
  rw [build_f64_exact ipart frac lz hfrac (fun h =>
    floor_log10l_exact frac.toNat (by omega) (by omega))]
  simp only [hw]
  congr 1
  have hsign : (((if ipart < 0 then (-1 : Int) else 1) : Int) : ℚ)
      = if ipart < 0 then (-1 : ℚ) else 1 := by
    split_ifs <;> simp
  rw [hsign]
  congr 2
  · push_cast; rfl
  · obtain ⟨l, rfl⟩ := Int.eq_ofNat_of_zero_le hlz
    obtain ⟨m, rfl⟩ := Int.eq_ofNat_of_zero_le hfrac
    rw [div_eq_mul_inv, ← zpow_natCast, ← zpow_neg]
    congr 2
    by_cases hm : m = 0
    · subst hm
      by_cases hl : l = 0
      · subst hl; simp
      · have : (0 : Int) < (l : Int) := by omega
        simp [this]
    · have hm' : (m : Int) ≠ 0 := by exact_mod_cast hm
      simp only [hm', if_false, Int.toNat_ofNat, digits_length_eq m hm]
      by_cases hl : l = 0
      · subst hl; simp
      · have : (0 : Int) < (l : Int) := by omega
        simp [this]

/-- C4: the digit count of `build_f64` at `frac = 999999999999999`, a number of fifteen
digits.  Its logarithm, 15 - 4.3e-16, is rounded to the `double` 15.0 on its way into
`floor`, so the exponent is 16 and `build_f64 (0, 999999999999999, 0)` is
0.0999999999999999, a tenth of the value 0.999999999999999 of the reference formula
`s * (|ipart| + frac / 10 ^ (k + lz))`.  The two examples `build_f64 (1, 5, 2) = 1.005`
and `build_f64 (12, 34, 1) = 12.034` hold. -/
theorem build_f64_digit_count_rounded :
    build_f64 0 999999999999999 0 = some (999999999999999 / 10 ^ 16) ∧
      (Nat.digits 10 (999999999999999 : Int).toNat).length = 15 ∧
      build_f64 0 999999999999999 0 ≠
        some ((if (0 : Int) < 0 then (-1 : ℚ) else 1) *
          ((|(0 : Int)| : ℚ) + ((999999999999999 : Int) : ℚ) /
            (10 : ℚ) ^ ((Nat.digits 10 (999999999999999 : Int).toNat).length
              + (0 : Int).toNat))) ∧
      build_f64 1 5 2 = some (1005 / 1000) ∧
      build_f64 12 34 1 = some (12034 / 1000) := by
  have hlog : floor_log10l 999999999999999 = some 15 := by decide
  have hlen : (Nat.digits 10 (999999999999999 : Int).toNat).length = 15 := by
    have h14 : ilog10 999999999999999 = 14 := by decide
    have ht : (999999999999999 : Int).toNat = 999999999999999 := rfl
    rw [ht, digits_length_eq _ (by norm_num), h14]
  have h5 : floor_log10l 5 = some 0 := by decide
  have h34 : floor_log10l 34 = some 1 := by decide
  refine ⟨?_, hlen, ?_, ?_, ?_⟩
  · simp [build_f64, wrap64, hlog]; norm_num
  · rw [hlen]
    simp [build_f64, wrap64, hlog]; norm_num
  · simp [build_f64, wrap64, h5]; norm_num
  · simp [build_f64, wrap64, h34]; norm_num

/-! ## Fetch and the debug hook -/

theorem load_of_lt (c : cpu) (i : Int) (h : 0 ≤ i ∧ i < c.max_mem) :
    load c i = some (c.mem i) := by
  simp [load, h.1, h.2]

theorem load_some (c : cpu) (i v : Int) (h : load c i = some v) :
    (0 ≤ i ∧ i < c.max_mem) ∧ v = c.mem i := by
  unfold load at h
  split_ifs at h with hb
  exact ⟨hb, (Option.some.inj h).symm⟩

theorem fetch_of_window (c : cpu) (h : 0 ≤ c.pc + 1 ∧ c.pc + 1 + 2 < c.max_mem) :
    fetch c = some (fetched c) := by
  have h0 : load c (c.pc + 1) = some (c.mem (c.pc + 1)) := load_of_lt c _ ⟨h.1, by omega⟩
  have h1 : load c (c.pc + 1 + 1) = some (c.mem (c.pc + 1 + 1)) :=
    load_of_lt c _ ⟨by omega, by omega⟩
  have h2 : load c (c.pc + 1 + 2) = some (c.mem (c.pc + 1 + 2)) :=
    load_of_lt c _ ⟨by omega, by omega⟩
  simp only [fetch, h0, h1, h2, Option.bind_eq_bind, Option.some_bind, Option.pure_def, fetched]

theorem fetch_some (c cf : cpu) (h : fetch c = some cf) :
    (0 ≤ c.pc + 1 ∧ c.pc + 1 + 2 < c.max_mem) ∧ cf = fetched c := by
  unfold fetch at h
  simp only [Option.bind_eq_bind, Option.pure_def, Option.bind_eq_some] at h
  obtain ⟨i, hi, d, hd, s, hs, heq⟩ := h
  obtain ⟨hib, rfl⟩ := load_some c _ _ hi
  obtain ⟨_, rfl⟩ := load_some c _ _ hd
  obtain ⟨hsb, rfl⟩ := load_some c _ _ hs
  exact ⟨⟨hib.1, hsb.2⟩, (Option.some.inj heq).symm⟩

theorem execute_eq (N : Numbering) (c : cpu) :
    execute N c = (dispatch N c).map traced := by
  unfold execute
  cases dispatch N c <;> simp [traced]

theorem traced_pc (c : cpu) : (traced c).pc = c.pc := by
  unfold traced; split_ifs <;> rfl

theorem traced_sp (c : cpu) : (traced c).sp = c.sp := by
  unfold traced; split_ifs <;> rfl

theorem traced_r (c : cpu) : (traced c).r = c.r := by
  unfold traced; split_ifs <;> rfl

theorem traced_mem (c : cpu) : (traced c).mem = c.mem := by
  unfold traced; split_ifs <;> rfl

theorem traced_max_mem (c : cpu) : (traced c).max_mem = c.max_mem := by
  unfold traced; split_ifs <;> rfl

theorem traced_zero (c : cpu) : (traced c).zero = c.zero := by
  unfold traced; split_ifs <;> rfl

theorem traced_ltz (c : cpu) : (traced c).ltz = c.ltz := by
  unfold traced; split_ifs <;> rfl

theorem traced_gtz (c : cpu) : (traced c).gtz = c.gtz := by
  unfold traced; split_ifs <;> rfl

/-! ## Jumps -/

/-- C6: let the cycle decode the instruction at `q` (`pc + 1 = q`, the window `q .. q + 2`
inside memory).  If the cell `q` holds `JMP`, or `JLZ` with `ltz` true, `JGZ` with `gtz`
true, `JEZ` with `zero` true, or `JNZ` with `zero` false, the cycle is defined and ends
with `pc = mem[q + 1]` (the target replaces `pc`), every register, flag and memory cell and
`sp` being unchanged. -/
theorem taken_jump (N : Numbering) (c : cpu) (q : Int) (op : Opcode)
    (hq : c.pc + 1 = q) (hwin : 0 ≤ q ∧ q + 2 < c.max_mem)
    (hop : N.opcode (c.mem q) = some op)
    (htaken : op = Opcode.JMP ∨ (op = Opcode.JLZ ∧ c.ltz = true) ∨
      (op = Opcode.JGZ ∧ c.gtz = true) ∨ (op = Opcode.JEZ ∧ c.zero = true) ∨
      (op = Opcode.JNZ ∧ c.zero = false)) :
    ∃ c', cycle N c = some c' ∧ c'.pc = c.mem (q + 1) ∧ c'.r = c.r ∧
      c'.zero = c.zero ∧ c'.ltz = c.ltz ∧ c'.gtz = c.gtz ∧ c'.mem = c.mem ∧ c'.sp = c.sp := by
  subst hq
  have hf := fetch_of_window c hwin
  have hl : load (fetched c) ((fetched c).pc + 1) = some (c.mem (c.pc + 1 + 1)) :=
    load_of_lt (fetched c) _ ⟨by simp only [fetched]; omega, by simp only [fetched]; omega⟩
  have hd : dispatch N (fetched c) = some { fetched c with pc := c.mem (c.pc + 1 + 1) } := by
    have hop' : N.opcode (fetched c).inst = some op := hop
    rcases htaken with h | ⟨h, hc⟩ | ⟨h, hc⟩ | ⟨h, hc⟩ | ⟨h, hc⟩ <;> subst h
    · simp [dispatch, hop', jump, hl]
    · have : (fetched c).ltz = true := hc
      simp [dispatch, hop', jump, hl, this]
    · have : (fetched c).gtz = true := hc
      simp [dispatch, hop', jump, hl, this]
    · have : (fetched c).zero = true := hc
      simp [dispatch, hop', jump, hl, this]
    · have : (fetched c).zero = false := hc
      simp [dispatch, hop', jump, hl, this]
  refine ⟨traced { fetched c with pc := c.mem (c.pc + 1 + 1) }, ?_, ?_⟩
  · simp [cycle, hf, execute_eq, hd]
  · simp [traced_pc, traced_r, traced_zero, traced_ltz, traced_gtz, traced_mem, traced_sp,
      fetched]

/-- Instance of `taken_jump`: `JEZ 7` at cell 0 with `zero` set ends with `pc = 7`. -/
theorem taken_jump_witness :
    (jezTakenCpu.pc + 1 = 0 ∧ ((0 : Int) ≤ 0 ∧ (0 : Int) + 2 < jezTakenCpu.max_mem) ∧
      sampleNumbering.opcode (jezTakenCpu.mem 0) = some Opcode.JEZ ∧
      jezTakenCpu.zero = true ∧ jezTakenCpu.mem (0 + 1) = 7) ∧
    ∃ c', cycle sampleNumbering jezTakenCpu = some c' ∧ c'.pc = jezTakenCpu.mem (0 + 1) ∧
      c'.r = jezTakenCpu.r ∧ c'.zero = jezTakenCpu.zero ∧ c'.ltz = jezTakenCpu.ltz ∧
      c'.gtz = jezTakenCpu.gtz ∧ c'.mem = jezTakenCpu.mem ∧ c'.sp = jezTakenCpu.sp :=
  ⟨by decide,
   taken_jump sampleNumbering jezTakenCpu 0 Opcode.JEZ (by decide) (by decide) (by decide)
     (by decide)⟩

/-- C7: let the cycle decode the instruction at `q` (`pc + 1 = q`, the window `q .. q + 2`
inside memory).  If the cell `q` holds `JLZ` with `ltz` false, `JGZ` with `gtz` false,
`JEZ` with `zero` false, or `JNZ` with `zero` true, the cycle is defined and ends with
`pc = q + 1` whatever the target cell holds; the next fetch, when its window is inside
memory, is defined, and a defined next fetch decodes the cell `q + 2`: the untaken form
consumes the same two cells as the taken one. -/
theorem untaken_jump (N : Numbering) (c : cpu) (q : Int) (op : Opcode)
    (hq : c.pc + 1 = q) (hwin : 0 ≤ q ∧ q + 2 < c.max_mem)
    (hop : N.opcode (c.mem q) = some op)
    (huntaken : (op = Opcode.JLZ ∧ c.ltz = false) ∨ (op = Opcode.JGZ ∧ c.gtz = false) ∨
      (op = Opcode.JEZ ∧ c.zero = false) ∨ (op = Opcode.JNZ ∧ c.zero = true)) :
    ∃ c', cycle N c = some c' ∧ c'.pc = q + 1 ∧
      (∀ c'', fetch c' = some c'' → c''.pc = q + 2 ∧ c''.inst = c.mem (q + 2)) ∧
      (q + 4 < c.max_mem → ∃ c'', fetch c' = some c'') := by
  subst hq
  have hf := fetch_of_window c hwin
  have hd : dispatch N (fetched c) = some { fetched c with pc := c.pc + 1 + 1 } := by
    have hop' : N.opcode (fetched c).inst = some op := hop
    rcases huntaken with ⟨h, hc⟩ | ⟨h, hc⟩ | ⟨h, hc⟩ | ⟨h, hc⟩ <;> subst h
    · have : (fetched c).ltz = false := hc
      simp [dispatch, hop', jump, this]; rfl
    · have : (fetched c).gtz = false := hc
      simp [dispatch, hop', jump, this]; rfl
    · have : (fetched c).zero = false := hc
      simp [dispatch, hop', jump, this]; rfl
    · have : (fetched c).zero = true := hc
      simp [dispatch, hop', jump, this]; rfl
  refine ⟨traced { fetched c with pc := c.pc + 1 + 1 }, ?_, ?_, ?_, ?_⟩
  · simp [cycle, hf, execute_eq, hd]
  · simp [traced_pc]
  · intro c'' h
    obtain ⟨_, rfl⟩ := fetch_some _ _ h
    simp only [fetched, traced_pc, traced_mem]
    constructor
    · ring
    · congr 1; ring
  · intro hb
    refine ⟨_, fetch_of_window _ ?_⟩
    simp only [traced_pc, traced_max_mem, fetched]
    constructor <;> omega

/-- Instance of `untaken_jump`: `JEZ 7` at cell 0 with `zero` clear ends with `pc = 1`. -/
theorem untaken_jump_witness :
    (jezUntakenCpu.pc + 1 = 0 ∧ ((0 : Int) ≤ 0 ∧ (0 : Int) + 2 < jezUntakenCpu.max_mem) ∧
      sampleNumbering.opcode (jezUntakenCpu.mem 0) = some Opcode.JEZ ∧
      jezUntakenCpu.zero = false) ∧
    ∃ c', cycle sampleNumbering jezUntakenCpu = some c' ∧ c'.pc = 0 + 1 ∧
      (∀ c'', fetch c' = some c'' → c''.pc = 0 + 2 ∧ c''.inst = jezUntakenCpu.mem (0 + 2)) ∧
      ((0 : Int) + 4 < jezUntakenCpu.max_mem → ∃ c'', fetch c' = some c'') :=
  ⟨by decide,
   untaken_jump sampleNumbering jezUntakenCpu 0 Opcode.JEZ (by decide) (by decide) (by decide)
     (by decide)⟩

/-! ## Program counter deltas -/

theorem setr_pc (c c1 : cpu) (i v : Int) (h : setr c i v = some c1) : c1.pc = c.pc := by
  unfold setr at h
  split_ifs at h
  rw [← Option.some.inj h]

theorem store_pc (c c1 : cpu) (i v : Int) (h : store c i v = some c1) : c1.pc = c.pc := by
  unfold store at h
  split_ifs at h
  rw [← Option.some.inj h]

theorem load_f64_pc (c c1 : cpu) (f : f64) (h : load_f64 c f = some c1) : c1.pc = c.pc := by
  unfold load_f64 at h
  simp only [Option.bind_eq_bind, Option.bind_eq_some] at h
  obtain ⟨t, _, a, ha, b, hb, hc⟩ := h
  rw [setr_pc _ _ _ _ hc, setr_pc _ _ _ _ hb, setr_pc _ _ _ _ ha]

theorem int_op_pc (c c1 : cpu) (op : Int → Int → Option Int) (h : int_op c op = some c1) :
    c1.pc = c.pc := by
  unfold int_op at h
  simp only [Option.bind_eq_bind, Option.bind_eq_some] at h
  obtain ⟨a, _, b, _, v, _, hc⟩ := h
  exact setr_pc _ _ _ _ hc

theorem float_op_pc (N : Numbering) (c c1 : cpu) (op : f64 → f64 → Option f64)
    (h : float_op N c op = some c1) : c1.pc = c.pc := by
  unfold float_op at h
  simp only [Option.bind_eq_bind, Option.bind_eq_some] at h
  obtain ⟨fs, _, v, _, hc⟩ := h
  exact load_f64_pc _ _ _ hc

theorem arith_pc (N : Numbering) (c c1 : cpu) (iop : Int → Int → Option Int)
    (fop : f64 → f64 → Option f64) (h : arith N c iop fop = some c1) : c1.pc = c.pc + 2 := by
  unfold arith at h
  simp only [Option.bind_eq_bind, Option.pure_def, Option.bind_eq_some] at h
  obtain ⟨c0, h0, hc⟩ := h
  rw [← Option.some.inj hc]
  show c0.pc + 2 = c.pc + 2
  split_ifs at h0
  · rw [float_op_pc _ _ _ _ h0]
  · rw [int_op_pc _ _ _ h0]

theorem bin_op_pc (c c1 : cpu) (op : Int → Int → Option Int) (h : bin_op c op = some c1) :
    c1.pc = c.pc + 2 := by
  unfold bin_op at h
  simp only [Option.bind_eq_bind, Option.pure_def, Option.bind_eq_some] at h
  obtain ⟨c0, h0, hc⟩ := h
  rw [← Option.some.inj hc]
  show c0.pc + 2 = c.pc + 2
  rw [int_op_pc _ _ _ h0]

theorem logic_op_pc (c c1 : cpu) (short : Int → Bool) (v : Int)
    (h : logic_op c short v = some c1) : c1.pc = c.pc + 2 := by
  unfold logic_op at h
  simp only [Option.bind_eq_bind, Option.pure_def, Option.bind_eq_some] at h
  obtain ⟨a, _, w, _, c0, h0, hc⟩ := h
  rw [← Option.some.inj hc]
  show c0.pc + 2 = c.pc + 2
  rw [setr_pc _ _ _ _ h0]

theorem un_op_pc (c c1 : cpu) (op : Int → Int) (h : un_op c op = some c1) :
    c1.pc = c.pc + 1 := by
  unfold un_op at h
  simp only [Option.bind_eq_bind, Option.pure_def, Option.bind_eq_some] at h
  obtain ⟨a, _, c0, h0, hc⟩ := h
  rw [← Option.some.inj hc]
  show c0.pc + 1 = c.pc + 1
  rw [setr_pc _ _ _ _ h0]

theorem dispatch_general_pc (N : Numbering) (c c1 : cpu) (op : Opcode)
    (hop : N.opcode c.inst = some op) (hmem : op ∈ generalForm)
    (h : dispatch N c = some c1) : c1.pc = c.pc + 2 := by
  unfold dispatch at h
  rw [hop] at h
  simp only [generalForm, List.mem_cons, List.mem_singleton, List.not_mem_nil, or_false] at hmem
  rcases hmem with r | r | r | r | r | r | r | r | r | r | r | r | r | r | r | r | r | r <;>
    subst r <;> simp only at h
  · simp only [Option.bind_eq_bind, Option.pure_def, Option.bind_eq_some] at h
    obtain ⟨c0, h0, hc⟩ := h
    rw [← Option.some.inj hc]
    show c0.pc + 2 = c.pc + 2
    split_ifs at h0
    · simp only [Option.bind_eq_bind, Option.pure_def, Option.bind_eq_some] at h0
      obtain ⟨fs, _, hfs⟩ := h0
      rw [← Option.some.inj hfs]; rfl
    · simp only [Option.bind_eq_bind, Option.pure_def, Option.bind_eq_some] at h0
      obtain ⟨a, _, b, _, hab⟩ := h0
      rw [← Option.some.inj hab]; rfl
  · simp only [Option.bind_eq_bind, Option.pure_def, Option.bind_eq_some] at h
    obtain ⟨a, _, hc⟩ := h
    rw [← Option.some.inj hc]; rfl
  · simp only [Option.bind_eq_bind, Option.pure_def, Option.bind_eq_some] at h
    obtain ⟨b, _, c0, h0, hc⟩ := h
    rw [← Option.some.inj hc]
    show c0.pc + 2 = c.pc + 2
    rw [setr_pc _ _ _ _ h0]
  · simp only [Option.bind_eq_bind, Option.pure_def, Option.bind_eq_some] at h
    obtain ⟨b, _, c0, h0, hc⟩ := h
    rw [← Option.some.inj hc]
    show c0.pc + 2 = c.pc + 2
    rw [store_pc _ _ _ _ h0]
  · simp only [Option.bind_eq_bind, Option.pure_def, Option.bind_eq_some] at h
    obtain ⟨b, _, c0, h0, hc⟩ := h
    rw [← Option.some.inj hc]
    show c0.pc + 2 = c.pc + 2
    rw [setr_pc _ _ _ _ h0]
  · simp only [Option.bind_eq_bind, Option.pure_def, Option.bind_eq_some] at h
    obtain ⟨c0, h0, hc⟩ := h
    rw [← Option.some.inj hc]
    show c0.pc + 2 = c.pc + 2
    rw [setr_pc _ _ _ _ h0]
  all_goals first
    | exact arith_pc _ _ _ _ _ h
    | exact bin_op_pc _ _ _ h
    | exact logic_op_pc _ _ _ _ h

/-- C9, as stated, fails at `CLF`: `execute` on a decoded `CLF` is defined and leaves `pc`
where `fetch` put it, not one further. -/
theorem clf_no_pc_advance :
    sampleNumbering.opcode clfCpu.inst = some Opcode.CLF ∧
      ∃ c', execute sampleNumbering clfCpu = some c' ∧ c'.pc = clfCpu.pc ∧
        c'.pc ≠ clfCpu.pc + 1 :=
  ⟨by decide, traced (clear_flags clfCpu), by rfl, by decide, by decide⟩

/-- C9, amended: for `INC`, `DEC`, `BNOT` and `LNOT`, every result of `execute` has `pc`
exactly 1 beyond the value left by `fetch`, and `execute` has a result whenever `dest` is
a register index (two cells each); for `CLF`, `execute` always has a result and leaves
`pc` at the value left by `fetch` (one cell). -/
theorem unary_form_pc (N : Numbering) (c : cpu) (op : Opcode)
    (hop : N.opcode c.inst = some op) :
    (op ∈ [Opcode.INC, Opcode.DEC, Opcode.BNOT, Opcode.LNOT] →
      (∀ c', execute N c = some c' → c'.pc = c.pc + 1) ∧
      (0 ≤ c.dest ∧ c.dest < 16 → ∃ c', execute N c = some c' ∧ c'.pc = c.pc + 1)) ∧
    (op = Opcode.CLF → ∃ c', execute N c = some c' ∧ c'.pc = c.pc) := by
  constructor
  · intro hmem
    have hun : ∃ f, dispatch N c = un_op c f := by
      simp only [List.mem_cons, List.mem_singleton, List.not_mem_nil, or_false] at hmem
      rcases hmem with r | r | r | r <;> subst r <;>
        exact ⟨_, by simp only [dispatch, hop]; rfl⟩
    obtain ⟨f, hf⟩ := hun
    have hall : ∀ c', execute N c = some c' → c'.pc = c.pc + 1 := by
      intro c' h
      rw [execute_eq, hf] at h
      simp only [Option.map_eq_some'] at h
      obtain ⟨c1, h1, ht⟩ := h
      rw [← ht, traced_pc, un_op_pc _ _ _ h1]
    refine ⟨hall, fun hd => ?_⟩
    have hs : ∃ c1, un_op c f = some c1 := by
      simp [un_op, getr, setr, NUM_REGISTERS, hd.1, hd.2]
    obtain ⟨c1, h1⟩ := hs
    have he : execute N c = some (traced c1) := by rw [execute_eq, hf, h1]; rfl
    exact ⟨_, he, hall _ he⟩
  · intro h
    subst h
    refine ⟨traced (clear_flags c), ?_, ?_⟩
    · rw [execute_eq]; simp only [dispatch, hop]; rfl
    · rw [traced_pc]; rfl

/-- Instance of `unary_form_pc` at a decoded `INC 3`. -/
theorem unary_form_pc_witness :
    sampleNumbering.opcode incCpu.inst = some Opcode.INC ∧
    ((Opcode.INC ∈ [Opcode.INC, Opcode.DEC, Opcode.BNOT, Opcode.LNOT] →
      (∀ c', execute sampleNumbering incCpu = some c' → c'.pc = incCpu.pc + 1) ∧
      (0 ≤ incCpu.dest ∧ incCpu.dest < 16 →
        ∃ c', execute sampleNumbering incCpu = some c' ∧ c'.pc = incCpu.pc + 1)) ∧
    (Opcode.INC = Opcode.CLF →
      ∃ c', execute sampleNumbering incCpu = some c' ∧ c'.pc = incCpu.pc)) :=
  ⟨by decide, unary_form_pc sampleNumbering incCpu Opcode.INC (by decide)⟩

/-! ## Unknown opcodes -/

/-- C10, as stated, fails: from `pc = -1` with the cell 0 holding 99, which is no opcode,
the cycle is defined and does not leave `pc` at its value before the cycle, and the fetch
of the following cycle is defined and does not decode the cell 0 again. -/
theorem unknown_opcode_advances :
    sampleNumbering.opcode (unknownCpu.mem (unknownCpu.pc + 1)) = none ∧
      ∃ c', cycle sampleNumbering unknownCpu = some c' ∧ c'.pc ≠ unknownCpu.pc ∧
        ∃ c'', fetch c' = some c'' ∧ c''.pc ≠ unknownCpu.pc + 1 := by
  refine ⟨by decide, ?_⟩
  have h1 : (cycle sampleNumbering unknownCpu).isSome = true := by decide
  obtain ⟨c', hc'⟩ := Option.isSome_iff_exists.mp h1
  have h2 : ((cycle sampleNumbering unknownCpu).map (fun s => s.pc)) = some 0 := by decide
  have h3 : ((cycle sampleNumbering unknownCpu).bind fetch).map (fun s => s.pc) = some 1 := by
    decide
  rw [hc'] at h2 h3
  simp only [Option.map_some', Option.some.injEq, Option.some_bind] at h2 h3
  refine ⟨c', hc', ?_, ?_⟩
  · rw [h2]; decide
  · cases hf : fetch c' with
    | none => rw [hf] at h3; simp at h3
    | some c'' =>
      rw [hf] at h3
      simp only [Option.map_some', Option.some.injEq] at h3
      exact ⟨c'', rfl, by rw [h3]; decide⟩

/-- C10, amended: from `pc = p` with the window `p + 1 .. p + 3` inside memory and the
cell `p + 1` holding a value that is none of the opcodes, the cycle is defined; `execute`
adds nothing to `pc`, so the cycle ends with `pc = p + 1`, the index of that cell, with
every register, flag and memory cell and `sp` unchanged; the next fetch, when its window
is inside memory, is defined, and a defined next fetch decodes the cell `p + 2`: the
value is skipped like a one-cell instruction without effect and the loop goes on. -/
theorem unknown_opcode_skipped (N : Numbering) (c : cpu)
    (hwin : 0 ≤ c.pc + 1 ∧ c.pc + 1 + 2 < c.max_mem)
    (hop : N.opcode (c.mem (c.pc + 1)) = none) :
    ∃ c', cycle N c = some c' ∧ c'.pc = c.pc + 1 ∧ c'.r = c.r ∧ c'.mem = c.mem ∧
      c'.sp = c.sp ∧ c'.zero = c.zero ∧ c'.ltz = c.ltz ∧ c'.gtz = c.gtz ∧
      (∀ c'', fetch c' = some c'' → c''.pc = c.pc + 2 ∧ c''.inst = c.mem (c.pc + 2)) ∧
      (c.pc + 4 < c.max_mem → ∃ c'', fetch c' = some c'') := by
  have hf := fetch_of_window c hwin
  have hd : dispatch N (fetched c) = some (fetched c) := by
    have hop' : N.opcode (fetched c).inst = none := hop
    simp only [dispatch, hop']
  refine ⟨traced (fetched c), ?_, ?_⟩
  · simp [cycle, hf, execute_eq, hd]
  · simp only [traced_pc, traced_r, traced_zero, traced_ltz, traced_gtz, traced_mem, traced_sp]
    refine ⟨rfl, rfl, rfl, rfl, rfl, rfl, rfl, ?_, ?_⟩
    · intro c'' h
      obtain ⟨_, rfl⟩ := fetch_some _ _ h
      simp only [fetched, traced_pc, traced_mem]
      constructor
      · ring
      · congr 1; ring
    · intro hb
      refine ⟨_, fetch_of_window _ ?_⟩
      simp only [traced_pc, traced_max_mem, fetched]
      constructor <;> omega

/-- Instance of `unknown_opcode_skipped`: the value 99 at cell 0. -/
theorem unknown_opcode_skipped_witness :
    ((0 ≤ unknownCpu.pc + 1 ∧ unknownCpu.pc + 1 + 2 < unknownCpu.max_mem) ∧
      sampleNumbering.opcode (unknownCpu.mem (unknownCpu.pc + 1)) = none) ∧
    ∃ c', cycle sampleNumbering unknownCpu = some c' ∧ c'.pc = unknownCpu.pc + 1 ∧
      c'.r = unknownCpu.r ∧ c'.mem = unknownCpu.mem ∧ c'.sp = unknownCpu.sp ∧
      c'.zero = unknownCpu.zero ∧ c'.ltz = unknownCpu.ltz ∧ c'.gtz = unknownCpu.gtz ∧
      (∀ c'', fetch c' = some c'' →
        c''.pc = unknownCpu.pc + 2 ∧ c''.inst = unknownCpu.mem (unknownCpu.pc + 2)) ∧
      (unknownCpu.pc + 4 < unknownCpu.max_mem → ∃ c'', fetch c' = some c'') :=
  ⟨by decide, unknown_opcode_skipped sampleNumbering unknownCpu (by decide) (by decide)⟩

/-! ## Stack -/

theorem cycles_add (N : Numbering) (m k : Nat) :
    ∀ c : cpu, cycles N (m + k) c = (cycles N m c).bind (cycles N k) := by
  induction m with
  | zero => intro c; simp [cycles]
  | succ m ih =>
    intro c
    have : m + 1 + k = (m + k) + 1 := by omega
    rw [this]
    simp only [cycles, Option.bind_eq_bind]
    cases cycle N c with
    | none => rfl
    | some c1 => simp only [Option.some_bind]; exact ih c1

theorem cycles_succ_last (N : Numbering) (m : Nat) (c s : cpu) (h : cycles N m c = some s) :
    cycles N (m + 1) c = cycle N s := by
  rw [cycles_add, h]
  simp only [Option.some_bind, cycles, Option.bind_eq_bind]
  cases cycle N s <;> rfl

theorem push_step (N : Numbering) (s : cpu) (idx : Int)
    (hwin : 0 ≤ s.pc + 1 ∧ s.pc + 1 + 2 < s.max_mem)
    (hop : N.opcode (s.mem (s.pc + 1)) = some Opcode.PUSH)
    (hidx : s.mem (s.pc + 2) = idx) (hreg : 0 ≤ idx ∧ idx < 16)
    (hsp : 0 ≤ s.sp - 1 ∧ s.sp - 1 < s.max_mem) :
    ∃ s', cycle N s = some s' ∧ s'.pc = s.pc + 2 ∧ s'.sp = s.sp - 1 ∧ s'.r = s.r ∧
      s'.max_mem = s.max_mem ∧ s'.mem = Function.update s.mem (s.sp - 1) (s.r idx) := by
  have hf := fetch_of_window s hwin
  have hop' : N.opcode (fetched s).inst = some Opcode.PUSH := hop
  have hl : load (fetched s) ((fetched s).pc + 1) = some idx := by
    rw [load_of_lt (fetched s) _ ⟨by simp only [fetched]; omega, by simp only [fetched]; omega⟩]
    simp only [fetched]
    rw [← hidx]; congr 2; ring
  have hg : getr (fetched s) idx = some (s.r idx) := getr_of_lt (fetched s) idx hreg
  have hd : dispatch N (fetched s) =
      some { fetched s with pc := s.pc + 1 + 1, sp := s.sp - 1,
                            mem := Function.update s.mem (s.sp - 1) (s.r idx) } := by
    simp only [dispatch, hop', hl, hg, Option.bind_eq_bind, Option.some_bind, store]
    have : (0 ≤ (fetched s).sp - 1 ∧ (fetched s).sp - 1 < (fetched s).max_mem) := hsp
    simp only [this, and_self, if_true]
    rfl
  refine ⟨traced { fetched s with pc := s.pc + 1 + 1, sp := s.sp - 1,
                                  mem := Function.update s.mem (s.sp - 1) (s.r idx) }, ?_, ?_⟩
  · simp only [cycle, hf, execute_eq, hd, Option.bind_eq_bind, Option.some_bind, Option.map_some']
  · refine ⟨?_, ?_, ?_, ?_, ?_⟩ <;>
      simp only [traced_pc, traced_sp, traced_r, traced_max_mem, traced_mem] <;>
      first | rfl | ring

theorem pop_step (N : Numbering) (s : cpu) (idx : Int)
    (hwin : 0 ≤ s.pc + 1 ∧ s.pc + 1 + 2 < s.max_mem)
    (hop : N.opcode (s.mem (s.pc + 1)) = some Opcode.POP)
    (hidx : s.mem (s.pc + 2) = idx) (hreg : 0 ≤ idx ∧ idx < 16)
    (hsp : 0 ≤ s.sp ∧ s.sp < s.max_mem) :
    ∃ s', cycle N s = some s' ∧ s'.pc = s.pc + 2 ∧ s'.sp = s.sp + 1 ∧ s'.mem = s.mem ∧
      s'.max_mem = s.max_mem ∧ s'.r = Function.update s.r idx (s.mem s.sp) := by
  have hf := fetch_of_window s hwin
  have hop' : N.opcode (fetched s).inst = some Opcode.POP := hop
  have hl : load (fetched s) ((fetched s).pc + 1) = some idx := by
    rw [load_of_lt (fetched s) _ ⟨by simp only [fetched]; omega, by simp only [fetched]; omega⟩]
    simp only [fetched]
    rw [← hidx]; congr 2; ring
  have hv : load (fetched s) (fetched s).sp = some (s.mem s.sp) :=
    load_of_lt (fetched s) _ hsp
  have hd : dispatch N (fetched s) =
      some { fetched s with pc := s.pc + 1 + 1, sp := s.sp + 1,
                            r := Function.update s.r idx (s.mem s.sp) } := by
    simp only [dispatch, hop', hl, hv, Option.bind_eq_bind, Option.some_bind, setr,
      NUM_REGISTERS]
    simp only [hreg, and_self, if_true]
    rfl
  refine ⟨traced { fetched s with pc := s.pc + 1 + 1, sp := s.sp + 1,
                                  r := Function.update s.r idx (s.mem s.sp) }, ?_, ?_⟩
  · simp only [cycle, hf, execute_eq, hd, Option.bind_eq_bind, Option.some_bind, Option.map_some']
  · refine ⟨?_, ?_, ?_, ?_, ?_⟩ <;>
      simp only [traced_pc, traced_sp, traced_r, traced_max_mem, traced_mem] <;>
      first | rfl | ring

theorem push_phase (N : Numbering) (n : Nat) (c : cpu) (a : Nat → Int)
    (hpush : ∀ i : Nat, i < n →
      N.opcode (c.mem (c.pc + 1 + 2 * i)) = some Opcode.PUSH ∧ c.mem (c.pc + 2 + 2 * i) = a i)
    (ha : ∀ i : Nat, i < n → 0 ≤ a i ∧ a i < 16)
    (hcode : 0 ≤ c.pc + 1 ∧ c.pc + 2 * n + 1 < c.max_mem)
    (hstack : 0 ≤ c.sp - n ∧ c.sp ≤ c.max_mem)
    (hdisj : ∀ i j : Nat, i < n → j < 2 * n → c.sp - 1 - i ≠ c.pc + 1 + j) :
    ∀ j : Nat, j ≤ n → ∃ s, cycles N j c = some s ∧ s.pc = c.pc + 2 * j ∧ s.sp = c.sp - j ∧
      s.r = c.r ∧ s.max_mem = c.max_mem ∧
      (∀ x, (∀ i : Nat, i < j → x ≠ c.sp - 1 - i) → s.mem x = c.mem x) ∧
      (∀ i : Nat, i < j → s.mem (c.sp - 1 - i) = c.r (a i)) := by
  intro j
  induction j with
  | zero =>
    intro _
    refine ⟨c, rfl, by simp, by simp, rfl, rfl, fun x _ => rfl, fun i hi => ?_⟩
    omega
  | succ j ih =>
    intro hj
    obtain ⟨s, hs, hpc, hsp, hr, hmax, hout, hin⟩ := ih (by omega)
    have hjn : j < n := by omega
    have hcell : ∀ t : Nat, t < 2 * n → s.mem (c.pc + 1 + t) = c.mem (c.pc + 1 + t) := by
      intro t ht
      apply hout
      intro i hi heq
      exact hdisj i t (by omega) ht heq.symm
    have hop : N.opcode (s.mem (s.pc + 1)) = some Opcode.PUSH := by
      have h1 : s.pc + 1 = c.pc + 1 + ((2 * j : Nat) : Int) := by rw [hpc]; push_cast; ring
      rw [h1, hcell (2 * j) (by omega)]
      have h2 : c.pc + 1 + ((2 * j : Nat) : Int) = c.pc + 1 + 2 * j := by push_cast; ring
      rw [h2]
      exact (hpush j hjn).1
    have hidx : s.mem (s.pc + 2) = a j := by
      have h1 : s.pc + 2 = c.pc + 1 + ((2 * j + 1 : Nat) : Int) := by
        rw [hpc]; push_cast; ring
      rw [h1, hcell (2 * j + 1) (by omega)]
      have h2 : c.pc + 1 + ((2 * j + 1 : Nat) : Int) = c.pc + 2 + 2 * j := by push_cast; ring
      rw [h2]
      exact (hpush j hjn).2
    obtain ⟨s', hs', hpc', hsp', hr', hmax', hmem'⟩ :=
      push_step N s (a j) (by rw [hpc, hmax]; constructor <;> omega) hop hidx (ha j hjn)
        (by rw [hsp, hmax]; constructor <;> omega)
    refine ⟨s', ?_, ?_, ?_, ?_, ?_, ?_, ?_⟩
    · rw [cycles_succ_last N j c s hs, hs']
    · rw [hpc', hpc]; push_cast; ring
    · rw [hsp', hsp]; push_cast; ring
    · rw [hr', hr]
    · rw [hmax', hmax]
    · intro x hx
      rw [hmem']
      have hne : x ≠ s.sp - 1 := by
        rw [hsp]
        have := hx j (by omega)
        intro h; apply this; rw [h]; ring
      rw [Function.update_noteq hne]
      exact hout x (fun i hi => hx i (by omega))
    · intro i hi
      rw [hmem']
      by_cases hij : i = j
      · subst hij
        have : c.sp - 1 - (i : Int) = s.sp - 1 := by rw [hsp]; ring
        rw [this, Function.update_same, hr]
      · have hne : c.sp - 1 - (i : Int) ≠ s.sp - 1 := by
          rw [hsp]; omega
        rw [Function.update_noteq hne]
        exact hin i (by omega)

theorem pop_phase (N : Numbering) (n : Nat) (s0 : cpu) (b : Nat → Int)
    (hpop : ∀ i : Nat, i < n →
      N.opcode (s0.mem (s0.pc + 1 + 2 * i)) = some Opcode.POP ∧
        s0.mem (s0.pc + 2 + 2 * i) = b i)
    (hb : ∀ i : Nat, i < n → 0 ≤ b i ∧ b i < 16)
    (hcode : 0 ≤ s0.pc + 1 ∧ s0.pc + 2 * n + 1 < s0.max_mem)
    (hstack : 0 ≤ s0.sp ∧ s0.sp + n ≤ s0.max_mem) :
    ∀ k : Nat, k ≤ n → ∃ s, cycles N k s0 = some s ∧ s.pc = s0.pc + 2 * k ∧
      s.sp = s0.sp + k ∧ s.mem = s0.mem ∧ s.max_mem = s0.max_mem ∧
      (∀ i : Nat, k = i + 1 → s.r (b i) = s0.mem (s0.sp + i)) := by
  intro k
  induction k with
  | zero =>
    intro _
    refine ⟨s0, rfl, by simp, by simp, rfl, rfl, fun i hi => ?_⟩
    omega
  | succ k ih =>
    intro hk
    obtain ⟨s, hs, hpc, hsp, hmem, hmax, _⟩ := ih (by omega)
    have hkn : k < n := by omega
    have hop : N.opcode (s.mem (s.pc + 1)) = some Opcode.POP := by
      have h1 : s.pc + 1 = s0.pc + 1 + 2 * k := by rw [hpc]; ring
      rw [h1, hmem]
      exact (hpop k hkn).1
    have hidx : s.mem (s.pc + 2) = b k := by
      have h1 : s.pc + 2 = s0.pc + 2 + 2 * k := by rw [hpc]; ring
      rw [h1, hmem]
      exact (hpop k hkn).2
    obtain ⟨s', hs', hpc', hsp', hmem', hmax', hr'⟩ :=
      pop_step N s (b k) (by rw [hpc, hmax]; constructor <;> omega) hop hidx (hb k hkn)
        (by rw [hsp, hmax]; constructor <;> omega)
    refine ⟨s', ?_, ?_, ?_, ?_, ?_, ?_⟩
    · rw [cycles_succ_last N k s0 s hs, hs']
    · rw [hpc', hpc]; push_cast; ring
    · rw [hsp', hsp]; push_cast; ring
    · rw [hmem', hmem]
    · rw [hmax', hmax]
    · intro i hi
      have hik : i = k := by omega
      subst hik
      rw [hr', Function.update_same, hmem, hsp]

/-- C5: let the `4 n` cells after `pc` hold `PUSH a_0 .. PUSH a_(n-1)` followed by
`POP b_0 .. POP b_(n-1)` with all `a_i`, `b_i` register indices, the instruction stream
with the window of its last fetch lie inside memory, and the `n` cells below `sp` lie
inside memory and be disjoint from the `4 n` instruction cells.  Then the `2 n` cycles are
defined and end with `sp` equal to its value before the sequence, and for each `k < n`
the state after the pop number `k` (counted from 0) holds in `b_k` the value that the
push number `n - 1 - k` stored, the register `a_(n-1-k)` of the initial state: the values
come back in LIFO order. -/
theorem stack_lifo (N : Numbering) (n : Nat) (c : cpu) (a b : Nat → Int)
    (hpush : ∀ i : Nat, i < n →
      N.opcode (c.mem (c.pc + 1 + 2 * i)) = some Opcode.PUSH ∧ c.mem (c.pc + 2 + 2 * i) = a i)
    (hpop : ∀ i : Nat, i < n →
      N.opcode (c.mem (c.pc + 1 + 2 * n + 2 * i)) = some Opcode.POP ∧
        c.mem (c.pc + 2 + 2 * n + 2 * i) = b i)
    (ha : ∀ i : Nat, i < n → 0 ≤ a i ∧ a i < 16)
    (hb : ∀ i : Nat, i < n → 0 ≤ b i ∧ b i < 16)
    (hcode : 0 < n → 0 ≤ c.pc + 1 ∧ c.pc + 4 * n + 1 < c.max_mem)
    (hstack : 0 ≤ c.sp - n ∧ c.sp ≤ c.max_mem)
    (hdisj : ∀ i j : Nat, i < n → j < 4 * n → c.sp - 1 - i ≠ c.pc + 1 + j) :
    (∃ c', cycles N (2 * n) c = some c' ∧ c'.sp = c.sp) ∧
    ∀ k : Nat, k < n →
      ∃ ck, cycles N (n + k + 1) c = some ck ∧ ck.r (b k) = c.r (a (n - 1 - k)) := by
  rcases Nat.eq_zero_or_pos n with hn | hn
  · subst hn
    exact ⟨⟨c, rfl, rfl⟩, fun k hk => absurd hk (Nat.not_lt_zero k)⟩
  obtain ⟨hc0, hc1⟩ := hcode hn
  obtain ⟨s0, hs0, hpc0, hsp0, hr0, hmax0, hout0, hin0⟩ :=
    push_phase N n c a hpush ha ⟨hc0, by omega⟩ hstack
      (fun i j hi hj => hdisj i j hi (by omega)) n le_rfl
  have hcell : ∀ t : Nat, t < 4 * n → s0.mem (c.pc + 1 + t) = c.mem (c.pc + 1 + t) := by
    intro t ht
    apply hout0
    intro i hi heq
    exact hdisj i t hi ht heq.symm
  have hpop0 : ∀ i : Nat, i < n →
      N.opcode (s0.mem (s0.pc + 1 + 2 * i)) = some Opcode.POP ∧
        s0.mem (s0.pc + 2 + 2 * i) = b i := by
    intro i hi
    have h1 : s0.pc + 1 + 2 * (i : Int) = c.pc + 1 + ((2 * n + 2 * i : Nat) : Int) := by
      rw [hpc0]; push_cast; ring
    have h2 : s0.pc + 2 + 2 * (i : Int) = c.pc + 1 + ((2 * n + 2 * i + 1 : Nat) : Int) := by
      rw [hpc0]; push_cast; ring
    rw [h1, h2, hcell _ (by omega), hcell _ (by omega)]
    have h3 : c.pc + 1 + ((2 * n + 2 * i : Nat) : Int) = c.pc + 1 + 2 * n + 2 * i := by
      push_cast; ring
    have h4 : c.pc + 1 + ((2 * n + 2 * i + 1 : Nat) : Int) = c.pc + 2 + 2 * n + 2 * i := by
      push_cast; ring
    rw [h3, h4]
    exact hpop i hi
  have hphase := pop_phase N n s0 b hpop0 hb
    (by rw [hpc0, hmax0]; constructor <;> omega) (by rw [hsp0, hmax0]; constructor <;> omega)
  constructor
  · obtain ⟨s, hs, _, hsp, _, _, _⟩ := hphase n le_rfl
    refine ⟨s, ?_, ?_⟩
    · have : 2 * n = n + n := by ring
      rw [this, cycles_add, hs0]
      exact hs
    · rw [hsp, hsp0]; ring
  · intro k hk
    obtain ⟨s, hs, _, _, _, _, hr⟩ := hphase (k + 1) (by omega)
    refine ⟨s, ?_, ?_⟩
    · have : n + k + 1 = n + (k + 1) := by ring
      rw [this, cycles_add, hs0]
      exact hs
    · rw [hr k rfl, hsp0]
      have : c.sp - (n : Int) + (k : Int) = c.sp - 1 - ((n - 1 - k : Nat) : Int) := by omega
      rw [this]
      exact hin0 (n - 1 - k) (by omega)

/-- Instance of `stack_lifo` with `n = 2`: `PUSH 1; PUSH 2; POP 3; POP 4` on a 32 cell
memory with `r[1] = 11`, `r[2] = 22`. -/
theorem stack_lifo_witness :
    (stackCpu.r 1 = 11 ∧ stackCpu.r 2 = 22 ∧ stackCpu.sp = 31 ∧ stackCpu.pc = -1) ∧
    ((∃ c', cycles sampleNumbering (2 * 2) stackCpu = some c' ∧ c'.sp = stackCpu.sp) ∧
      ∀ k : Nat, k < 2 →
        ∃ ck, cycles sampleNumbering (2 + k + 1) stackCpu = some ck ∧
          ck.r (stackB k) = stackCpu.r (stackA (2 - 1 - k))) :=
  ⟨by decide,
   stack_lifo sampleNumbering 2 stackCpu stackA stackB (by decide) (by decide) (by decide)
     (by decide) (fun _ => by decide) (by decide)
     (fun i j hi hj => by
       show (31 : Int) - 1 - i ≠ -1 + 1 + j
       omega)⟩

/-! ## The text path of the codec -/

theorem digitChar_isDigit (d : Nat) (h : d < 10) :
    (Nat.digitChar d).isDigit = true ∧ (Nat.digitChar d).toNat - 48 = d := by
  interval_cases d <;> decide

theorem scanDigits_digit (d : Nat) (h : d < 10) (cs : List Char) (acc k : Nat) :
    scanDigits (Nat.digitChar d :: cs) acc k = scanDigits cs (10 * acc + d) (k + 1) := by
  obtain ⟨h1, h2⟩ := digitChar_isDigit d h
  simp only [scanDigits, h1, h2, if_true]

theorem scanDigits_toDigitsCore (fuel : Nat) :
    ∀ n : Nat, n < fuel → ∃ L : Nat, 0 < L ∧ ∀ (ds rest : List Char) (acc k : Nat),
      scanDigits (Nat.toDigitsCore 10 fuel n ds ++ rest) acc k =
        scanDigits (ds ++ rest) (acc * 10 ^ L + n) (k + L) := by
  induction fuel with
  | zero => intro n hn; omega
  | succ fuel ih =>
    intro n hn
    by_cases h0 : n / 10 = 0
    · refine ⟨1, Nat.one_pos, fun ds rest acc k => ?_⟩
      have hlt : n < 10 := by omega
      have hmod : n % 10 = n := Nat.mod_eq_of_lt hlt
      simp only [Nat.toDigitsCore, h0, if_true, hmod, List.cons_append]
      rw [scanDigits_digit n hlt]
      congr 1
      ring
    · obtain ⟨L, hL, hscan⟩ := ih (n / 10) (by omega)
      refine ⟨L + 1, Nat.succ_pos L, fun ds rest acc k => ?_⟩
      simp only [Nat.toDigitsCore, h0, if_false]
      rw [hscan, List.cons_append, scanDigits_digit _ (Nat.mod_lt n (by norm_num))]
      have hval : 10 * (acc * 10 ^ L + n / 10) + n % 10 = acc * 10 ^ (L + 1) + n := by
        have := Nat.div_add_mod n 10
        rw [pow_succ]
        nlinarith [this]
      rw [hval]
      congr 1

theorem scanDigits_toDigits (n : Nat) :
    ∃ L : Nat, 0 < L ∧ ∀ (rest : List Char),
      scanDigits (Nat.toDigits 10 n ++ rest) 0 0 = scanDigits rest n L := by
  obtain ⟨L, hL, h⟩ := scanDigits_toDigitsCore (n + 1) n (Nat.lt_succ_self n)
  refine ⟨L, hL, fun rest => ?_⟩
  have := h [] rest 0 0
  simpa [Nat.toDigits] using this

theorem scanDigits_fracText (m : Nat) (hm : m < 1000000) :
    scanDigits (fracText m) 0 0 = (m, 6, []) := by
  unfold fracText
  rw [scanDigits_digit _ (Nat.mod_lt _ (by norm_num)),
    scanDigits_digit _ (Nat.mod_lt _ (by norm_num)),
    scanDigits_digit _ (Nat.mod_lt _ (by norm_num)),
    scanDigits_digit _ (Nat.mod_lt _ (by norm_num)),
    scanDigits_digit _ (Nat.mod_lt _ (by norm_num)),
    scanDigits_digit _ (Nat.mod_lt _ (by norm_num))]
  simp only [scanDigits]
  refine Prod.ext ?_ rfl
  show _ = m
  omega

theorem scan_lld_of_scan (s : List Char) (v L : Nat) (rest : List Char) (hL : 0 < L)
    (h : scanDigits s 0 0 = (v, L, rest)) :
    scan_lld s = if fits64 (v : Int) then some ((v : Int), L, rest) else none := by
  obtain ⟨k, rfl⟩ : ∃ k, L = k + 1 := ⟨L - 1, by omega⟩
  unfold scan_lld
  split
  · rename_i t
    have : scanDigits ('-' :: t) 0 0 = (0, 0, '-' :: t) := by
      simp only [scanDigits]; rfl
    rw [this] at h
    simp at h
  · rename_i t
    have : scanDigits ('+' :: t) 0 0 = (0, 0, '+' :: t) := by
      simp only [scanDigits]; rfl
    rw [this] at h
    simp at h
  · simp only [h]
    simp

theorem scan_lld_minus (t : List Char) (v L : Nat) (rest : List Char) (hL : 0 < L)
    (h : scanDigits t 0 0 = (v, L, rest)) :
    scan_lld ('-' :: t) =
      if fits64 (-(v : Int)) then some (-(v : Int), 1 + L, rest) else none := by
  obtain ⟨k, rfl⟩ : ∃ k, L = k + 1 := ⟨L - 1, by omega⟩
  unfold scan_lld
  simp only [h]
  simp

theorem scanDigits_point (rest : List Char) (v L : Nat) :
    scanDigits ('.' :: rest) v L = (v, L, '.' :: rest) := by
  simp only [scanDigits]; rfl

theorem scan_lld_fracText (m : Nat) (hm : m < 1000000) :
    scan_lld (fracText m) = some ((m : Int), 6, []) := by
  rw [scan_lld_of_scan _ m 6 [] (by norm_num) (scanDigits_fracText m hm)]
  have : fits64 (m : Int) := by
    unfold fits64 INT64_MIN INT64_MAX; constructor <;> omega
  simp [this]

/-- The triple that `parse_f64` yields, in terms of the value scaled by `10 ^ 6` and
rounded: the integer part carries the sign, the fractional run is the remainder, and the
count of leading zeros is 5 minus `floor (log10 frac)` (5 for a zero run). -/
theorem parse_f64_eq (f : f64) (m : Nat) (hm : roundHalfEven (|f| * 1000000) = m)
    (hfit : ((m / 1000000 : Nat) : Int) ≤ INT64_MAX) :
    parse_f64 f =
      some ((if f < 0 then -((m / 1000000 : Nat) : Int) else ((m / 1000000 : Nat) : Int)),
        ((m % 1000000 : Nat) : Int),
        (if m % 1000000 = 0 then 5 else 5 - (ilog10 (m % 1000000) : Int))) := by
  obtain ⟨L, hL, hscan⟩ := scanDigits_toDigits (m / 1000000)
  have hint := hscan ('.' :: fracText (m % 1000000))
  rw [scanDigits_point] at hint
  have hfrac := scan_lld_fracText (m % 1000000) (Nat.mod_lt m (by norm_num))
  have hfitp : fits64 ((m / 1000000 : Nat) : Int) := by
    unfold fits64 INT64_MIN; constructor
    · omega
    · exact hfit
  have hfitn : fits64 (-((m / 1000000 : Nat) : Int)) := by
    unfold INT64_MAX at hfit
    unfold fits64 INT64_MIN INT64_MAX; constructor <;> omega
  unfold parse_f64 snprintf_concat_float
  simp only [hm]
  by_cases hneg : f < 0
  · simp only [hneg, if_true, List.singleton_append, List.cons_append, List.nil_append,
      List.append_assoc]
    rw [scan_lld_minus _ _ L _ hL hint]
    simp only [hfitn, if_true, hfrac]
    congr 2
    by_cases hz : m % 1000000 = 0
    · simp [hz]
    · have hz' : ((m % 1000000 : Nat) : Int) ≠ 0 := by exact_mod_cast hz
      simp only [hz, hz', if_false, Int.toNat_ofNat]
      push_cast
      congr 1
      ring
  · simp only [hneg, if_false, List.nil_append, List.append_assoc]
    rw [scan_lld_of_scan _ _ L _ hL hint]
    simp only [hfitp, if_true, hfrac]
    congr 2
    by_cases hz : m % 1000000 = 0
    · simp [hz]
    · have hz' : ((m % 1000000 : Nat) : Int) ≠ 0 := by exact_mod_cast hz
      simp only [hz, hz', if_false, Int.toNat_ofNat]
      push_cast
      congr 1
      ring

theorem roundHalfEven_natCast (m : Nat) : roundHalfEven (m : ℚ) = m := by
  unfold roundHalfEven
  simp

theorem ilog10_lt_six (F : Nat) (hF : F < 1000000) (h0 : F ≠ 0) : ilog10 F < 6 := by
  rw [ilog10_eq_log]
  exact Nat.log_lt_of_lt_pow h0 (by norm_num; exact hF)

/-- The exponent that `build_f64` computes for a triple produced by `parse_f64` from a
non-zero fractional run is 6, the width of the run. -/
theorem build_exp_six (F : Nat) (hF : F < 1000000) (h0 : F ≠ 0) :
    (if (5 - (ilog10 F : Int)) > 0 then ((ilog10 F : Int) + 1) + (5 - (ilog10 F : Int))
      else ((ilog10 F : Int) + 1)) = 6 := by
  have := ilog10_lt_six F hF h0
  split_ifs with h <;> omega

/-- Decoding of a triple `(± I, F, lz)` produced by `parse_f64`. -/
theorem build_f64_parsed (neg : Bool) (I F : Nat) (hI : (I : Int) ≤ INT64_MAX)
    (hF : F < 1000000) (hneg : neg = true → 0 < I) :
    build_f64 (if neg then -(I : Int) else (I : Int)) (F : Int)
        (if F = 0 then 5 else 5 - (ilog10 F : Int)) =
      some ((if neg then (-1 : ℚ) else 1) * ((I : ℚ) + (F : ℚ) / 1000000)) := by
  have hw : wrap64 ((if neg then (-1 : Int) else 1) *
      (if neg then -(I : Int) else (I : Int))) = I := by
    rw [wrap64_of_fits]
    · cases neg <;> simp
    · unfold INT64_MAX at hI
      unfold fits64 INT64_MIN INT64_MAX
      cases neg <;> simp <;> omega
  have hsign : (if (if neg then -(I : Int) else (I : Int)) < 0 then (-1 : Int) else 1)
      = if neg then -1 else 1 := by
    cases neg with
    | false => simp
    | true =>
      have := hneg rfl
      have h' : -(I : Int) < 0 := by omega
      simp [h']
  rw [build_f64_exact _ _ _ (by omega) (fun h =>
    floor_log10l_exact _ (by simpa using h) (by simp only [Int.toNat_ofNat]; omega))]
  simp only [hsign, hw]
  congr 1
  have hcast : (((if neg then (-1 : Int) else 1) : Int) : ℚ) = if neg then (-1 : ℚ) else 1 := by
    cases neg <;> simp
  rw [hcast]
  congr 2
  by_cases h0 : F = 0
  · subst h0; simp
  · have h0' : (F : Int) ≠ 0 := by exact_mod_cast h0
    simp only [h0, h0', if_false, Int.toNat_ofNat]
    rw [build_exp_six F hF h0]
    norm_num
    ring

/-- Round trip of the codec away from the interval (-1, 0): a value `d` with at most six
fractional digits (`|d| * 10 ^ 6` is the natural number `m`) whose integer part fits in
`i64`, with `d ≥ 0` or `d ≤ -1`, is encoded by `parse_f64` into a triple that `build_f64`
decodes to `d`. -/
theorem codec_roundtrip (d : f64) (m : Nat) (hd : |d| * 1000000 = (m : ℚ))
    (hfit : ((m / 1000000 : Nat) : Int) ≤ INT64_MAX) (hsign : 0 ≤ d ∨ d ≤ -1) :
    ∃ t, parse_f64 d = some t ∧ build_f64 t.1 t.2.1 t.2.2 = some d := by
  have hm : roundHalfEven (|d| * 1000000) = m := by rw [hd]; exact roundHalfEven_natCast m
  refine ⟨_, parse_f64_eq d m hm hfit, ?_⟩
  have hsplit : (m : ℚ) = 1000000 * ((m / 1000000 : Nat) : ℚ) + ((m % 1000000 : Nat) : ℚ) := by
    exact_mod_cast (Nat.div_add_mod m 1000000).symm
  have hb := build_f64_parsed (decide (d < 0)) (m / 1000000) (m % 1000000) hfit
    (Nat.mod_lt m (by norm_num)) (by
      intro hlt
      have hlt' : d < 0 := of_decide_eq_true hlt
      have hle : d ≤ -1 := by
        rcases hsign with h | h
        · linarith
        · exact h
      have habs : |d| = -d := abs_of_neg hlt'
      have : (1000000 : ℚ) ≤ (m : ℚ) := by rw [← hd, habs]; linarith
      have : 1000000 ≤ m := by exact_mod_cast this
      omega)
  simp only [decide_eq_true_eq] at hb
  simp only []
  rw [hb]
  congr 1
  by_cases hlt : d < 0
  · have habs : |d| = -d := abs_of_neg hlt
    rw [habs] at hd
    simp only [hlt, if_true]
    linarith
  · have habs : |d| = d := abs_of_nonneg (not_lt.mp hlt)
    rw [habs] at hd
    simp only [hlt, if_false]
    linarith

/-! ## Integer arithmetic -/

theorem tmod_sign_bound (a b : Int) (hb : b ≠ 0) :
    |Int.tmod a b| < |b| ∧
      (Int.tmod a b = 0 ∨ (0 < Int.tmod a b ∧ 0 < a) ∨ (Int.tmod a b < 0 ∧ a < 0)) := by
  have hdef := Int.tmod_def a b
  rcases le_or_lt 0 a with ha | ha
  · have h0 := Int.tmod_nonneg b ha
    have hlt : Int.tmod a b < |b| := by
      rcases lt_or_gt_of_ne hb with hneg | hpos
      · rw [abs_of_neg hneg, ← Int.tmod_neg]
        exact Int.tmod_lt_of_pos a (by omega)
      · rw [abs_of_pos hpos]
        exact Int.tmod_lt_of_pos a hpos
    refine ⟨by rw [abs_of_nonneg h0]; exact hlt, ?_⟩
    rcases eq_or_lt_of_le h0 with h | h
    · exact Or.inl h.symm
    · refine Or.inr (Or.inl ⟨h, ?_⟩)
      rcases eq_or_lt_of_le ha with h' | h'
      · rw [← h'] at h; simp at h
      · exact h'
  · obtain ⟨m, rfl⟩ : ∃ m : Nat, a = Int.negSucc m := by
      cases a with
      | ofNat k => exact absurd ha (by simp)
      | negSucc k => exact ⟨k, rfl⟩
    obtain ⟨n, hn⟩ : ∃ n : Nat, Int.tmod (Int.negSucc m) b = -((( m + 1) % n : Nat) : Int) ∧ 0 < n ∧ (n : Int) = |b| := by
      cases b with
      | ofNat k =>
        refine ⟨k, rfl, ?_, ?_⟩
        · rcases Nat.eq_zero_or_pos k with h | h
          · subst h; exact absurd rfl hb
          · exact h
        · simp
      | negSucc k =>
        refine ⟨k + 1, rfl, Nat.succ_pos k, ?_⟩
        rw [abs_of_neg (Int.negSucc_lt_zero k)]
        rfl
    obtain ⟨hr, hnpos, hnb⟩ := hn
    have hmod := Nat.mod_lt (m + 1) hnpos
    rw [hr, ← hnb]
    refine ⟨by rw [abs_neg, abs_of_nonneg (by omega)]; omega, ?_⟩
    rcases Nat.eq_zero_or_pos ((m + 1) % n) with h | h
    · left; rw [h]; rfl
    · right; right; exact ⟨by omega, ha⟩

theorem setr_of_lt (c : cpu) (i v : Int) (h : 0 ≤ i ∧ i < 16) :
    setr c i v = some { c with r := Function.update c.r i v } := by
  simp [setr, NUM_REGISTERS, h.1, h.2]

theorem arith_int (N : Numbering) (c : cpu) (iop : Int → Int → Option Int)
    (fop : f64 → f64 → Option f64) (v : Int)
    (htag : N.vtype (c.r R0A) ≠ some VType.V_FLOAT)
    (hd : 0 ≤ c.dest ∧ c.dest < 16) (hs : 0 ≤ c.src ∧ c.src < 16)
    (hv : iop (c.r c.dest) (c.r c.src) = some v) :
    arith N c iop fop =
      some { c with r := Function.update c.r c.dest v, pc := c.pc + 2 } := by
  simp only [arith, htag, if_false, int_op, getr_of_lt c _ hd, getr_of_lt c _ hs, hv,
    setr_of_lt c _ v hd, Option.bind_eq_bind, Option.some_bind, Option.pure_def]

theorem lii_cycle (N : Numbering) (s : cpu) (A v : Int)
    (hwin : 0 ≤ s.pc + 1 ∧ s.pc + 1 + 2 < s.max_mem)
    (hop : N.opcode (s.mem (s.pc + 1)) = some Opcode.LII)
    (hA : s.mem (s.pc + 2) = A) (hv : s.mem (s.pc + 3) = v) (hreg : 0 ≤ A ∧ A < 16) :
    ∃ s', cycle N s = some s' ∧ s'.pc = s.pc + 3 ∧ s'.r = Function.update s.r A v ∧
      s'.mem = s.mem ∧ s'.max_mem = s.max_mem := by
  have hf := fetch_of_window s hwin
  have hop' : N.opcode (fetched s).inst = some Opcode.LII := hop
  have hd : (fetched s).dest = A := by rw [← hA]; simp only [fetched]; congr 1; ring
  have hs : (fetched s).src = v := by rw [← hv]; simp only [fetched]; congr 1; ring
  have hdisp : dispatch N (fetched s) =
      some { fetched s with r := Function.update s.r A v, pc := s.pc + 1 + 2 } := by
    simp only [dispatch, hop', hd, hs, setr_of_lt (fetched s) A v hreg, Option.bind_eq_bind,
      Option.some_bind, Option.pure_def]
    rfl
  refine ⟨traced { fetched s with r := Function.update s.r A v, pc := s.pc + 1 + 2 }, ?_, ?_⟩
  · simp only [cycle, hf, execute_eq, hdisp, Option.bind_eq_bind, Option.some_bind,
      Option.map_some']
  · refine ⟨?_, ?_, ?_, ?_⟩ <;>
      simp only [traced_pc, traced_r, traced_max_mem, traced_mem] <;>
      first | rfl | ring

theorem add_int_cycle (N : Numbering) (s : cpu) (A B : Int)
    (hwin : 0 ≤ s.pc + 1 ∧ s.pc + 1 + 2 < s.max_mem)
    (hop : N.opcode (s.mem (s.pc + 1)) = some Opcode.ADD)
    (hA : s.mem (s.pc + 2) = A) (hB : s.mem (s.pc + 3) = B)
    (hregA : 0 ≤ A ∧ A < 16) (hregB : 0 ≤ B ∧ B < 16)
    (htag : N.vtype (s.r R0A) ≠ some VType.V_FLOAT) :
    ∃ s', cycle N s = some s' ∧ s'.pc = s.pc + 3 ∧
      s'.r = Function.update s.r A (wrap64 (s.r A + s.r B)) ∧
      s'.mem = s.mem ∧ s'.max_mem = s.max_mem := by
  have hf := fetch_of_window s hwin
  have hop' : N.opcode (fetched s).inst = some Opcode.ADD := hop
  have hd : (fetched s).dest = A := by rw [← hA]; simp only [fetched]; congr 1; ring
  have hs : (fetched s).src = B := by rw [← hB]; simp only [fetched]; congr 1; ring
  have hdisp : dispatch N (fetched s) =
      some { fetched s with r := Function.update s.r A (wrap64 (s.r A + s.r B)),
                            pc := s.pc + 1 + 2 } := by
    simp only [dispatch, hop']
    rw [arith_int N (fetched s) _ _ (wrap64 (s.r A + s.r B)) htag (by rw [hd]; exact hregA)
      (by rw [hs]; exact hregB) (by rw [hd, hs]; rfl)]
    rw [hd]
    rfl
  refine ⟨traced { fetched s with r := Function.update s.r A (wrap64 (s.r A + s.r B)),
                                  pc := s.pc + 1 + 2 }, ?_, ?_⟩
  · simp only [cycle, hf, execute_eq, hdisp, Option.bind_eq_bind, Option.some_bind,
      Option.map_some']
  · refine ⟨?_, ?_, ?_, ?_⟩ <;>
      simp only [traced_pc, traced_r, traced_max_mem, traced_mem] <;>
      first | rfl | ring

/-- Scenario A for an arbitrary numbering: from a state whose next nine cells hold
`LII A, 7; LII B, 3; ADD A, B`, with `A`, `B` two distinct registers other than `R0A` and a
tag in `R0A` that is not the decimal tag, three cycles are defined and leave 10 in `A`. -/
theorem scenario_a (N : Numbering) (s : cpu) (A B : Int)
    (hwin : 0 ≤ s.pc + 1 ∧ s.pc + 9 < s.max_mem)
    (h1 : N.opcode (s.mem (s.pc + 1)) = some Opcode.LII ∧ s.mem (s.pc + 2) = A ∧
      s.mem (s.pc + 3) = 7)
    (h2 : N.opcode (s.mem (s.pc + 4)) = some Opcode.LII ∧ s.mem (s.pc + 5) = B ∧
      s.mem (s.pc + 6) = 3)
    (h3 : N.opcode (s.mem (s.pc + 7)) = some Opcode.ADD ∧ s.mem (s.pc + 8) = A ∧
      s.mem (s.pc + 9) = B)
    (hA : 0 ≤ A ∧ A < 16) (hB : 0 ≤ B ∧ B < 16) (hAB : A ≠ B) (hA0 : A ≠ R0A)
    (hB0 : B ≠ R0A) (htag : N.vtype (s.r R0A) ≠ some VType.V_FLOAT) :
    ∃ s', cycles N 3 s = some s' ∧ s'.r A = 10 := by
  obtain ⟨s1, hc1, hpc1, hr1, hm1, hx1⟩ :=
    lii_cycle N s A 7 ⟨hwin.1, by omega⟩ h1.1 h1.2.1 h1.2.2 hA
  have e4 : s1.pc + 1 = s.pc + 4 := by rw [hpc1]; ring
  have e5 : s1.pc + 2 = s.pc + 5 := by rw [hpc1]; ring
  have e6 : s1.pc + 3 = s.pc + 6 := by rw [hpc1]; ring
  obtain ⟨s2, hc2, hpc2, hr2, hm2, hx2⟩ :=
    lii_cycle N s1 B 3 (by rw [hpc1, hx1]; constructor <;> omega)
      (by rw [e4, hm1]; exact h2.1) (by rw [e5, hm1]; exact h2.2.1)
      (by rw [e6, hm1]; exact h2.2.2) hB
  have e7 : s2.pc + 1 = s.pc + 7 := by rw [hpc2, hpc1]; ring
  have e8 : s2.pc + 2 = s.pc + 8 := by rw [hpc2, hpc1]; ring
  have e9 : s2.pc + 3 = s.pc + 9 := by rw [hpc2, hpc1]; ring
  have htag2 : N.vtype (s2.r R0A) ≠ some VType.V_FLOAT := by
    rw [hr2, hr1, Function.update_noteq (Ne.symm hB0), Function.update_noteq (Ne.symm hA0)]
    exact htag
  obtain ⟨s3, hc3, _, hr3, _, _⟩ :=
    add_int_cycle N s2 A B (by rw [hpc2, hpc1, hx2, hx1]; constructor <;> omega)
      (by rw [e7, hm2, hm1]; exact h3.1) (by rw [e8, hm2, hm1]; exact h3.2.1)
      (by rw [e9, hm2, hm1]; exact h3.2.2) hA hB htag2
  refine ⟨s3, ?_, ?_⟩
  · simp only [cycles, hc1, hc2, hc3, Option.bind_eq_bind, Option.some_bind]
  · rw [hr3, Function.update_same, hr2, Function.update_same,
      Function.update_noteq hAB, hr1, Function.update_same]
    decide

theorem wrap64_spec (x : Int) : fits64 (wrap64 x) ∧ (wrap64 x - x) % 2 ^ 64 = 0 := by
  unfold fits64 INT64_MIN INT64_MAX wrap64
  omega

/-- C11: when the tag in `R0A` is not the decimal tag and `dest`, `src` are register
indices, `ADD dest, src` executes and leaves in `r[dest]` the sum `r[dest] + r[src]`
reduced modulo `2 ^ 64` into the range of `i64`, every other register, every flag and
memory cell and `sp` being unchanged; and from any state whose next nine cells hold
`LII A, 7; LII B, 3; ADD A, B` (two distinct registers other than `R0A`) with the integer
tag in `R0A`, three cycles are defined and end with `r[A] = 10`. -/
theorem add_int_wraps (N : Numbering) (c : cpu)
    (hop : N.opcode c.inst = some Opcode.ADD)
    (htag : N.vtype (c.r R0A) ≠ some VType.V_FLOAT)
    (hd : 0 ≤ c.dest ∧ c.dest < 16) (hs : 0 ≤ c.src ∧ c.src < 16) :
    (∃ c', execute N c = some c' ∧
      c'.r c.dest = wrap64 (c.r c.dest + c.r c.src) ∧
      fits64 (c'.r c.dest) ∧ (c'.r c.dest - (c.r c.dest + c.r c.src)) % 2 ^ 64 = 0 ∧
      (∀ i, i ≠ c.dest → c'.r i = c.r i) ∧
      c'.zero = c.zero ∧ c'.ltz = c.ltz ∧ c'.gtz = c.gtz ∧ c'.mem = c.mem ∧ c'.sp = c.sp) ∧
    (∀ (s : cpu) (A B : Int),
      (0 ≤ s.pc + 1 ∧ s.pc + 9 < s.max_mem) →
      (N.opcode (s.mem (s.pc + 1)) = some Opcode.LII ∧ s.mem (s.pc + 2) = A ∧
        s.mem (s.pc + 3) = 7) →
      (N.opcode (s.mem (s.pc + 4)) = some Opcode.LII ∧ s.mem (s.pc + 5) = B ∧
        s.mem (s.pc + 6) = 3) →
      (N.opcode (s.mem (s.pc + 7)) = some Opcode.ADD ∧ s.mem (s.pc + 8) = A ∧
        s.mem (s.pc + 9) = B) →
      (0 ≤ A ∧ A < 16) → (0 ≤ B ∧ B < 16) → A ≠ B → A ≠ R0A → B ≠ R0A →
      N.vtype (s.r R0A) = some VType.V_INT →
      ∃ s', cycles N 3 s = some s' ∧ s'.r A = 10) := by
  constructor
  · have hdisp : dispatch N c =
        some { c with r := Function.update c.r c.dest (wrap64 (c.r c.dest + c.r c.src)),
                      pc := c.pc + 2 } := by
      simp only [dispatch, hop]
      exact arith_int N c _ _ _ htag hd hs rfl
    refine ⟨traced { c with r := Function.update c.r c.dest (wrap64 (c.r c.dest + c.r c.src)),
                            pc := c.pc + 2 }, ?_, ?_⟩
    · rw [execute_eq, hdisp]; rfl
    · simp only [traced_r, traced_zero, traced_ltz, traced_gtz, traced_mem, traced_sp,
        Function.update_same]
      refine ⟨trivial, (wrap64_spec _).1, (wrap64_spec _).2, ?_, trivial, trivial, trivial,
        trivial, trivial⟩
      intro i hi
      exact Function.update_noteq hi _ _
  · intro s A B hwin h1 h2 h3 hA hB hAB hA0 hB0 hint
    exact scenario_a N s A B hwin h1 h2 h3 hA hB hAB hA0 hB0 (by rw [hint]; decide)

/-- Instance of `add_int_wraps` at `r[dest] = INT64_MAX`, `r[src] = 1`. -/
theorem add_int_wraps_witness :
    (sampleNumbering.opcode addCpu.inst = some Opcode.ADD ∧
      sampleNumbering.vtype (addCpu.r R0A) ≠ some VType.V_FLOAT ∧
      addCpu.r addCpu.dest = INT64_MAX ∧ addCpu.r addCpu.src = 1 ∧
      wrap64 (INT64_MAX + 1) = INT64_MIN) ∧
    ((∃ c', execute sampleNumbering addCpu = some c' ∧
      c'.r addCpu.dest = wrap64 (addCpu.r addCpu.dest + addCpu.r addCpu.src) ∧
      fits64 (c'.r addCpu.dest) ∧
      (c'.r addCpu.dest - (addCpu.r addCpu.dest + addCpu.r addCpu.src)) % 2 ^ 64 = 0 ∧
      (∀ i, i ≠ addCpu.dest → c'.r i = addCpu.r i) ∧
      c'.zero = addCpu.zero ∧ c'.ltz = addCpu.ltz ∧ c'.gtz = addCpu.gtz ∧
      c'.mem = addCpu.mem ∧ c'.sp = addCpu.sp) ∧
    (∀ (s : cpu) (A B : Int),
      (0 ≤ s.pc + 1 ∧ s.pc + 9 < s.max_mem) →
      (sampleNumbering.opcode (s.mem (s.pc + 1)) = some Opcode.LII ∧ s.mem (s.pc + 2) = A ∧
        s.mem (s.pc + 3) = 7) →
      (sampleNumbering.opcode (s.mem (s.pc + 4)) = some Opcode.LII ∧ s.mem (s.pc + 5) = B ∧
        s.mem (s.pc + 6) = 3) →
      (sampleNumbering.opcode (s.mem (s.pc + 7)) = some Opcode.ADD ∧ s.mem (s.pc + 8) = A ∧
        s.mem (s.pc + 9) = B) →
      (0 ≤ A ∧ A < 16) → (0 ≤ B ∧ B < 16) → A ≠ B → A ≠ R0A → B ≠ R0A →
      sampleNumbering.vtype (s.r R0A) = some VType.V_INT →
      ∃ s', cycles sampleNumbering 3 s = some s' ∧ s'.r A = 10)) :=
  ⟨by decide,
   add_int_wraps sampleNumbering addCpu (by decide) (by decide) (by decide) (by decide)⟩

/-- C16: `CLF` executes in every state and leaves `zero`, `ltz` and `gtz` all false, every
register, every memory cell and `sp` being unchanged. -/
theorem clf_clears_flags (N : Numbering) (c : cpu)
    (hop : N.opcode c.inst = some Opcode.CLF) :
    ∃ c', execute N c = some c' ∧ c'.zero = false ∧ c'.ltz = false ∧ c'.gtz = false ∧
      c'.r = c.r ∧ c'.mem = c.mem ∧ c'.sp = c.sp := by
  refine ⟨traced (clear_flags c), ?_, ?_⟩
  · rw [execute_eq]; simp only [dispatch, hop]; rfl
  · simp only [traced_r, traced_zero, traced_ltz, traced_gtz, traced_mem, traced_sp]
    exact ⟨rfl, rfl, rfl, rfl, rfl, rfl⟩

/-- Instance of `clf_clears_flags` at a state whose flag `zero` is set. -/
theorem clf_clears_flags_witness :
    (sampleNumbering.opcode clfSetCpu.inst = some Opcode.CLF ∧ clfSetCpu.zero = true) ∧
    ∃ c', execute sampleNumbering clfSetCpu = some c' ∧ c'.zero = false ∧ c'.ltz = false ∧
      c'.gtz = false ∧ c'.r = clfSetCpu.r ∧ c'.mem = clfSetCpu.mem ∧ c'.sp = clfSetCpu.sp :=
  ⟨by decide, clf_clears_flags sampleNumbering clfSetCpu (by decide)⟩

/-- C19: when the tag in `R0A` is not the decimal tag, `dest` and `src` are register
indices, `b = r[src]` is not zero and the pair is not `(INT64_MIN, -1)`, there are `q` and
`r` with `q * b + r = a`, `|r| < |b|` and `r` zero or of the sign of `a = r[dest]` (the
quotient is rounded toward zero) such that `DIV` executes and leaves `q` in `r[dest]` and
`MOD` executes and leaves `r` in `r[dest]`. -/
theorem div_mod_truncate (N : Numbering) (c : cpu)
    (htag : N.vtype (c.r R0A) ≠ some VType.V_FLOAT)
    (hd : 0 ≤ c.dest ∧ c.dest < 16) (hs : 0 ≤ c.src ∧ c.src < 16)
    (hb : c.r c.src ≠ 0) (hov : ¬ (c.r c.dest = INT64_MIN ∧ c.r c.src = -1)) :
    ∃ q r : Int, q * c.r c.src + r = c.r c.dest ∧ |r| < |c.r c.src| ∧
      (r = 0 ∨ (0 < r ∧ 0 < c.r c.dest) ∨ (r < 0 ∧ c.r c.dest < 0)) ∧
      (N.opcode c.inst = some Opcode.DIV →
        ∃ c', execute N c = some c' ∧ c'.r c.dest = q) ∧
      (N.opcode c.inst = some Opcode.MOD →
        ∃ c', execute N c = some c' ∧ c'.r c.dest = r) := by
  have hcond : ¬ (c.r c.src = 0 ∨ (c.r c.dest = INT64_MIN ∧ c.r c.src = -1)) := by
    intro h
    rcases h with h | h
    · exact hb h
    · exact hov h
  refine ⟨Int.tdiv (c.r c.dest) (c.r c.src), Int.tmod (c.r c.dest) (c.r c.src),
    Int.tdiv_add_tmod' _ _, (tmod_sign_bound _ _ hb).1, (tmod_sign_bound _ _ hb).2, ?_, ?_⟩
  · intro hop
    refine ⟨traced { c with r := Function.update c.r c.dest (Int.tdiv (c.r c.dest) (c.r c.src)),
                            pc := c.pc + 2 }, ?_, ?_⟩
    · rw [execute_eq]
      simp only [dispatch, hop]
      rw [arith_int N c _ _ (Int.tdiv (c.r c.dest) (c.r c.src)) htag hd hs
        (by simp only [c_div, hcond, if_false])]
      rfl
    · simp only [traced_r, Function.update_same]
  · intro hop
    refine ⟨traced { c with r := Function.update c.r c.dest (Int.tmod (c.r c.dest) (c.r c.src)),
                            pc := c.pc + 2 }, ?_, ?_⟩
    · rw [execute_eq]
      simp only [dispatch, hop]
      rw [arith_int N c _ _ (Int.tmod (c.r c.dest) (c.r c.src)) htag hd hs
        (by simp only [c_mod, hcond, if_false])]
      rfl
    · simp only [traced_r, Function.update_same]

/-- Instance of `div_mod_truncate` at `a = -7`, `b = 2` (quotient -3, remainder -1). -/
theorem div_mod_truncate_witness :
    (sampleNumbering.vtype (divCpu.r R0A) ≠ some VType.V_FLOAT ∧
      divCpu.r divCpu.dest = -7 ∧ divCpu.r divCpu.src = 2 ∧
      sampleNumbering.opcode divCpu.inst = some Opcode.DIV) ∧
    ∃ q r : Int, q * divCpu.r divCpu.src + r = divCpu.r divCpu.dest ∧
      |r| < |divCpu.r divCpu.src| ∧
      (r = 0 ∨ (0 < r ∧ 0 < divCpu.r divCpu.dest) ∨ (r < 0 ∧ divCpu.r divCpu.dest < 0)) ∧
      (sampleNumbering.opcode divCpu.inst = some Opcode.DIV →
        ∃ c', execute sampleNumbering divCpu = some c' ∧ c'.r divCpu.dest = q) ∧
      (sampleNumbering.opcode divCpu.inst = some Opcode.MOD →
        ∃ c', execute sampleNumbering divCpu = some c' ∧ c'.r divCpu.dest = r) :=
  ⟨by decide,
   div_mod_truncate sampleNumbering divCpu (by decide) (by decide) (by decide) (by decide)
     (by decide)⟩

/-! ## The debug switch -/

theorem load_withDebug (b : Bool) (c : cpu) (i : Int) : load (withDebug b c) i = load c i :=
  rfl

theorem getr_withDebug (b : Bool) (c : cpu) (i : Int) : getr (withDebug b c) i = getr c i :=
  rfl

theorem store_withDebug (b : Bool) (c : cpu) (i v : Int) :
    store (withDebug b c) i v = (store c i v).map (withDebug b) := by
  unfold store
  by_cases h : 0 ≤ i ∧ i < c.max_mem
  · have h' : 0 ≤ i ∧ i < (withDebug b c).max_mem := h
    simp only [h, h', and_self, if_true, Option.map_some']
    rfl
  · have h' : ¬ (0 ≤ i ∧ i < (withDebug b c).max_mem) := h
    simp only [h, h', if_false, Option.map_none']

theorem setr_withDebug (b : Bool) (c : cpu) (i v : Int) :
    setr (withDebug b c) i v = (setr c i v).map (withDebug b) := by
  unfold setr
  by_cases h : 0 ≤ i ∧ i < NUM_REGISTERS
  · simp only [h, and_self, if_true, Option.map_some']
    rfl
  · simp only [h, if_false, Option.map_none']

theorem load_f64_withDebug (b : Bool) (c : cpu) (f : f64) :
    load_f64 (withDebug b c) f = (load_f64 c f).map (withDebug b) := by
  unfold load_f64
  cases parse_f64 f with
  | none => rfl
  | some t =>
    simp only [Option.bind_eq_bind, Option.some_bind]
    have hd : (withDebug b c).dest = c.dest := rfl
    rw [hd, setr_withDebug]
    cases setr c c.dest t.1 with
    | none => rfl
    | some c1 =>
      simp only [Option.map_some', Option.some_bind]
      rw [setr_withDebug]
      cases setr c1 (c.dest + 1) t.2.1 with
      | none => rfl
      | some c2 =>
        simp only [Option.map_some', Option.some_bind]
        rw [setr_withDebug]

theorem get_f64_operands_withDebug (N : Numbering) (b : Bool) (c : cpu) :
    get_f64_operands N (withDebug b c) = get_f64_operands N c := rfl

theorem int_op_withDebug (b : Bool) (c : cpu) (op : Int → Int → Option Int) :
    int_op (withDebug b c) op = (int_op c op).map (withDebug b) := by
  unfold int_op
  have hd : (withDebug b c).dest = c.dest := rfl
  have hs : (withDebug b c).src = c.src := rfl
  simp only [getr_withDebug, hd, hs, Option.bind_eq_bind]
  cases getr c c.dest with
  | none => rfl
  | some a =>
    cases getr c c.src with
    | none => rfl
    | some v =>
      simp only [Option.some_bind]
      cases op a v with
      | none => rfl
      | some w => simp only [Option.some_bind]; exact setr_withDebug b c c.dest w

theorem float_op_withDebug (N : Numbering) (b : Bool) (c : cpu)
    (op : f64 → f64 → Option f64) :
    float_op N (withDebug b c) op = (float_op N c op).map (withDebug b) := by
  unfold float_op
  simp only [get_f64_operands_withDebug, Option.bind_eq_bind]
  cases get_f64_operands N c with
  | none => rfl
  | some fs =>
    simp only [Option.some_bind]
    cases op fs.1 fs.2 with
    | none => rfl
    | some v => simp only [Option.some_bind]; exact load_f64_withDebug b c v

theorem arith_withDebug (N : Numbering) (b : Bool) (c : cpu) (iop : Int → Int → Option Int)
    (fop : f64 → f64 → Option f64) :
    arith N (withDebug b c) iop fop = (arith N c iop fop).map (withDebug b) := by
  unfold arith
  have hr : (withDebug b c).r = c.r := rfl
  simp only [hr, float_op_withDebug, int_op_withDebug, Option.bind_eq_bind, Option.pure_def]
  split_ifs
  · cases float_op N c fop <;> rfl
  · cases int_op c iop <;> rfl

theorem bin_op_withDebug (b : Bool) (c : cpu) (op : Int → Int → Option Int) :
    bin_op (withDebug b c) op = (bin_op c op).map (withDebug b) := by
  unfold bin_op
  simp only [int_op_withDebug, Option.bind_eq_bind, Option.pure_def]
  cases int_op c op <;> rfl

theorem logic_op_withDebug (b : Bool) (c : cpu) (short : Int → Bool) (v : Int) :
    logic_op (withDebug b c) short v = (logic_op c short v).map (withDebug b) := by
  unfold logic_op
  have hd : (withDebug b c).dest = c.dest := rfl
  have hs : (withDebug b c).src = c.src := rfl
  simp only [getr_withDebug, hd, hs, Option.bind_eq_bind, Option.pure_def]
  cases getr c c.dest with
  | none => rfl
  | some a =>
    simp only [Option.some_bind]
    cases (if short a = true then some v
        else Option.map (fun b => if b ≠ 0 then (1 : Int) else 0) (getr c c.src)) with
    | none => rfl
    | some w =>
      simp only [Option.some_bind, setr_withDebug]
      cases setr c c.dest w <;> rfl

theorem un_op_withDebug (b : Bool) (c : cpu) (op : Int → Int) :
    un_op (withDebug b c) op = (un_op c op).map (withDebug b) := by
  unfold un_op
  have hd : (withDebug b c).dest = c.dest := rfl
  simp only [getr_withDebug, hd, setr_withDebug, Option.bind_eq_bind, Option.pure_def]
  cases getr c c.dest with
  | none => rfl
  | some a =>
    simp only [Option.some_bind]
    cases setr c c.dest (op a) <;> rfl

theorem jump_withDebug (b : Bool) (c : cpu) (taken : Bool) :
    jump (withDebug b c) taken = (jump c taken).map (withDebug b) := by
  unfold jump
  have hp : (withDebug b c).pc = c.pc := rfl
  cases taken with
  | false => rfl
  | true =>
    simp only [if_true, load_withDebug, hp, Option.bind_eq_bind, Option.pure_def]
    cases load c (c.pc + 1) <;> rfl

theorem prnt_string_withDebug (b : Bool) (n : Nat) :
    ∀ c : cpu, prnt_string n (withDebug b c) = (prnt_string n c).map (withDebug b) := by
  induction n with
  | zero => intro c; rfl
  | succ n ih =>
    intro c
    simp only [prnt_string, load_withDebug, Option.bind_eq_bind]
    have hs : (withDebug b c).sp = c.sp := rfl
    rw [hs]
    cases load c c.sp with
    | none => rfl
    | some v =>
      simp only [Option.some_bind]
      exact ih { c with sp := c.sp + 1, r := Function.update c.r R1A v,
                        out := c.out ++ [Char.ofNat ((v + 48) % 256).toNat] }

theorem prnt_withDebug (N : Numbering) (b : Bool) (c : cpu) :
    prnt N (withDebug b c) = (prnt N c).map (withDebug b) := by
  unfold prnt
  have hr : (withDebug b c).r = c.r := rfl
  rw [hr]
  cases N.vtype (c.r R0A) with
  | none => rfl
  | some t =>
    cases t with
    | V_BOOL => rfl
    | V_INT => rfl
    | V_FLOAT => rfl
    | V_STRING =>
      simp only [prnt_string_withDebug, Option.bind_eq_bind, Option.pure_def]
      cases prnt_string (c.r R1A % 2 ^ 64).toNat c <;> rfl

theorem dispatch_withDebug (N : Numbering) (b : Bool) (c : cpu) :
    dispatch N (withDebug b c) = (dispatch N c).map (withDebug b) := by
  unfold dispatch
  have hi : (withDebug b c).inst = c.inst := rfl
  have hr : (withDebug b c).r = c.r := rfl
  have hd : (withDebug b c).dest = c.dest := rfl
  have hs : (withDebug b c).src = c.src := rfl
  have hp : (withDebug b c).pc = c.pc := rfl
  have hsp : (withDebug b c).sp = c.sp := rfl
  rw [hi]
  cases N.opcode c.inst with
  | none => rfl
  | some op =>
    cases op with
    | CMP =>
      simp only [get_f64_operands_withDebug, getr_withDebug, hr, hd, hs, Option.bind_eq_bind,
        Option.pure_def]
      split_ifs
      · cases get_f64_operands N c <;> rfl
      · cases getr c c.dest with
        | none => rfl
        | some a => cases getr c c.src <;> rfl
    | CMPI =>
      simp only [getr_withDebug, hd, hs, Option.bind_eq_bind, Option.pure_def]
      cases getr c c.dest <;> rfl
    | MOV =>
      simp only [getr_withDebug, setr_withDebug, hd, hs, Option.bind_eq_bind, Option.pure_def]
      cases getr c c.src with
      | none => rfl
      | some v => simp only [Option.some_bind]; cases setr c c.dest v <;> rfl
    | STI =>
      simp only [getr_withDebug, store_withDebug, hd, hs, Option.bind_eq_bind,
        Option.pure_def]
      cases getr c c.src with
      | none => rfl
      | some v => simp only [Option.some_bind]; cases store c c.dest v <;> rfl
    | LDI =>
      simp only [load_withDebug, setr_withDebug, hd, hs, Option.bind_eq_bind, Option.pure_def]
      cases load c c.src with
      | none => rfl
      | some v => simp only [Option.some_bind]; cases setr c c.dest v <;> rfl
    | LII =>
      simp only [setr_withDebug, hd, hs, Option.bind_eq_bind, Option.pure_def]
      cases setr c c.dest c.src <;> rfl
    | PUSH =>
      simp only [load_withDebug, getr_withDebug, hp, hsp, Option.bind_eq_bind]
      cases load c (c.pc + 1) with
      | none => rfl
      | some idx =>
        simp only [Option.some_bind]
        cases getr c idx with
        | none => rfl
        | some v =>
          simp only [Option.some_bind]
          exact store_withDebug b { c with pc := c.pc + 1, sp := c.sp - 1 } (c.sp - 1) v
    | POP =>
      simp only [load_withDebug, hp, hsp, Option.bind_eq_bind]
      cases load c (c.pc + 1) with
      | none => rfl
      | some idx =>
        simp only [Option.some_bind]
        cases load c c.sp with
        | none => rfl
        | some v =>
          simp only [Option.some_bind]
          exact setr_withDebug b { c with pc := c.pc + 1, sp := c.sp + 1 } idx v
    | _ =>
      simp only [arith_withDebug, bin_op_withDebug, logic_op_withDebug, un_op_withDebug,
        jump_withDebug, prnt_withDebug] <;> rfl

theorem execute_withDebug (N : Numbering) (b : Bool) (c : cpu) :
    execute N (withDebug b c) = (dispatch N c).map (fun s => traced (withDebug b s)) := by
  rw [execute_eq, dispatch_withDebug]
  cases dispatch N c <;> rfl

/-- C14: for every state and every instruction, `execute` with the debug switch on is
defined exactly when `execute` with the switch off is, and the two results have the same
`pc`, `sp`, registers, flags and memory (and the same decoded window and capacity): they
differ in the debug switch itself and in that the first has emitted some more text after
the text of the second, the register dump. -/
theorem debug_observational (N : Numbering) (c : cpu) :
    (execute N { c with debug := true } = none ↔ execute N { c with debug := false } = none) ∧
    ∀ ct cf, execute N { c with debug := true } = some ct →
      execute N { c with debug := false } = some cf →
      ct.pc = cf.pc ∧ ct.sp = cf.sp ∧ ct.r = cf.r ∧ ct.zero = cf.zero ∧ ct.ltz = cf.ltz ∧
        ct.gtz = cf.gtz ∧ ct.mem = cf.mem ∧ ct.max_mem = cf.max_mem ∧ ct.inst = cf.inst ∧
        ct.dest = cf.dest ∧ ct.src = cf.src ∧
        ct.out = cf.out ++ ((List.range 16).flatMap (print_register cf) ++ [Char.ofNat 10]) := by
  have ht := execute_withDebug N true c
  have hf := execute_withDebug N false c
  change execute N { c with debug := true } = _ at ht
  change execute N { c with debug := false } = _ at hf
  rw [ht, hf]
  cases dispatch N c with
  | none => exact ⟨Iff.rfl, fun ct cf h => by simp at h⟩
  | some s =>
    refine ⟨by simp, fun ct cf h1 h2 => ?_⟩
    simp only [Option.map_some', Option.some.injEq] at h1 h2
    subst h1 h2
    simp only [traced_pc, traced_sp, traced_r, traced_zero, traced_ltz, traced_gtz, traced_mem,
      traced_max_mem]
    refine ⟨rfl, rfl, rfl, rfl, rfl, rfl, rfl, rfl, rfl, rfl, rfl, ?_⟩
    simp only [traced, withDebug, print_registers, if_true, Bool.false_eq_true, if_false,
      List.append_assoc]
    rfl

/-! ## Decimal instructions -/

theorem get_f64_operands_tagged (N : Numbering) (c : cpu) (f1 f2 : f64)
    (hd : 0 ≤ c.dest ∧ c.dest + 2 < 16) (hs : 0 ≤ c.src ∧ c.src + 2 < 16)
    (hB : N.vtype (c.r R0B) = some VType.V_FLOAT)
    (h1 : build_f64 (c.r c.dest) (c.r (c.dest + 1)) (c.r (c.dest + 2)) = some f1)
    (h2 : build_f64 (c.r c.src) (c.r (c.src + 1)) (c.r (c.src + 2)) = some f2) :
    get_f64_operands N c = some (f1, f2) := by
  simp only [get_f64_operands, getr_of_lt c c.dest ⟨hd.1, by omega⟩,
    getr_of_lt c (c.dest + 1) ⟨by omega, by omega⟩,
    getr_of_lt c (c.dest + 2) ⟨by omega, by omega⟩, h1, hB, if_true,
    getr_of_lt c c.src ⟨hs.1, by omega⟩, getr_of_lt c (c.src + 1) ⟨by omega, by omega⟩,
    getr_of_lt c (c.src + 2) ⟨by omega, by omega⟩, h2, Option.bind_eq_bind,
    Option.some_bind, Option.pure_def]

theorem get_f64_operands_untagged (N : Numbering) (c : cpu) (f1 : f64)
    (hd : 0 ≤ c.dest ∧ c.dest + 2 < 16) (hs : 0 ≤ c.src ∧ c.src < 16)
    (hB : N.vtype (c.r R0B) ≠ some VType.V_FLOAT)
    (h1 : build_f64 (c.r c.dest) (c.r (c.dest + 1)) (c.r (c.dest + 2)) = some f1) :
    get_f64_operands N c = some (f1, ((c.r c.src : Int) : ℚ)) := by
  simp only [get_f64_operands, getr_of_lt c c.dest ⟨hd.1, by omega⟩,
    getr_of_lt c (c.dest + 1) ⟨by omega, by omega⟩,
    getr_of_lt c (c.dest + 2) ⟨by omega, by omega⟩, h1, hB, if_false,
    getr_of_lt c c.src hs, Option.bind_eq_bind, Option.some_bind, Option.pure_def]

theorem cmp_float_exec (N : Numbering) (c : cpu) (f1 f2 : f64)
    (hop : N.opcode c.inst = some Opcode.CMP)
    (htag : N.vtype (c.r R0A) = some VType.V_FLOAT)
    (hops : get_f64_operands N c = some (f1, f2)) :
    execute N c = some (traced { fset_flags c f1 f2 with pc := c.pc + 2 }) := by
  rw [execute_eq]
  simp only [dispatch, hop, htag, if_true, hops, Option.bind_eq_bind, Option.some_bind,
    Option.pure_def, Option.map_some']
  rfl

theorem build_f64_one_half_triple :
    build_f64 1 500000 0 = some (3 / 2) ∧ build_f64 0 500000 0 = some (1 / 2) := by
  have hlog : floor_log10l 500000 = some 5 := by decide
  constructor
  · simp [build_f64, wrap64, hlog]; norm_num
  · simp [build_f64, wrap64, hlog]; norm_num

theorem fset_flags_traced (c : cpu) (f1 f2 : f64) (p : Int) :
    ((traced { fset_flags c f1 f2 with pc := p }).zero = true ↔ f1 = f2) ∧
    ((traced { fset_flags c f1 f2 with pc := p }).ltz = true ↔ f1 < f2) ∧
    ((traced { fset_flags c f1 f2 with pc := p }).gtz = true ↔ f1 > f2) := by
  simp [traced_zero, traced_ltz, traced_gtz, fset_flags]

/-- C13, as stated, fails: under the decimal tag in `R0A` and the integer tag in `R0B`,
with both register triples encoding 1.5, `CMP` does not report equality: it leaves `zero`
false and `gtz` true, having compared 1.5 with the raw register `r[src] = 1`. -/
theorem cmp_decimal_source_not_decoded :
    (sampleNumbering.opcode cmpDecimalCpu.inst = some Opcode.CMP ∧
      sampleNumbering.vtype (cmpDecimalCpu.r R0A) = some VType.V_FLOAT ∧
      build_f64 (cmpDecimalCpu.r cmpDecimalCpu.dest) (cmpDecimalCpu.r (cmpDecimalCpu.dest + 1))
        (cmpDecimalCpu.r (cmpDecimalCpu.dest + 2)) = some (3 / 2) ∧
      build_f64 (cmpDecimalCpu.r cmpDecimalCpu.src) (cmpDecimalCpu.r (cmpDecimalCpu.src + 1))
        (cmpDecimalCpu.r (cmpDecimalCpu.src + 2)) = some (3 / 2)) ∧
    ∃ c', execute sampleNumbering cmpDecimalCpu = some c' ∧ c'.zero = false ∧
      c'.gtz = true := by
  have hb : build_f64 (cmpDecimalCpu.r cmpDecimalCpu.dest)
      (cmpDecimalCpu.r (cmpDecimalCpu.dest + 1)) (cmpDecimalCpu.r (cmpDecimalCpu.dest + 2))
      = some (3 / 2) := build_f64_one_half_triple.1
  have hops := get_f64_operands_untagged sampleNumbering cmpDecimalCpu (3 / 2) (by decide)
    (by decide) (by decide) hb
  have hexec := cmp_float_exec sampleNumbering cmpDecimalCpu _ _ (by decide) (by decide) hops
  have hsrc : ((cmpDecimalCpu.r cmpDecimalCpu.src : Int) : ℚ) = 1 := by
    have : cmpDecimalCpu.r cmpDecimalCpu.src = 1 := by decide
    rw [this]; norm_num
  rw [hsrc] at hexec
  obtain ⟨hz, _, hg⟩ := fset_flags_traced cmpDecimalCpu (3 / 2) 1 (cmpDecimalCpu.pc + 2)
  refine ⟨⟨by decide, by decide, hb, build_f64_one_half_triple.1⟩, _, hexec, ?_, ?_⟩
  · rw [← Bool.not_eq_true, hz]; norm_num
  · rw [hg]; norm_num

/-- C13, amended: under the decimal tag in `R0A`, with `dest`, `dest + 2` register indices
and the destination triple decoding to `f1`, `CMP dest, src` executes and sets the flags
from comparing `f1` with `f2`, where `f2` is `build_f64` of the source triple when `R0B`
holds the decimal tag, and the register `r[src]` taken as a decimal value when it does
not. -/
theorem cmp_decimal_flags (N : Numbering) (c : cpu) (f1 : f64)
    (hop : N.opcode c.inst = some Opcode.CMP)
    (htag : N.vtype (c.r R0A) = some VType.V_FLOAT)
    (hd : 0 ≤ c.dest ∧ c.dest + 2 < 16)
    (h1 : build_f64 (c.r c.dest) (c.r (c.dest + 1)) (c.r (c.dest + 2)) = some f1) :
    (∀ f2 : f64, N.vtype (c.r R0B) = some VType.V_FLOAT → (0 ≤ c.src ∧ c.src + 2 < 16) →
      build_f64 (c.r c.src) (c.r (c.src + 1)) (c.r (c.src + 2)) = some f2 →
      ∃ c', execute N c = some c' ∧ (c'.zero = true ↔ f1 = f2) ∧
        (c'.ltz = true ↔ f1 < f2) ∧ (c'.gtz = true ↔ f1 > f2)) ∧
    (N.vtype (c.r R0B) ≠ some VType.V_FLOAT → (0 ≤ c.src ∧ c.src < 16) →
      ∃ c', execute N c = some c' ∧ (c'.zero = true ↔ f1 = ((c.r c.src : Int) : ℚ)) ∧
        (c'.ltz = true ↔ f1 < ((c.r c.src : Int) : ℚ)) ∧
        (c'.gtz = true ↔ f1 > ((c.r c.src : Int) : ℚ))) := by
  constructor
  · intro f2 hB hs h2
    exact ⟨_, cmp_float_exec N c f1 f2 hop htag
      (get_f64_operands_tagged N c f1 f2 hd hs hB h1 h2), fset_flags_traced c f1 f2 _⟩
  · intro hB hs
    exact ⟨_, cmp_float_exec N c f1 _ hop htag
      (get_f64_operands_untagged N c f1 hd hs hB h1), fset_flags_traced c f1 _ _⟩

/-- Instance of `cmp_decimal_flags` at a state with the decimal tag in `R0A`, the integer
tag in `R0B` and both triples encoding 1.5. -/
theorem cmp_decimal_flags_witness :
    (sampleNumbering.opcode cmpDecimalCpu.inst = some Opcode.CMP ∧
      sampleNumbering.vtype (cmpDecimalCpu.r R0A) = some VType.V_FLOAT ∧
      (0 ≤ cmpDecimalCpu.dest ∧ cmpDecimalCpu.dest + 2 < 16) ∧
      build_f64 (cmpDecimalCpu.r cmpDecimalCpu.dest) (cmpDecimalCpu.r (cmpDecimalCpu.dest + 1))
        (cmpDecimalCpu.r (cmpDecimalCpu.dest + 2)) = some (3 / 2)) ∧
    ((∀ f2 : f64, sampleNumbering.vtype (cmpDecimalCpu.r R0B) = some VType.V_FLOAT →
      (0 ≤ cmpDecimalCpu.src ∧ cmpDecimalCpu.src + 2 < 16) →
      build_f64 (cmpDecimalCpu.r cmpDecimalCpu.src) (cmpDecimalCpu.r (cmpDecimalCpu.src + 1))
        (cmpDecimalCpu.r (cmpDecimalCpu.src + 2)) = some f2 →
      ∃ c', execute sampleNumbering cmpDecimalCpu = some c' ∧ (c'.zero = true ↔ 3 / 2 = f2) ∧
        (c'.ltz = true ↔ 3 / 2 < f2) ∧ (c'.gtz = true ↔ 3 / 2 > f2)) ∧
    (sampleNumbering.vtype (cmpDecimalCpu.r R0B) ≠ some VType.V_FLOAT →
      (0 ≤ cmpDecimalCpu.src ∧ cmpDecimalCpu.src < 16) →
      ∃ c', execute sampleNumbering cmpDecimalCpu = some c' ∧
        (c'.zero = true ↔ 3 / 2 = ((cmpDecimalCpu.r cmpDecimalCpu.src : Int) : ℚ)) ∧
        (c'.ltz = true ↔ 3 / 2 < ((cmpDecimalCpu.r cmpDecimalCpu.src : Int) : ℚ)) ∧
        (c'.gtz = true ↔ 3 / 2 > ((cmpDecimalCpu.r cmpDecimalCpu.src : Int) : ℚ)))) :=
  ⟨⟨by decide, by decide, by decide, build_f64_one_half_triple.1⟩,
   cmp_decimal_flags sampleNumbering cmpDecimalCpu (3 / 2) (by decide) (by decide) (by decide)
     build_f64_one_half_triple.1⟩

theorem load_f64_of_parse (c : cpu) (f : f64) (t : Int × Int × Int)
    (hd : 0 ≤ c.dest ∧ c.dest + 2 < 16) (hp : parse_f64 f = some t) :
    load_f64 c f =
      some { c with r := Function.update (Function.update (Function.update c.r c.dest t.1)
                           (c.dest + 1) t.2.1) (c.dest + 2) t.2.2 } := by
  simp only [load_f64, hp, Option.bind_eq_bind, Option.some_bind,
    setr_of_lt c c.dest t.1 ⟨hd.1, by omega⟩]
  rw [setr_of_lt _ (c.dest + 1) t.2.1 ⟨by omega, by omega⟩]
  simp only [Option.some_bind]
  rw [setr_of_lt _ (c.dest + 2) t.2.2 ⟨by omega, by omega⟩]

theorem arith_float (N : Numbering) (c : cpu) (iop : Int → Int → Option Int)
    (fop : f64 → f64 → Option f64) (f1 f2 v : f64) (t : Int × Int × Int)
    (htag : N.vtype (c.r R0A) = some VType.V_FLOAT)
    (hd : 0 ≤ c.dest ∧ c.dest + 2 < 16)
    (hops : get_f64_operands N c = some (f1, f2)) (hv : fop f1 f2 = some v)
    (hp : parse_f64 v = some t) :
    arith N c iop fop =
      some { c with r := Function.update (Function.update (Function.update c.r c.dest t.1)
                           (c.dest + 1) t.2.1) (c.dest + 2) t.2.2,
                    pc := c.pc + 2 } := by
  simp only [arith, htag, if_true, float_op, hops, hv, load_f64_of_parse c v t hd hp,
    Option.bind_eq_bind, Option.some_bind, Option.pure_def]

/-- The registers `dest`, `dest + 1`, `dest + 2` after a triple has been stored there. -/
theorem triple_stored (r : Int → Int) (d : Int) (t : Int × Int × Int) :
    (Function.update (Function.update (Function.update r d t.1) (d + 1) t.2.1)
        (d + 2) t.2.2) d = t.1 ∧
    (Function.update (Function.update (Function.update r d t.1) (d + 1) t.2.1)
        (d + 2) t.2.2) (d + 1) = t.2.1 ∧
    (Function.update (Function.update (Function.update r d t.1) (d + 1) t.2.1)
        (d + 2) t.2.2) (d + 2) = t.2.2 := by
  have h1 : d ≠ d + 2 := by omega
  have h2 : d ≠ d + 1 := by omega
  have h3 : d + 1 ≠ d + 2 := by omega
  refine ⟨?_, ?_, ?_⟩
  · rw [Function.update_noteq h1, Function.update_noteq h2, Function.update_same]
  · rw [Function.update_noteq h3, Function.update_same]
  · rw [Function.update_same]

theorem parse_f64_neg_half : parse_f64 (-1 / 2) = some (0, 500000, 0) := by
  have hfmt : snprintf_concat_float (-1 / 2) = "-0.500000".toList := by
    with_unfolding_all decide
  simp only [parse_f64, hfmt]
  decide

/-- C12: the decimal `ADD` at 0.5 + (-1).  Under the decimal tag in `R0A` the destination
triple `(0, 500000, 0)` decodes to 0.5 and the source is the integer register -1; `ADD`
executes and leaves the triple `(0, 500000, 0)` in `r[1 .. 3]`, which `build_f64` decodes
to +0.5, not to the sum -0.5. -/
theorem add_decimal_loses_sign :
    (sampleNumbering.opcode addDecimalCpu.inst = some Opcode.ADD ∧
      sampleNumbering.vtype (addDecimalCpu.r R0A) = some VType.V_FLOAT ∧
      get_f64_operands sampleNumbering addDecimalCpu = some (1 / 2, -1)) ∧
    ∃ c', execute sampleNumbering addDecimalCpu = some c' ∧
      c'.r 1 = 0 ∧ c'.r 2 = 500000 ∧ c'.r 3 = 0 ∧
      build_f64 (c'.r 1) (c'.r 2) (c'.r 3) = some (1 / 2) ∧
      build_f64 (c'.r 1) (c'.r 2) (c'.r 3) ≠ some (1 / 2 + -1) := by
  have hb : build_f64 (addDecimalCpu.r addDecimalCpu.dest)
      (addDecimalCpu.r (addDecimalCpu.dest + 1)) (addDecimalCpu.r (addDecimalCpu.dest + 2))
      = some (1 / 2) := build_f64_one_half_triple.2
  have hops : get_f64_operands sampleNumbering addDecimalCpu = some (1 / 2, -1) := by
    have h := get_f64_operands_untagged sampleNumbering addDecimalCpu (1 / 2) (by decide)
      (by decide) (by decide) hb
    have hsrc : ((addDecimalCpu.r addDecimalCpu.src : Int) : ℚ) = -1 := by
      have : addDecimalCpu.r addDecimalCpu.src = -1 := by decide
      rw [this]; norm_num
    rw [hsrc] at h
    exact h
  have hsum : (1 / 2 : ℚ) + -1 = -1 / 2 := by norm_num
  have hdisp := arith_float sampleNumbering addDecimalCpu
    (fun a b => some (wrap64 (a + b))) (fun a b => some (a + b)) (1 / 2) (-1) (-1 / 2)
    (0, 500000, 0) (by decide) (by decide) hops
    (by show some ((1 / 2 : ℚ) + -1) = some (-1 / 2); rw [hsum]) parse_f64_neg_half
  have hexec : execute sampleNumbering addDecimalCpu = some (traced
      { addDecimalCpu with
        r := Function.update (Function.update (Function.update addDecimalCpu.r
               addDecimalCpu.dest 0) (addDecimalCpu.dest + 1) 500000)
               (addDecimalCpu.dest + 2) 0,
        pc := addDecimalCpu.pc + 2 }) := by
    rw [execute_eq]
    have hop : sampleNumbering.opcode addDecimalCpu.inst = some Opcode.ADD := by decide
    simp only [dispatch, hop]
    rw [hdisp]
    rfl
  obtain ⟨h1, h2, h3⟩ := triple_stored addDecimalCpu.r addDecimalCpu.dest (0, 500000, 0)
  dsimp only at h1 h2 h3
  have hbuild : build_f64 0 500000 0 = some (1 / 2) := build_f64_one_half_triple.2
  refine ⟨⟨by decide, by decide, hops⟩, _, hexec, ?_⟩
  simp only [traced_r]
  have g1 : (Function.update (Function.update (Function.update addDecimalCpu.r
      addDecimalCpu.dest 0) (addDecimalCpu.dest + 1) 500000) (addDecimalCpu.dest + 2) 0) 1
      = 0 := h1
  have g2 : (Function.update (Function.update (Function.update addDecimalCpu.r
      addDecimalCpu.dest 0) (addDecimalCpu.dest + 1) 500000) (addDecimalCpu.dest + 2) 0) 2
      = 500000 := h2
  have g3 : (Function.update (Function.update (Function.update addDecimalCpu.r
      addDecimalCpu.dest 0) (addDecimalCpu.dest + 1) 500000) (addDecimalCpu.dest + 2) 0) 3
      = 0 := h3
  rw [g1, g2, g3, hbuild, hsum]
  refine ⟨rfl, rfl, rfl, rfl, ?_⟩
  norm_num

/-- The decimal `ADD` away from the interval (-1, 0): when the sum `f1 + f2` of the decoded
operands has at most six fractional digits, an integer part that fits in `i64`, and is
`≥ 0` or `≤ -1`, `ADD` executes and leaves in `r[dest .. dest + 2]` a triple that
`build_f64` decodes to `f1 + f2`. -/
theorem add_decimal_roundtrip (N : Numbering) (c : cpu) (f1 f2 : f64) (m : Nat)
    (hop : N.opcode c.inst = some Opcode.ADD)
    (htag : N.vtype (c.r R0A) = some VType.V_FLOAT)
    (hd : 0 ≤ c.dest ∧ c.dest + 2 < 16)
    (hops : get_f64_operands N c = some (f1, f2))
    (hsum : |f1 + f2| * 1000000 = (m : ℚ))
    (hfit : ((m / 1000000 : Nat) : Int) ≤ INT64_MAX)
    (hsign : 0 ≤ f1 + f2 ∨ f1 + f2 ≤ -1) :
    ∃ c', execute N c = some c' ∧
      build_f64 (c'.r c.dest) (c'.r (c.dest + 1)) (c'.r (c.dest + 2)) = some (f1 + f2) := by
  obtain ⟨t, hp, hb⟩ := codec_roundtrip (f1 + f2) m hsum hfit hsign
  have hdisp := arith_float N c (fun a b => some (wrap64 (a + b))) (fun a b => some (a + b))
    f1 f2 (f1 + f2) t htag hd hops rfl hp
  refine ⟨traced { c with r := Function.update (Function.update (Function.update c.r c.dest
      t.1) (c.dest + 1) t.2.1) (c.dest + 2) t.2.2, pc := c.pc + 2 }, ?_, ?_⟩
  · rw [execute_eq]
    simp only [dispatch, hop]
    rw [hdisp]
    rfl
  · obtain ⟨h1, h2, h3⟩ := triple_stored c.r c.dest t
    simp only [traced_r]
    rw [h1, h2, h3]
    exact hb

/-! ## PRNT -/

theorem prnt_string_defined (n : Nat) :
    ∀ c : cpu, (∀ i : Nat, i < n → 0 ≤ c.sp + i ∧ c.sp + i < c.max_mem) →
      ∃ c', prnt_string n c = some c' := by
  induction n with
  | zero => intro c _; exact ⟨c, rfl⟩
  | succ n ih =>
    intro c h
    have h0 : 0 ≤ c.sp ∧ c.sp < c.max_mem := by
      have := h 0 (Nat.succ_pos n)
      simpa using this
    simp only [prnt_string, load_of_lt c c.sp h0, Option.bind_eq_bind, Option.some_bind]
    apply ih
    intro i hi
    have := h (i + 1) (by omega)
    show 0 ≤ c.sp + 1 + (i : Int) ∧ c.sp + 1 + (i : Int) < c.max_mem
    push_cast at this
    constructor <;> omega

theorem prnt_string_some (n : Nat) :
    ∀ c c' : cpu, prnt_string n c = some c' →
      (∀ i : Nat, i < n → 0 ≤ c.sp + i ∧ c.sp + i < c.max_mem) ∧
      c'.pc = c.pc ∧ c'.sp = c.sp + n ∧ c'.mem = c.mem ∧ c'.max_mem = c.max_mem ∧
      c'.zero = c.zero ∧ c'.ltz = c.ltz ∧ c'.gtz = c.gtz ∧ c'.debug = c.debug ∧
      (∀ i, i ≠ R1A → c'.r i = c.r i) ∧
      (0 < n → c'.r R1A = c.mem (c.sp + n - 1)) ∧ (n = 0 → c'.r = c.r) ∧
      c'.out = c.out ++
        (List.range n).map
          (fun i : Nat => Char.ofNat ((c.mem (c.sp + (i : Int)) + 48) % 256).toNat) := by
  induction n with
  | zero =>
    intro c c' h
    simp only [prnt_string, Option.some.injEq] at h
    subst h
    refine ⟨fun i hi => absurd hi (Nat.not_lt_zero i), rfl, by simp, rfl, rfl, rfl, rfl, rfl,
      rfl, fun _ _ => rfl, fun h => absurd h (lt_irrefl 0), fun _ => rfl, by simp⟩
  | succ n ih =>
    intro c c' h
    simp only [prnt_string, Option.bind_eq_bind, Option.bind_eq_some] at h
    obtain ⟨v, hv, hrec⟩ := h
    obtain ⟨hb, rfl⟩ := load_some c c.sp v hv
    obtain ⟨hcells, hpc, hsp, hmem, hmax, hz, hl, hg, hdbg, hr, hlast, hr0, hout⟩ :=
      ih _ c' hrec
    simp only at hcells hpc hsp hmem hmax hz hl hg hdbg hr hlast hr0 hout
    refine ⟨?_, hpc, ?_, hmem, hmax, hz, hl, hg, hdbg, ?_, ?_, ?_, ?_⟩
    · intro i hi
      rcases Nat.eq_zero_or_pos i with h0 | h0
      · subst h0; simpa using hb
      · have := hcells (i - 1) (by omega)
        have hc : ((i - 1 : Nat) : Int) = (i : Int) - 1 := by omega
        rw [hc] at this
        constructor <;> omega
    · rw [hsp]; push_cast; ring
    · intro i hi
      rw [hr i hi, Function.update_noteq hi]
    · intro _
      rcases Nat.eq_zero_or_pos n with h0 | h0
      · subst h0
        rw [hr0 rfl, Function.update_same]
        congr 1
        simp
      · rw [hlast h0]
        congr 1
        push_cast
        ring
    · intro h; exact absurd h (Nat.succ_ne_zero n)
    · rw [hout, List.range_succ_eq_map, List.map_cons, List.map_map, List.append_assoc]
      congr 2
      · simp
        intro a _
        rw [add_assoc, add_comm (1 : Int) (a : Int)]

theorem prnt_string_count (n : Nat) (h : (n : Int) ≤ INT64_MAX) :
    ((n : Int) % 2 ^ 64).toNat = n := by
  unfold INT64_MAX at h
  omega

/-- C17: under the string tag in `R0A`, with `r[R1A] = n` and the `n` cells
`mem[sp .. sp + n - 1]` inside memory, each holding a digit `d i` in `0 .. 9`, `PRNT`
executes, pops exactly `n` values (`sp` grows by `n`), writes no memory cell and emits
exactly the `n` characters `'0' + d 0, ..., '0' + d (n - 1)` in that order followed by
one newline; with the debug switch on the register dump follows. -/
theorem prnt_string_digits (N : Numbering) (c : cpu) (n : Nat) (d : Nat → Nat)
    (hop : N.opcode c.inst = some Opcode.PRNT)
    (htag : N.vtype (c.r R0A) = some VType.V_STRING)
    (hn : c.r R1A = (n : Int)) (hfit : (n : Int) ≤ INT64_MAX)
    (hcells : ∀ i : Nat, i < n → 0 ≤ c.sp + i ∧ c.sp + i < c.max_mem)
    (hdig : ∀ i : Nat, i < n → c.mem (c.sp + i) = (d i : Int) ∧ d i ≤ 9) :
    ∃ c', execute N c = some c' ∧ c'.sp = c.sp + n ∧ c'.mem = c.mem ∧
      c'.out = c.out ++ (List.range n).map (fun i => Char.ofNat (48 + d i))
        ++ [Char.ofNat 10]
        ++ (if c.debug then (List.range 16).flatMap (print_register c') ++ [Char.ofNat 10]
            else []) := by
  obtain ⟨c1, h1⟩ := prnt_string_defined n c hcells
  obtain ⟨_, _, hsp, hmem, _, _, _, _, hdbg, _, _, _, hout⟩ := prnt_string_some n c c1 h1
  have htext : (List.range n).map
      (fun i : Nat => Char.ofNat ((c.mem (c.sp + (i : Int)) + 48) % 256).toNat)
      = (List.range n).map (fun i => Char.ofNat (48 + d i)) := by
    apply List.map_congr_left
    intro i hi
    obtain ⟨hv, h9⟩ := hdig i (List.mem_range.mp hi)
    rw [hv]
    congr 1
    omega
  rw [htext] at hout
  have hdisp : dispatch N c = some { c1 with out := c1.out ++ [Char.ofNat 10] } := by
    simp only [dispatch, hop, prnt, htag, hn, prnt_string_count n hfit, h1,
      Option.bind_eq_bind, Option.some_bind, Option.pure_def]
  refine ⟨traced { c1 with out := c1.out ++ [Char.ofNat 10] }, ?_, ?_, ?_, ?_⟩
  · rw [execute_eq, hdisp]; rfl
  · rw [traced_sp]; exact hsp
  · rw [traced_mem]; exact hmem
  · unfold traced
    simp only [hdbg]
    split_ifs
    · simp only [print_registers, hout, List.append_assoc]
      rfl
    · simp only [hout, List.append_nil]

/-- Instance of `prnt_string_digits`: the digits 4, 2, 7 on the stack. -/
theorem prnt_string_digits_witness :
    (sampleNumbering.opcode prntCpu.inst = some Opcode.PRNT ∧
      sampleNumbering.vtype (prntCpu.r R0A) = some VType.V_STRING ∧
      prntCpu.r R1A = ((3 : Nat) : Int) ∧ ((3 : Nat) : Int) ≤ INT64_MAX ∧
      (∀ i : Nat, i < 3 → 0 ≤ prntCpu.sp + i ∧ prntCpu.sp + i < prntCpu.max_mem) ∧
      (∀ i : Nat, i < 3 → prntCpu.mem (prntCpu.sp + i) = (prntDigits i : Int) ∧
        prntDigits i ≤ 9)) ∧
    ∃ c', execute sampleNumbering prntCpu = some c' ∧ c'.sp = prntCpu.sp + (3 : Nat) ∧
      c'.mem = prntCpu.mem ∧
      c'.out = prntCpu.out ++ (List.range 3).map (fun i => Char.ofNat (48 + prntDigits i))
        ++ [Char.ofNat 10]
        ++ (if prntCpu.debug then
              (List.range 16).flatMap (print_register c') ++ [Char.ofNat 10]
            else []) :=
  ⟨by decide,
   prnt_string_digits sampleNumbering prntCpu 3 prntDigits (by decide) (by decide) (by decide)
     (by decide) (by decide) (by decide)⟩

theorem prnt_pc (N : Numbering) (c c1 : cpu) (h : prnt N c = some c1) : c1.pc = c.pc := by
  unfold prnt at h
  split at h
  · rw [← Option.some.inj h]
  · rw [← Option.some.inj h]
  · rw [← Option.some.inj h]
  · simp only [Option.bind_eq_bind, Option.pure_def, Option.bind_eq_some] at h
    obtain ⟨c0, h0, hc⟩ := h
    rw [← Option.some.inj hc]
    exact (prnt_string_some _ c c0 h0).2.1
  · rw [← Option.some.inj h]

/-- C20: `PRNT` occupies one cell: whatever the tag in `R0A`, every result of `execute`
has `pc` at the value set by `fetch`.  Under the bool, int or decimal tag `execute` is
defined and leaves every register, flag and memory cell and `sp` unchanged.  Under the
string tag with `r[R1A] = n ≥ 1`, every result of `execute` holds in `R1A` the last value
popped, `mem[sp + n - 1]`, and `execute` has a result when the `n` cells from `sp` on lie
inside memory. -/
theorem prnt_one_cell (N : Numbering) (c : cpu)
    (hop : N.opcode c.inst = some Opcode.PRNT) :
    (∀ c', execute N c = some c' → c'.pc = c.pc) ∧
    (N.vtype (c.r R0A) = some VType.V_BOOL ∨ N.vtype (c.r R0A) = some VType.V_INT ∨
        N.vtype (c.r R0A) = some VType.V_FLOAT →
      ∃ c', execute N c = some c' ∧ c'.pc = c.pc ∧ c'.r = c.r ∧ c'.zero = c.zero ∧
        c'.ltz = c.ltz ∧ c'.gtz = c.gtz ∧ c'.mem = c.mem ∧ c'.sp = c.sp) ∧
    (N.vtype (c.r R0A) = some VType.V_STRING →
      ∀ n : Nat, 1 ≤ n → c.r R1A = (n : Int) → (n : Int) ≤ INT64_MAX →
        (∀ c', execute N c = some c' → c'.r R1A = c.mem (c.sp + n - 1)) ∧
        ((∀ i : Nat, i < n → 0 ≤ c.sp + i ∧ c.sp + i < c.max_mem) →
          ∃ c', execute N c = some c')) := by
  have hd : dispatch N c = prnt N c := by simp only [dispatch, hop]
  refine ⟨?_, ?_, ?_⟩
  · intro c' h
    rw [execute_eq, hd] at h
    simp only [Option.map_eq_some'] at h
    obtain ⟨c1, h1, ht⟩ := h
    rw [← ht, traced_pc, prnt_pc N c c1 h1]
  · intro htag
    have hp : ∃ text, prnt N c = some { c with out := text } := by
      rcases htag with h | h | h
      · exact ⟨_, by simp only [prnt, h]; rfl⟩
      · exact ⟨_, by simp only [prnt, h]; rfl⟩
      · exact ⟨_, by simp only [prnt, h]; rfl⟩
    obtain ⟨text, hp⟩ := hp
    refine ⟨traced { c with out := text }, ?_, ?_⟩
    · rw [execute_eq, hd, hp]; rfl
    · refine ⟨?_, ?_, ?_, ?_, ?_, ?_, ?_⟩ <;>
        simp only [traced_pc, traced_r, traced_zero, traced_ltz, traced_gtz, traced_mem,
          traced_sp]
  · intro htag n hn1 hn hfit
    have hp : prnt N c = (prnt_string n c).bind
        (fun c1 => some { c1 with out := c1.out ++ [Char.ofNat 10] }) := by
      simp only [prnt, htag, hn, prnt_string_count n hfit, Option.bind_eq_bind,
        Option.pure_def]
    constructor
    · intro c' h
      rw [execute_eq, hd, hp] at h
      simp only [Option.map_eq_some', Option.bind_eq_some] at h
      obtain ⟨c2, ⟨c1, h1, h2⟩, ht⟩ := h
      rw [← ht, traced_r, ← Option.some.inj h2]
      exact (prnt_string_some n c c1 h1).2.2.2.2.2.2.2.2.2.2.1 (by omega)
    · intro hcells
      obtain ⟨c1, h1⟩ := prnt_string_defined n c hcells
      exact ⟨_, by rw [execute_eq, hd, hp, h1]; rfl⟩

/-- Instance of `prnt_one_cell` at a decoded `PRNT` under the string tag. -/
theorem prnt_one_cell_witness :
    sampleNumbering.opcode prntCpu.inst = some Opcode.PRNT ∧
    ((∀ c', execute sampleNumbering prntCpu = some c' → c'.pc = prntCpu.pc) ∧
    (sampleNumbering.vtype (prntCpu.r R0A) = some VType.V_BOOL ∨
        sampleNumbering.vtype (prntCpu.r R0A) = some VType.V_INT ∨
        sampleNumbering.vtype (prntCpu.r R0A) = some VType.V_FLOAT →
      ∃ c', execute sampleNumbering prntCpu = some c' ∧ c'.pc = prntCpu.pc ∧
        c'.r = prntCpu.r ∧ c'.zero = prntCpu.zero ∧ c'.ltz = prntCpu.ltz ∧
        c'.gtz = prntCpu.gtz ∧ c'.mem = prntCpu.mem ∧ c'.sp = prntCpu.sp) ∧
    (sampleNumbering.vtype (prntCpu.r R0A) = some VType.V_STRING →
      ∀ n : Nat, 1 ≤ n → prntCpu.r R1A = (n : Int) → (n : Int) ≤ INT64_MAX →
        (∀ c', execute sampleNumbering prntCpu = some c' →
          c'.r R1A = prntCpu.mem (prntCpu.sp + n - 1)) ∧
        ((∀ i : Nat, i < n → 0 ≤ prntCpu.sp + i ∧ prntCpu.sp + i < prntCpu.max_mem) →
          ∃ c', execute sampleNumbering prntCpu = some c'))) :=
  ⟨by decide, prnt_one_cell sampleNumbering prntCpu (by decide)⟩

/-! ## Shape of the encoded triple -/

/-- The result of `parse_f64` in all cases: with `m` the value scaled by `10 ^ 6` and
rounded, the triple is defined exactly when the signed integer part fits in `i64`. -/
theorem parse_f64_cases (f : f64) (m : Nat) (hm : roundHalfEven (|f| * 1000000) = m) :
    parse_f64 f =
      if fits64 (if f < 0 then -((m / 1000000 : Nat) : Int) else ((m / 1000000 : Nat) : Int))
      then
        some ((if f < 0 then -((m / 1000000 : Nat) : Int) else ((m / 1000000 : Nat) : Int)),
          ((m % 1000000 : Nat) : Int),
          (if m % 1000000 = 0 then 5 else 5 - (ilog10 (m % 1000000) : Int)))
      else none := by
  obtain ⟨L, hL, hscan⟩ := scanDigits_toDigits (m / 1000000)
  have hint := hscan ('.' :: fracText (m % 1000000))
  rw [scanDigits_point] at hint
  have hfrac := scan_lld_fracText (m % 1000000) (Nat.mod_lt m (by norm_num))
  unfold parse_f64 snprintf_concat_float
  simp only [hm]
  by_cases hneg : f < 0
  · simp only [hneg, if_true, List.singleton_append, List.cons_append, List.nil_append,
      List.append_assoc]
    rw [scan_lld_minus _ _ L _ hL hint]
    by_cases hfit : fits64 (-((m / 1000000 : Nat) : Int))
    · simp only [hfit, if_true, hfrac]
      congr 2
      by_cases hz : m % 1000000 = 0
      · simp [hz]
      · have hz' : ((m % 1000000 : Nat) : Int) ≠ 0 := by exact_mod_cast hz
        simp only [hz, hz', if_false, Int.toNat_ofNat]
        push_cast
        congr 1
        ring
    · simp only [hfit, if_false]
  · simp only [hneg, if_false, List.nil_append, List.append_assoc]
    rw [scan_lld_of_scan _ _ L _ hL hint]
    by_cases hfit : fits64 ((m / 1000000 : Nat) : Int)
    · simp only [hfit, if_true, hfrac]
      congr 2
      by_cases hz : m % 1000000 = 0
      · simp [hz]
      · have hz' : ((m % 1000000 : Nat) : Int) ≠ 0 := by exact_mod_cast hz
        simp only [hz, hz', if_false, Int.toNat_ofNat]
        push_cast
        congr 1
        ring
    · simp only [hfit, if_false]

/-- C18: for every value `d` whose integer part, as printed in the six-digit fixed-point
text and with its sign, fits in `i64`, `parse_f64` yields a triple `(ipart, frac, lz)`
with `0 ≤ frac < 10 ^ 6`; when `frac ≠ 0` the number of decimal digits of `frac` plus `lz`
is 6, and when `frac = 0`, `lz = 5`. -/
theorem parse_f64_shape (d : f64)
    (hfit : fits64 (if d < 0 then -((roundHalfEven (|d| * 1000000) / 1000000 : Nat) : Int)
      else ((roundHalfEven (|d| * 1000000) / 1000000 : Nat) : Int))) :
    ∃ t, parse_f64 d = some t ∧ 0 ≤ t.2.1 ∧ t.2.1 < 1000000 ∧
      (t.2.1 ≠ 0 → ((Nat.digits 10 t.2.1.toNat).length : Int) + t.2.2 = 6) ∧
      (t.2.1 = 0 → t.2.2 = 5) := by
  have h := parse_f64_cases d (roundHalfEven (|d| * 1000000)) rfl
  rw [if_pos hfit] at h
  refine ⟨_, h, ?_⟩
  have hlt : roundHalfEven (|d| * 1000000) % 1000000 < 1000000 := Nat.mod_lt _ (by norm_num)
  generalize roundHalfEven (|d| * 1000000) % 1000000 = F at hlt
  simp only [Int.toNat_ofNat]
  refine ⟨by omega, by omega, ?_, ?_⟩
  · intro hF
    have hF' : F ≠ 0 := by exact_mod_cast hF
    rw [digits_length_eq F hF']
    simp only [hF', if_false]
    push_cast
    ring
  · intro hF
    have hF' : F = 0 := by exact_mod_cast hF
    simp only [hF', if_true]

/-- Instance of `parse_f64_shape` at the value -0.005, whose triple is `(0, 5000, 2)`. -/
theorem parse_f64_shape_witness :
    fits64 (if (-5 / 1000 : ℚ) < 0
      then -((roundHalfEven (|(-5 / 1000 : ℚ)| * 1000000) / 1000000 : Nat) : Int)
      else ((roundHalfEven (|(-5 / 1000 : ℚ)| * 1000000) / 1000000 : Nat) : Int)) ∧
    ∃ t, parse_f64 (-5 / 1000) = some t ∧ 0 ≤ t.2.1 ∧ t.2.1 < 1000000 ∧
      (t.2.1 ≠ 0 → ((Nat.digits 10 t.2.1.toNat).length : Int) + t.2.2 = 6) ∧
      (t.2.1 = 0 → t.2.2 = 5) := by
  have hr : roundHalfEven (|(-5 / 1000 : ℚ)| * 1000000) = 5000 := by
    with_unfolding_all decide
  have hfit : fits64 (if (-5 / 1000 : ℚ) < 0
      then -((roundHalfEven (|(-5 / 1000 : ℚ)| * 1000000) / 1000000 : Nat) : Int)
      else ((roundHalfEven (|(-5 / 1000 : ℚ)| * 1000000) / 1000000 : Nat) : Int)) := by
    rw [hr]
    have hneg : (-5 / 1000 : ℚ) < 0 := by norm_num
    rw [if_pos hneg]
    decide
  exact ⟨hfit, parse_f64_shape (-5 / 1000) hfit⟩

/-! ## The run loop -/

theorem setr_inst (c c1 : cpu) (i v : Int) (h : setr c i v = some c1) : c1.inst = c.inst := by
  unfold setr at h
  split_ifs at h
  rw [← Option.some.inj h]

theorem store_inst (c c1 : cpu) (i v : Int) (h : store c i v = some c1) :
    c1.inst = c.inst := by
  unfold store at h
  split_ifs at h
  rw [← Option.some.inj h]

theorem load_f64_inst (c c1 : cpu) (f : f64) (h : load_f64 c f = some c1) :
    c1.inst = c.inst := by
  unfold load_f64 at h
  simp only [Option.bind_eq_bind, Option.bind_eq_some] at h
  obtain ⟨t, _, a, ha, b, hb, hc⟩ := h
  rw [setr_inst _ _ _ _ hc, setr_inst _ _ _ _ hb, setr_inst _ _ _ _ ha]

theorem int_op_inst (c c1 : cpu) (op : Int → Int → Option Int) (h : int_op c op = some c1) :
    c1.inst = c.inst := by
  unfold int_op at h
  simp only [Option.bind_eq_bind, Option.bind_eq_some] at h
  obtain ⟨a, _, b, _, v, _, hc⟩ := h
  exact setr_inst _ _ _ _ hc

theorem float_op_inst (N : Numbering) (c c1 : cpu) (op : f64 → f64 → Option f64)
    (h : float_op N c op = some c1) : c1.inst = c.inst := by
  unfold float_op at h
  simp only [Option.bind_eq_bind, Option.bind_eq_some] at h
  obtain ⟨fs, _, v, _, hc⟩ := h
  exact load_f64_inst _ _ _ hc

theorem arith_inst (N : Numbering) (c c1 : cpu) (iop : Int → Int → Option Int)
    (fop : f64 → f64 → Option f64) (h : arith N c iop fop = some c1) : c1.inst = c.inst := by
  unfold arith at h
  simp only [Option.bind_eq_bind, Option.pure_def, Option.bind_eq_some] at h
  obtain ⟨c0, h0, hc⟩ := h
  rw [← Option.some.inj hc]
  show c0.inst = c.inst
  split_ifs at h0
  · exact float_op_inst _ _ _ _ h0
  · exact int_op_inst _ _ _ h0

theorem bin_op_inst (c c1 : cpu) (op : Int → Int → Option Int) (h : bin_op c op = some c1) :
    c1.inst = c.inst := by
  unfold bin_op at h
  simp only [Option.bind_eq_bind, Option.pure_def, Option.bind_eq_some] at h
  obtain ⟨c0, h0, hc⟩ := h
  rw [← Option.some.inj hc]
  show c0.inst = c.inst
  exact int_op_inst _ _ _ h0

theorem logic_op_inst (c c1 : cpu) (short : Int → Bool) (v : Int)
    (h : logic_op c short v = some c1) : c1.inst = c.inst := by
  unfold logic_op at h
  simp only [Option.bind_eq_bind, Option.pure_def, Option.bind_eq_some] at h
  obtain ⟨a, _, w, _, c0, h0, hc⟩ := h
  rw [← Option.some.inj hc]
  show c0.inst = c.inst
  exact setr_inst _ _ _ _ h0

theorem un_op_inst (c c1 : cpu) (op : Int → Int) (h : un_op c op = some c1) :
    c1.inst = c.inst := by
  unfold un_op at h
  simp only [Option.bind_eq_bind, Option.pure_def, Option.bind_eq_some] at h
  obtain ⟨a, _, c0, h0, hc⟩ := h
  rw [← Option.some.inj hc]
  show c0.inst = c.inst
  exact setr_inst _ _ _ _ h0

theorem jump_inst (c c1 : cpu) (taken : Bool) (h : jump c taken = some c1) :
    c1.inst = c.inst := by
  unfold jump at h
  split_ifs at h
  · simp only [Option.bind_eq_bind, Option.pure_def, Option.bind_eq_some] at h
    obtain ⟨t, _, hc⟩ := h
    rw [← Option.some.inj hc]
  · rw [← Option.some.inj h]

theorem prnt_string_inst (n : Nat) :
    ∀ c c1 : cpu, prnt_string n c = some c1 → c1.inst = c.inst := by
  induction n with
  | zero => intro c c1 h; simp only [prnt_string, Option.some.injEq] at h; rw [← h]
  | succ n ih =>
    intro c c1 h
    simp only [prnt_string, Option.bind_eq_bind, Option.bind_eq_some] at h
    obtain ⟨v, _, hrec⟩ := h
    have := ih _ _ hrec
    exact this

theorem prnt_inst (N : Numbering) (c c1 : cpu) (h : prnt N c = some c1) :
    c1.inst = c.inst := by
  unfold prnt at h
  split at h
  · rw [← Option.some.inj h]
  · rw [← Option.some.inj h]
  · rw [← Option.some.inj h]
  · simp only [Option.bind_eq_bind, Option.pure_def, Option.bind_eq_some] at h
    obtain ⟨c0, h0, hc⟩ := h
    rw [← Option.some.inj hc]
    show c0.inst = c.inst
    exact prnt_string_inst _ c c0 h0
  · rw [← Option.some.inj h]

theorem dispatch_inst (N : Numbering) (c c1 : cpu) (h : dispatch N c = some c1) :
    c1.inst = c.inst := by
  unfold dispatch at h
  split at h
  case h_1 => rw [← Option.some.inj h]; rfl
  case h_2 =>
    simp only [Option.bind_eq_bind, Option.pure_def, Option.bind_eq_some] at h
    obtain ⟨c0, h0, hc⟩ := h
    rw [← Option.some.inj hc]
    show c0.inst = c.inst
    split_ifs at h0
    · simp only [Option.bind_eq_bind, Option.pure_def, Option.bind_eq_some] at h0
      obtain ⟨fs, _, hfs⟩ := h0
      rw [← Option.some.inj hfs]; rfl
    · simp only [Option.bind_eq_bind, Option.pure_def, Option.bind_eq_some] at h0
      obtain ⟨a, _, b, _, hab⟩ := h0
      rw [← Option.some.inj hab]; rfl
  case h_3 =>
    simp only [Option.bind_eq_bind, Option.pure_def, Option.bind_eq_some] at h
    obtain ⟨a, _, hc⟩ := h
    rw [← Option.some.inj hc]; rfl
  case h_4 =>
    simp only [Option.bind_eq_bind, Option.pure_def, Option.bind_eq_some] at h
    obtain ⟨b, _, c0, h0, hc⟩ := h
    rw [← Option.some.inj hc]
    show c0.inst = c.inst
    exact setr_inst _ _ _ _ h0
  case h_5 =>
    simp only [Option.bind_eq_bind, Option.pure_def, Option.bind_eq_some] at h
    obtain ⟨b, _, c0, h0, hc⟩ := h
    rw [← Option.some.inj hc]
    show c0.inst = c.inst
    exact store_inst _ _ _ _ h0
  case h_6 =>
    simp only [Option.bind_eq_bind, Option.pure_def, Option.bind_eq_some] at h
    obtain ⟨b, _, c0, h0, hc⟩ := h
    rw [← Option.some.inj hc]
    show c0.inst = c.inst
    exact setr_inst _ _ _ _ h0
  case h_7 =>
    simp only [Option.bind_eq_bind, Option.pure_def, Option.bind_eq_some] at h
    obtain ⟨c0, h0, hc⟩ := h
    rw [← Option.some.inj hc]
    show c0.inst = c.inst
    exact setr_inst _ _ _ _ h0
  case h_8 =>
    simp only [Option.bind_eq_bind, Option.bind_eq_some] at h
    obtain ⟨idx, _, v, _, hc⟩ := h
    have := store_inst _ _ _ _ hc
    exact this
  case h_9 =>
    simp only [Option.bind_eq_bind, Option.bind_eq_some] at h
    obtain ⟨idx, _, v, _, hc⟩ := h
    have := setr_inst _ _ _ _ hc
    exact this
  all_goals first
    | exact un_op_inst _ _ _ h
    | exact arith_inst _ _ _ _ _ h
    | exact jump_inst _ _ _ h
    | exact bin_op_inst _ _ _ h
    | exact logic_op_inst _ _ _ _ h
    | exact prnt_inst _ _ _ h
    | (rw [← Option.some.inj h])

theorem cycle_inst (N : Numbering) (c c' : cpu) (h : cycle N c = some c') :
    c'.inst = c.mem (c.pc + 1) := by
  unfold cycle at h
  simp only [Option.bind_eq_bind, Option.bind_eq_some] at h
  obtain ⟨cf, hf, he⟩ := h
  obtain ⟨_, rfl⟩ := fetch_some c cf hf
  rw [execute_eq] at he
  simp only [Option.map_eq_some'] at he
  obtain ⟨c1, hd, ht⟩ := he
  rw [← ht]
  have : (traced c1).inst = c1.inst := by unfold traced; split_ifs <;> rfl
  rw [this, dispatch_inst N _ c1 hd]
  rfl

theorem cycles_succ (N : Numbering) (i : Nat) (c : cpu) :
    cycles N (i + 1) c = (cycle N c).bind (cycles N i) := by
  simp only [cycles, Option.bind_eq_bind]

theorem run_cpu_halted_iff (N : Numbering) (f : Nat) :
    ∀ c s : cpu, run_cpu N f c = Outcome.halted s ↔
      ∃ j : Nat, j ≤ f ∧ cycles N j c = some s ∧ N.opcode s.inst = some Opcode.HLT ∧
        ∀ i : Nat, i < j → ∀ ci, cycles N i c = some ci →
          N.opcode ci.inst ≠ some Opcode.HLT := by
  induction f with
  | zero =>
    intro c s
    simp only [run_cpu]
    constructor
    · intro h
      split_ifs at h with hh
      have hs : c = s := Outcome.halted.inj h
      subst hs
      exact ⟨0, le_rfl, rfl, hh, fun i hi => absurd hi (Nat.not_lt_zero i)⟩
    · rintro ⟨j, hj, hc, hh, _⟩
      have hj0 : j = 0 := by omega
      subst hj0
      have hs : c = s := Option.some.inj hc
      subst hs
      rw [if_pos hh]
  | succ f ih =>
    intro c s
    simp only [run_cpu]
    by_cases hh : N.opcode c.inst = some Opcode.HLT
    · rw [if_pos hh]
      constructor
      · intro h
        have hs : c = s := Outcome.halted.inj h
        subst hs
        exact ⟨0, Nat.zero_le _, rfl, hh, fun i hi => absurd hi (Nat.not_lt_zero i)⟩
      · rintro ⟨j, _, hc, _, hno⟩
        rcases Nat.eq_zero_or_pos j with hj | hj
        · subst hj
          have hs : c = s := Option.some.inj hc
          rw [hs]
        · exact absurd hh (hno 0 hj c rfl)
    · rw [if_neg hh]
      cases hcy : cycle N c with
      | none =>
        simp only []
        constructor
        · intro h; cases h
        · rintro ⟨j, _, hc, hs, _⟩
          rcases Nat.eq_zero_or_pos j with hj | hj
          · subst hj
            have hcs : c = s := Option.some.inj hc
            subst hcs
            exact absurd hs hh
          · obtain ⟨j', rfl⟩ : ∃ j', j = j' + 1 := ⟨j - 1, by omega⟩
            rw [cycles_succ, hcy] at hc
            cases hc
      | some c1 =>
        simp only []
        rw [ih c1 s]
        constructor
        · rintro ⟨j, hj, hc, hs, hno⟩
          refine ⟨j + 1, by omega, by rw [cycles_succ, hcy]; exact hc, hs, ?_⟩
          intro i hi ci hci
          rcases Nat.eq_zero_or_pos i with hi0 | hi0
          · subst hi0
            have : c = ci := Option.some.inj hci
            rw [← this]; exact hh
          · obtain ⟨i', rfl⟩ : ∃ i', i = i' + 1 := ⟨i - 1, by omega⟩
            rw [cycles_succ, hcy] at hci
            exact hno i' (by omega) ci hci
        · rintro ⟨j, hj, hc, hs, hno⟩
          rcases Nat.eq_zero_or_pos j with hj0 | hj0
          · subst hj0
            have hcs : c = s := Option.some.inj hc
            subst hcs
            exact absurd hs hh
          · obtain ⟨j', rfl⟩ : ∃ j', j = j' + 1 := ⟨j - 1, by omega⟩
            rw [cycles_succ, hcy] at hc
            refine ⟨j', by omega, hc, hs, ?_⟩
            intro i hi ci hci
            exact hno (i + 1) (by omega) ci (by rw [cycles_succ, hcy]; exact hci)

theorem run_cpu_running_iff (N : Numbering) (f : Nat) :
    ∀ c s : cpu, run_cpu N f c = Outcome.running s ↔
      cycles N f c = some s ∧
        ∀ i : Nat, i ≤ f → ∀ ci, cycles N i c = some ci →
          N.opcode ci.inst ≠ some Opcode.HLT := by
  induction f with
  | zero =>
    intro c s
    simp only [run_cpu]
    constructor
    · intro h
      split_ifs at h with hh
      have hs : c = s := Outcome.running.inj h
      subst hs
      refine ⟨rfl, fun i hi ci hci => ?_⟩
      have hi0 : i = 0 := by omega
      subst hi0
      have : c = ci := Option.some.inj hci
      rw [← this]; exact hh
    · rintro ⟨hc, hno⟩
      have hs : c = s := Option.some.inj hc
      subst hs
      rw [if_neg (hno 0 le_rfl c rfl)]
  | succ f ih =>
    intro c s
    simp only [run_cpu]
    by_cases hh : N.opcode c.inst = some Opcode.HLT
    · rw [if_pos hh]
      constructor
      · intro h; cases h
      · rintro ⟨_, hno⟩
        exact absurd hh (hno 0 (Nat.zero_le _) c rfl)
    · rw [if_neg hh]
      cases hcy : cycle N c with
      | none =>
        simp only []
        constructor
        · intro h; cases h
        · rintro ⟨hc, _⟩
          rw [cycles_succ, hcy] at hc
          cases hc
      | some c1 =>
        simp only []
        rw [ih c1 s]
        constructor
        · rintro ⟨hc, hno⟩
          refine ⟨by rw [cycles_succ, hcy]; exact hc, ?_⟩
          intro i hi ci hci
          rcases Nat.eq_zero_or_pos i with hi0 | hi0
          · subst hi0
            have : c = ci := Option.some.inj hci
            rw [← this]; exact hh
          · obtain ⟨i', rfl⟩ : ∃ i', i = i' + 1 := ⟨i - 1, by omega⟩
            rw [cycles_succ, hcy] at hci
            exact hno i' (by omega) ci hci
        · rintro ⟨hc, hno⟩
          rw [cycles_succ, hcy] at hc
          refine ⟨hc, ?_⟩
          intro i hi ci hci
          exact hno (i + 1) (by omega) ci (by rw [cycles_succ, hcy]; exact hci)

theorem cycles_prefix (N : Numbering) (m k : Nat) (c s : cpu)
    (h : cycles N (m + k) c = some s) : ∃ s', cycles N m c = some s' := by
  rw [cycles_add] at h
  cases hm : cycles N m c with
  | none => rw [hm] at h; cases h
  | some s' => exact ⟨s', rfl⟩

/-- C15: let `0`, the value that `new_cpu` leaves in `inst`, not be the opcode `HLT`.
For every memory image and every `k ≥ 1`, the run of a freshly constructed CPU halts
after exactly `k` cycles (it has halted for every bound of at least `k` cycles and is
still running after `k - 1`) iff the first `k` cycles are defined, the opcode fetched by
the cycle `k` is `HLT`, and the opcode fetched by none of the cycles before is.  The
opcode a state holds after a cycle is the cell that cycle fetched, and a cycle that
decodes `HLT` changes no register, flag or memory cell and not `sp`. -/
theorem run_halts_exactly (N : Numbering) (raw : cpu) (memory : Int → Int) (mem_size : Int)
    (debug : Bool) (k : Nat) (hk : 1 ≤ k) (h0 : N.opcode 0 ≠ some Opcode.HLT) :
    ((∃ ck, (∀ f : Nat, k ≤ f →
          run_cpu N f (new_cpu raw memory mem_size debug) = Outcome.halted ck) ∧
        ∃ c', run_cpu N (k - 1) (new_cpu raw memory mem_size debug) = Outcome.running c') ↔
      (∃ ck, cycles N k (new_cpu raw memory mem_size debug) = some ck ∧
        N.opcode ck.inst = some Opcode.HLT ∧
        ∀ j : Nat, 1 ≤ j → j < k → ∀ cj,
          cycles N j (new_cpu raw memory mem_size debug) = some cj →
          N.opcode cj.inst ≠ some Opcode.HLT)) ∧
    (∀ c c' : cpu, cycle N c = some c' → c'.inst = c.mem (c.pc + 1)) ∧
    (∀ c c' : cpu, N.opcode (c.mem (c.pc + 1)) = some Opcode.HLT → cycle N c = some c' →
      c'.r = c.r ∧ c'.zero = c.zero ∧ c'.ltz = c.ltz ∧ c'.gtz = c.gtz ∧ c'.mem = c.mem ∧
        c'.sp = c.sp) := by
  have hinit : N.opcode (new_cpu raw memory mem_size debug).inst ≠ some Opcode.HLT := h0
  generalize new_cpu raw memory mem_size debug = c0 at hinit
  refine ⟨⟨?_, ?_⟩, cycle_inst N, ?_⟩
  · rintro ⟨ck, hhalt, c', hrun⟩
    obtain ⟨j, hj, hc, hs, hno⟩ := (run_cpu_halted_iff N k c0 ck).mp (hhalt k le_rfl)
    obtain ⟨_, hnr⟩ := (run_cpu_running_iff N (k - 1) c0 c').mp hrun
    have hjk : j = k := by
      by_contra hne
      exact hnr j (by omega) ck hc hs
    subst hjk
    exact ⟨ck, hc, hs, fun i _ hi ci hci => hno i hi ci hci⟩
  · rintro ⟨ck, hc, hs, hno⟩
    have hall : ∀ i : Nat, i < k → ∀ ci, cycles N i c0 = some ci →
        N.opcode ci.inst ≠ some Opcode.HLT := by
      intro i hi ci hci
      rcases Nat.eq_zero_or_pos i with hi0 | hi0
      · subst hi0
        have : c0 = ci := Option.some.inj hci
        rw [← this]; exact hinit
      · exact hno i hi0 hi ci hci
    refine ⟨ck, fun f hf => (run_cpu_halted_iff N f c0 ck).mpr ⟨k, hf, hc, hs, hall⟩, ?_⟩
    have hk' : k - 1 + 1 = k := by omega
    obtain ⟨c', hc'⟩ := cycles_prefix N (k - 1) 1 c0 ck (by rw [hk']; exact hc)
    exact ⟨c', (run_cpu_running_iff N (k - 1) c0 c').mpr
      ⟨hc', fun i hi ci hci => hall i (by omega) ci hci⟩⟩
  · intro c c' hop hcy
    unfold cycle at hcy
    simp only [Option.bind_eq_bind, Option.bind_eq_some] at hcy
    obtain ⟨cf, hf, he⟩ := hcy
    obtain ⟨_, rfl⟩ := fetch_some c cf hf
    have hop' : N.opcode (fetched c).inst = some Opcode.HLT := hop
    rw [execute_eq] at he
    simp only [dispatch, hop', Option.map_some', Option.some.injEq] at he
    rw [← he]
    simp only [traced_r, traced_zero, traced_ltz, traced_gtz, traced_mem, traced_sp]
    exact ⟨rfl, rfl, rfl, rfl, rfl, rfl⟩

/-- Instance of `run_halts_exactly`: the program `LII 1, 7; HLT` halts after exactly two
cycles, with `pc` on the cell of `HLT`. -/
theorem run_halts_exactly_witness :
    ((1 : Nat) ≤ 2 ∧ haltLastNumbering.opcode 0 ≠ some Opcode.HLT ∧
      haltedPc (run_cpu haltLastNumbering 2 (new_cpu zeroCpu haltProgram 32 false)) = some 3 ∧
      haltedPc (run_cpu haltLastNumbering 1 (new_cpu zeroCpu haltProgram 32 false)) = none) ∧
    (((∃ ck, (∀ f : Nat, 2 ≤ f →
          run_cpu haltLastNumbering f (new_cpu zeroCpu haltProgram 32 false)
            = Outcome.halted ck) ∧
        ∃ c', run_cpu haltLastNumbering (2 - 1) (new_cpu zeroCpu haltProgram 32 false)
          = Outcome.running c') ↔
      (∃ ck, cycles haltLastNumbering 2 (new_cpu zeroCpu haltProgram 32 false) = some ck ∧
        haltLastNumbering.opcode ck.inst = some Opcode.HLT ∧
        ∀ j : Nat, 1 ≤ j → j < 2 → ∀ cj,
          cycles haltLastNumbering j (new_cpu zeroCpu haltProgram 32 false) = some cj →
          haltLastNumbering.opcode cj.inst ≠ some Opcode.HLT)) ∧
    (∀ c c' : cpu, cycle haltLastNumbering c = some c' → c'.inst = c.mem (c.pc + 1)) ∧
    (∀ c c' : cpu, haltLastNumbering.opcode (c.mem (c.pc + 1)) = some Opcode.HLT →
      cycle haltLastNumbering c = some c' →
      c'.r = c.r ∧ c'.zero = c.zero ∧ c'.ltz = c.ltz ∧ c'.gtz = c.gtz ∧ c'.mem = c.mem ∧
        c'.sp = c.sp)) :=
  ⟨by decide,
   run_halts_exactly haltLastNumbering zeroCpu haltProgram 32 false 2 (by decide) (by decide)⟩

/-- The role of the value 0 in the loop: `new_cpu` stores 0 in `inst`, and the loop tests
`inst` before the first fetch, so under a numbering with `HLT = 0` the run of a fresh CPU
returns at once, without a cycle. -/
theorem run_fresh_halt_zero (N : Numbering) (raw : cpu) (memory : Int → Int) (mem_size : Int)
    (debug : Bool) (f : Nat) (h0 : N.opcode 0 = some Opcode.HLT) :
    run_cpu N f (new_cpu raw memory mem_size debug)
      = Outcome.halted (new_cpu raw memory mem_size debug) := by
  have hinit : N.opcode (new_cpu raw memory mem_size debug).inst = some Opcode.HLT := h0
  cases f with
  | zero => simp only [run_cpu, hinit, if_true]
  | succ f => simp only [run_cpu, hinit, if_true]

/-! ## The general form -/

theorem getr_some (c : cpu) (i v : Int) (h : getr c i = some v) :
    (0 ≤ i ∧ i < 16) ∧ v = c.r i := by
  unfold getr NUM_REGISTERS at h
  split_ifs at h with hb
  exact ⟨hb, (Option.some.inj h).symm⟩

theorem setr_some (c c1 : cpu) (i v : Int) (h : setr c i v = some c1) : 0 ≤ i ∧ i < 16 := by
  unfold setr NUM_REGISTERS at h
  split_ifs at h with hb
  exact hb

theorem store_some (c c1 : cpu) (i v : Int) (h : store c i v = some c1) :
    0 ≤ i ∧ i < c.max_mem := by
  unfold store at h
  split_ifs at h with hb
  exact hb

theorem store_of_lt (c : cpu) (i v : Int) (h : 0 ≤ i ∧ i < c.max_mem) :
    store c i v = some { c with mem := Function.update c.mem i v } := by
  simp [store, h.1, h.2]

/-- The values for which `parse_f64` has a result. -/
theorem parse_f64_some_iff (v : f64) : (∃ t, parse_f64 v = some t) ↔ storable v := by
  rw [parse_f64_cases v _ rfl]
  unfold storable
  constructor
  · rintro ⟨t, ht⟩
    by_contra hn
    rw [if_neg hn] at ht
    exact absurd ht (by simp)
  · intro h
    rw [if_pos h]
    exact ⟨_, rfl⟩

/-- The states in which `get_f64_operands` has a result. -/
theorem get_f64_operands_some_iff (N : Numbering) (c : cpu) :
    (∃ fs, get_f64_operands N c = some fs) ↔ decimal_ready N c := by
  by_cases hB : N.vtype (c.r R0B) = some VType.V_FLOAT
  · simp only [decimal_ready, decodes, hB, if_true]
    constructor
    · rintro ⟨fs, h⟩
      unfold get_f64_operands at h
      simp only [hB, if_true, Option.bind_eq_bind, Option.pure_def, Option.bind_eq_some] at h
      obtain ⟨d0, hd0, d1, hd1, d2, hd2, f1, hf1, s0, hs0, s1, hs1, s2, hs2, f2, hf2, _⟩ := h
      obtain ⟨b0, rfl⟩ := getr_some _ _ _ hd0
      obtain ⟨b1, rfl⟩ := getr_some _ _ _ hd1
      obtain ⟨b2, rfl⟩ := getr_some _ _ _ hd2
      obtain ⟨e0, rfl⟩ := getr_some _ _ _ hs0
      obtain ⟨e1, rfl⟩ := getr_some _ _ _ hs1
      obtain ⟨e2, rfl⟩ := getr_some _ _ _ hs2
      exact ⟨⟨⟨b0.1, by omega⟩, f1, hf1⟩, ⟨e0.1, by omega⟩, f2, hf2⟩
    · rintro ⟨⟨hd, f1, hf1⟩, hs', f2, hf2⟩
      exact ⟨_, get_f64_operands_tagged N c f1 f2 hd hs' hB hf1 hf2⟩
  · simp only [decimal_ready, decodes, is_reg, hB, if_false]
    constructor
    · rintro ⟨fs, h⟩
      unfold get_f64_operands at h
      simp only [hB, if_false, Option.bind_eq_bind, Option.pure_def, Option.bind_eq_some] at h
      obtain ⟨d0, hd0, d1, hd1, d2, hd2, f1, hf1, s0, hs0, _⟩ := h
      obtain ⟨b0, rfl⟩ := getr_some _ _ _ hd0
      obtain ⟨b1, rfl⟩ := getr_some _ _ _ hd1
      obtain ⟨b2, rfl⟩ := getr_some _ _ _ hd2
      exact ⟨⟨⟨b0.1, by omega⟩, f1, hf1⟩, (getr_some _ _ _ hs0).1⟩
    · rintro ⟨⟨hd, f1, hf1⟩, hs⟩
      exact ⟨_, get_f64_operands_untagged N c f1 hd hs hB hf1⟩

/-- The states and values for which `load_f64` has a result. -/
theorem load_f64_some_iff (c : cpu) (v : f64) :
    (∃ c1, load_f64 c v = some c1) ↔ storable v ∧ (0 ≤ c.dest ∧ c.dest + 2 < 16) := by
  constructor
  · rintro ⟨c1, h⟩
    unfold load_f64 at h
    simp only [Option.bind_eq_bind, Option.bind_eq_some] at h
    obtain ⟨t, ht, c2, h2, c3, h3, h4⟩ := h
    have b0 := setr_some _ _ _ _ h2
    have b2 := setr_some _ _ _ _ h4
    exact ⟨(parse_f64_some_iff v).mp ⟨t, ht⟩, b0.1, by omega⟩
  · rintro ⟨hv, hd⟩
    obtain ⟨t, ht⟩ := (parse_f64_some_iff v).mpr hv
    exact ⟨_, load_f64_of_parse c v t hd ht⟩

/-- The states in which an arithmetic case has a result. -/
theorem arith_some_iff (N : Numbering) (c : cpu) (iop : Int → Int → Option Int)
    (fop : f64 → f64 → Option f64) (int_ok : Int → Int → Prop)
    (hio : ∀ a b, (∃ v, iop a b = some v) ↔ int_ok a b) :
    (∃ c1, arith N c iop fop = some c1) ↔ arith_ready N c int_ok fop := by
  unfold arith_ready is_reg
  by_cases htag : N.vtype (c.r R0A) = some VType.V_FLOAT
  · simp only [htag, if_true]
    constructor
    · rintro ⟨c1, h⟩
      unfold arith float_op at h
      simp only [htag, if_true, Option.bind_eq_bind, Option.pure_def, Option.bind_eq_some] at h
      obtain ⟨c0, ⟨fs, hfs, v, hv, hl⟩, _⟩ := h
      refine ⟨(get_f64_operands_some_iff N c).mp ⟨fs, hfs⟩, fun f1 f2 h12 => ?_⟩
      rw [hfs] at h12
      have hfs' : fs = (f1, f2) := Option.some.inj h12
      subst hfs'
      exact ⟨v, hv, ((load_f64_some_iff c v).mp ⟨c0, hl⟩).1⟩
    · rintro ⟨hr, hres⟩
      obtain ⟨fs, hfs⟩ := (get_f64_operands_some_iff N c).mpr hr
      obtain ⟨v, hv, hst⟩ := hres fs.1 fs.2 hfs
      obtain ⟨t, ht⟩ := (parse_f64_some_iff v).mpr hst
      exact ⟨_, arith_float N c iop fop fs.1 fs.2 v t htag hr.1.1 hfs hv ht⟩
  · simp only [htag, if_false]
    constructor
    · rintro ⟨c1, h⟩
      unfold arith int_op at h
      simp only [htag, if_false, Option.bind_eq_bind, Option.pure_def, Option.bind_eq_some] at h
      obtain ⟨c0, ⟨a, ha, b, hb, v, hv, _⟩, _⟩ := h
      obtain ⟨ba, rfl⟩ := getr_some _ _ _ ha
      obtain ⟨bb, rfl⟩ := getr_some _ _ _ hb
      exact ⟨ba, bb, (hio _ _).mp ⟨v, hv⟩⟩
    · rintro ⟨hd, hs, hok⟩
      obtain ⟨v, hv⟩ := (hio _ _).mpr hok
      exact ⟨_, arith_int N c iop fop v htag hd hs hv⟩

/-- The states in which a bitwise or shift case has a result. -/
theorem bin_op_some_iff (c : cpu) (op : Int → Int → Option Int)
    (hop : ∀ a b, ∃ v, op a b = some v) :
    (∃ c1, bin_op c op = some c1) ↔ is_reg c.dest ∧ is_reg c.src := by
  unfold is_reg
  constructor
  · rintro ⟨c1, h⟩
    unfold bin_op int_op at h
    simp only [Option.bind_eq_bind, Option.pure_def, Option.bind_eq_some] at h
    obtain ⟨c0, ⟨a, ha, b, hb, _⟩, _⟩ := h
    exact ⟨(getr_some _ _ _ ha).1, (getr_some _ _ _ hb).1⟩
  · rintro ⟨hd, hs⟩
    obtain ⟨v, hv⟩ := hop (c.r c.dest) (c.r c.src)
    rw [← Option.isSome_iff_exists]
    simp only [bin_op, int_op, getr_of_lt c _ hd, getr_of_lt c _ hs, hv, setr_of_lt c _ v hd,
      Option.bind_eq_bind, Option.some_bind, Option.pure_def, Option.isSome_some]

/-- The states in which `LAND` or `LOR` has a result: `src` has to be a register only when
the left operand does not decide. -/
theorem logic_op_some_iff (c : cpu) (short : Int → Bool) (v : Int) :
    (∃ c1, logic_op c short v = some c1) ↔
      is_reg c.dest ∧ (short (c.r c.dest) = false → is_reg c.src) := by
  unfold is_reg
  constructor
  · rintro ⟨c1, h⟩
    unfold logic_op at h
    simp only [Option.bind_eq_bind, Option.pure_def, Option.bind_eq_some] at h
    obtain ⟨a, ha, w, hw, c0, _, _⟩ := h
    obtain ⟨ba, rfl⟩ := getr_some _ _ _ ha
    refine ⟨ba, fun hsh => ?_⟩
    simp only [hsh, Bool.false_eq_true, if_false, Option.map_eq_some'] at hw
    obtain ⟨b, hb, _⟩ := hw
    exact (getr_some _ _ _ hb).1
  · rintro ⟨hd, hs⟩
    cases hsh : short (c.r c.dest) with
    | true =>
      rw [← Option.isSome_iff_exists]
      simp only [logic_op, getr_of_lt c _ hd, hsh, if_true, setr_of_lt c _ v hd,
        Option.bind_eq_bind, Option.some_bind, Option.pure_def, Option.isSome_some]
    | false =>
      have hs' := hs hsh
      rw [← Option.isSome_iff_exists]
      simp only [logic_op, getr_of_lt c _ hd, getr_of_lt c _ hs', hsh, Bool.false_eq_true,
        if_false, Option.map_some', setr_of_lt c _ _ hd,
        Option.bind_eq_bind, Option.some_bind, Option.pure_def, Option.isSome_some]

theorem c_div_some_iff (a b : Int) :
    (∃ v, c_div a b = some v) ↔ b ≠ 0 ∧ ¬ (a = INT64_MIN ∧ b = -1) := by
  unfold c_div
  split_ifs with h
  · constructor
    · rintro ⟨v, hv⟩; simp at hv
    · rintro ⟨h1, h2⟩
      rcases h with h | h
      · exact absurd h h1
      · exact absurd h h2
  · push_neg at h
    exact ⟨fun _ => ⟨h.1, fun hh => h.2 hh.1 hh.2⟩, fun _ => ⟨_, rfl⟩⟩

theorem c_mod_some_iff (a b : Int) :
    (∃ v, c_mod a b = some v) ↔ b ≠ 0 ∧ ¬ (a = INT64_MIN ∧ b = -1) := by
  unfold c_mod
  split_ifs with h
  · constructor
    · rintro ⟨v, hv⟩; simp at hv
    · rintro ⟨h1, h2⟩
      rcases h with h | h
      · exact absurd h h1
      · exact absurd h h2
  · push_neg at h
    exact ⟨fun _ => ⟨h.1, fun hh => h.2 hh.1 hh.2⟩, fun _ => ⟨_, rfl⟩⟩

/-- The states in which the `switch` has a result at a two-operand opcode that does not
alter control flow. -/
theorem dispatch_some_iff (N : Numbering) (c : cpu) (op : Opcode)
    (hop : N.opcode c.inst = some op) (hmem : op ∈ generalForm) :
    (∃ c1, dispatch N c = some c1) ↔ no_fault N c op := by
  unfold dispatch
  rw [hop]
  simp only [generalForm, List.mem_cons, List.mem_singleton, List.not_mem_nil, or_false] at hmem
  rcases hmem with r | r | r | r | r | r | r | r | r | r | r | r | r | r | r | r | r | r <;>
    subst r <;> simp only [no_fault]
  · -- CMP
    by_cases htag : N.vtype (c.r R0A) = some VType.V_FLOAT
    · simp only [htag, if_true, ← get_f64_operands_some_iff]
      constructor
      · rintro ⟨c1, h⟩
        simp only [Option.bind_eq_bind, Option.pure_def, Option.bind_eq_some] at h
        obtain ⟨c0, ⟨fs, hfs, _⟩, _⟩ := h
        exact ⟨fs, hfs⟩
      · rintro ⟨fs, hfs⟩
        rw [← Option.isSome_iff_exists]
        simp only [hfs, Option.bind_eq_bind, Option.some_bind, Option.pure_def,
          Option.isSome_some]
    · simp only [htag, if_false, is_reg]
      constructor
      · rintro ⟨c1, h⟩
        simp only [Option.bind_eq_bind, Option.pure_def, Option.bind_eq_some] at h
        obtain ⟨c0, ⟨a, ha, b, hb, _⟩, _⟩ := h
        exact ⟨(getr_some _ _ _ ha).1, (getr_some _ _ _ hb).1⟩
      · rintro ⟨hd, hs⟩
        rw [← Option.isSome_iff_exists]
        simp only [getr_of_lt c _ hd, getr_of_lt c _ hs, Option.bind_eq_bind,
          Option.some_bind, Option.pure_def, Option.isSome_some]
  · -- CMPI
    simp only [is_reg]
    constructor
    · rintro ⟨c1, h⟩
      simp only [Option.bind_eq_bind, Option.pure_def, Option.bind_eq_some] at h
      obtain ⟨a, ha, _⟩ := h
      exact (getr_some _ _ _ ha).1
    · intro hd
      rw [← Option.isSome_iff_exists]
      simp only [getr_of_lt c _ hd, Option.bind_eq_bind, Option.some_bind,
        Option.pure_def, Option.isSome_some]
  · -- MOV
    simp only [is_reg]
    constructor
    · rintro ⟨c1, h⟩
      simp only [Option.bind_eq_bind, Option.pure_def, Option.bind_eq_some] at h
      obtain ⟨b, hb, c0, h0, _⟩ := h
      exact ⟨(getr_some _ _ _ hb).1, setr_some _ _ _ _ h0⟩
    · rintro ⟨hs, hd⟩
      rw [← Option.isSome_iff_exists]
      simp only [getr_of_lt c _ hs, setr_of_lt c _ _ hd, Option.bind_eq_bind,
        Option.some_bind, Option.pure_def, Option.isSome_some]
  · -- STI
    simp only [is_reg]
    constructor
    · rintro ⟨c1, h⟩
      simp only [Option.bind_eq_bind, Option.pure_def, Option.bind_eq_some] at h
      obtain ⟨b, hb, c0, h0, _⟩ := h
      exact ⟨(getr_some _ _ _ hb).1, store_some _ _ _ _ h0⟩
    · rintro ⟨hs, hd⟩
      rw [← Option.isSome_iff_exists]
      simp only [getr_of_lt c _ hs, store_of_lt c _ _ hd, Option.bind_eq_bind,
        Option.some_bind, Option.pure_def, Option.isSome_some]
  · -- LDI
    simp only [is_reg]
    constructor
    · rintro ⟨c1, h⟩
      simp only [Option.bind_eq_bind, Option.pure_def, Option.bind_eq_some] at h
      obtain ⟨b, hb, c0, h0, _⟩ := h
      exact ⟨(load_some _ _ _ hb).1, setr_some _ _ _ _ h0⟩
    · rintro ⟨hs, hd⟩
      rw [← Option.isSome_iff_exists]
      simp only [load_of_lt c _ hs, setr_of_lt c _ _ hd, Option.bind_eq_bind,
        Option.some_bind, Option.pure_def, Option.isSome_some]
  · -- LII
    simp only [is_reg]
    constructor
    · rintro ⟨c1, h⟩
      simp only [Option.bind_eq_bind, Option.pure_def, Option.bind_eq_some] at h
      obtain ⟨c0, h0, _⟩ := h
      exact setr_some _ _ _ _ h0
    · intro hd
      rw [← Option.isSome_iff_exists]
      simp only [setr_of_lt c _ _ hd, Option.bind_eq_bind, Option.some_bind,
        Option.pure_def, Option.isSome_some]
  · exact arith_some_iff N c _ _ _ (fun _ _ => ⟨fun _ => trivial, fun _ => ⟨_, rfl⟩⟩)
  · exact arith_some_iff N c _ _ _ (fun _ _ => ⟨fun _ => trivial, fun _ => ⟨_, rfl⟩⟩)
  · exact arith_some_iff N c _ _ _ (fun _ _ => ⟨fun _ => trivial, fun _ => ⟨_, rfl⟩⟩)
  · exact arith_some_iff N c _ _ _ c_div_some_iff
  · exact arith_some_iff N c _ _ _ c_mod_some_iff
  · exact bin_op_some_iff c _ (fun _ _ => ⟨_, rfl⟩)
  · exact bin_op_some_iff c _ (fun _ _ => ⟨_, rfl⟩)
  · exact bin_op_some_iff c _ (fun _ _ => ⟨_, rfl⟩)
  · exact bin_op_some_iff c _ (fun _ _ => ⟨_, rfl⟩)
  · exact bin_op_some_iff c _ (fun _ _ => ⟨_, rfl⟩)
  · rw [logic_op_some_iff]
    simp only [decide_eq_false_iff_not]
  · rw [logic_op_some_iff]
    simp only [decide_eq_false_iff_not, not_not]

/-- C8: for each of the two-operand opcodes that do not alter control flow (`CMP`, `CMPI`,
`MOV`, `STI`, `LDI`, `LII`, `ADD`, `SUB`, `MUL`, `DIV`, `MOD`, `SHL`, `SHR`, `BAND`, `BOR`,
`BXOR`, `LAND`, `LOR`) in the cell about to be decoded, the cycle from `pc = p` has a
result exactly when the three cells of the instruction lie in memory and the decoded
instruction runs without fault (`no_fault`), and every result has `pc = p + 3`: `fetch`
leaves `p + 1` and `execute` adds exactly 2 to it, so that a defined next fetch decodes
the cell `p + 4`, the one right after the three cells of the instruction. -/
theorem general_form_pc (N : Numbering) (c : cpu) (op : Opcode)
    (hop : N.opcode (c.mem (c.pc + 1)) = some op) (hmem : op ∈ generalForm) :
    ((∃ c', cycle N c = some c') ↔
      (0 ≤ c.pc + 1 ∧ c.pc + 3 < c.max_mem) ∧ no_fault N (fetched c) op) ∧
    ∀ c', cycle N c = some c' →
      c'.pc = c.pc + 3 ∧
      (∃ cf, fetch c = some cf ∧ cf.pc = c.pc + 1 ∧ execute N cf = some c' ∧
        c'.pc = cf.pc + 2) ∧
      ∀ c'', fetch c' = some c'' → c''.pc = c.pc + 4 := by
  have hinst : N.opcode (fetched c).inst = some op := hop
  constructor
  · constructor
    · rintro ⟨c', hcycle⟩
      unfold cycle at hcycle
      simp only [Option.bind_eq_bind, Option.bind_eq_some] at hcycle
      obtain ⟨cf, hf, he⟩ := hcycle
      obtain ⟨hwin, rfl⟩ := fetch_some c cf hf
      rw [execute_eq] at he
      simp only [Option.map_eq_some'] at he
      obtain ⟨c1, hd, _⟩ := he
      exact ⟨⟨hwin.1, by omega⟩, (dispatch_some_iff N _ op hinst hmem).mp ⟨c1, hd⟩⟩
    · rintro ⟨hwin, hrun⟩
      obtain ⟨c1, hd⟩ := (dispatch_some_iff N _ op hinst hmem).mpr hrun
      refine ⟨traced c1, ?_⟩
      simp only [cycle, fetch_of_window c ⟨hwin.1, by omega⟩, execute_eq, hd,
        Option.bind_eq_bind, Option.some_bind, Option.map_some']
  · intro c' hcycle
    unfold cycle at hcycle
    simp only [Option.bind_eq_bind, Option.bind_eq_some] at hcycle
    obtain ⟨cf, hf, he⟩ := hcycle
    obtain ⟨_, hcf⟩ := fetch_some c cf hf
    have hpc : cf.pc = c.pc + 1 := by rw [hcf]; rfl
    have hcfi : cf.inst = c.mem (c.pc + 1) := by rw [hcf]; rfl
    have he' := he
    rw [execute_eq] at he'
    simp only [Option.map_eq_some'] at he'
    obtain ⟨c1, hd, ht⟩ := he'
    have h2 : c'.pc = cf.pc + 2 := by
      rw [← ht, traced_pc]
      exact dispatch_general_pc N cf c1 op (by rw [hcfi]; exact hop) hmem hd
    have h3 : c'.pc = c.pc + 3 := by rw [h2, hpc]; ring
    refine ⟨h3, ⟨cf, hf, hpc, he, h2⟩, fun c'' h => ?_⟩
    obtain ⟨_, rfl⟩ := fetch_some _ _ h
    show c'.pc + 1 = c.pc + 4
    rw [h3]; ring

/-- Instances of `general_form_pc` from `pc = -1`: `LAND 1, 100` with `r[1] = 0` and
`LOR 1, 100` with `r[1] = 5`, where the right operand is not read and 100 need not be a
register index; `SHL 1, 2` with the count `r[2] = 64`; the decimal `ADD 1, 9` of the
operands 0.5 and -1; `LII 1, 7`.  Each cycle has a result, with `pc = 2`. -/
theorem general_form_pc_witness :
    (sampleNumbering.opcode (landCpu.mem (landCpu.pc + 1)) = some Opcode.LAND ∧
      (fetched landCpu).src = 100 ∧ landCpu.r (fetched landCpu).dest = 0 ∧
      ∃ c', cycle sampleNumbering landCpu = some c' ∧ c'.pc = landCpu.pc + 3) ∧
    (sampleNumbering.opcode (lorCpu.mem (lorCpu.pc + 1)) = some Opcode.LOR ∧
      (fetched lorCpu).src = 100 ∧ lorCpu.r (fetched lorCpu).dest = 5 ∧
      ∃ c', cycle sampleNumbering lorCpu = some c' ∧ c'.pc = lorCpu.pc + 3) ∧
    (sampleNumbering.opcode (shlCpu.mem (shlCpu.pc + 1)) = some Opcode.SHL ∧
      shlCpu.r (fetched shlCpu).src = 64 ∧
      ∃ c', cycle sampleNumbering shlCpu = some c' ∧ c'.pc = shlCpu.pc + 3) ∧
    (sampleNumbering.opcode (addDecimalFresh.mem (addDecimalFresh.pc + 1)) = some Opcode.ADD ∧
      sampleNumbering.vtype (addDecimalFresh.r R0A) = some VType.V_FLOAT ∧
      ∃ c', cycle sampleNumbering addDecimalFresh = some c' ∧
        c'.pc = addDecimalFresh.pc + 3) ∧
    (sampleNumbering.opcode (liiCpu.mem (liiCpu.pc + 1)) = some Opcode.LII ∧
      ∃ c', cycle sampleNumbering liiCpu = some c' ∧ c'.pc = liiCpu.pc + 3) := by
  refine ⟨⟨by decide, by decide, by decide, ?_⟩, ⟨by decide, by decide, by decide, ?_⟩,
    ⟨by decide, by decide, ?_⟩, ⟨by decide, by decide, ?_⟩, ⟨by decide, ?_⟩⟩
  · have h := general_form_pc sampleNumbering landCpu Opcode.LAND (by decide) (by decide)
    obtain ⟨c', hc'⟩ := h.1.mpr ⟨by decide, by unfold no_fault is_reg; decide⟩
    exact ⟨c', hc', (h.2 c' hc').1⟩
  · have h := general_form_pc sampleNumbering lorCpu Opcode.LOR (by decide) (by decide)
    obtain ⟨c', hc'⟩ := h.1.mpr ⟨by decide, by unfold no_fault is_reg; decide⟩
    exact ⟨c', hc', (h.2 c' hc').1⟩
  · have h := general_form_pc sampleNumbering shlCpu Opcode.SHL (by decide) (by decide)
    obtain ⟨c', hc'⟩ := h.1.mpr ⟨by decide, by unfold no_fault is_reg; decide⟩
    exact ⟨c', hc', (h.2 c' hc').1⟩
  · have h := general_form_pc sampleNumbering addDecimalFresh Opcode.ADD (by decide)
      (by decide)
    have hb : build_f64 ((fetched addDecimalFresh).r (fetched addDecimalFresh).dest)
        ((fetched addDecimalFresh).r ((fetched addDecimalFresh).dest + 1))
        ((fetched addDecimalFresh).r ((fetched addDecimalFresh).dest + 2))
        = some (1 / 2) := build_f64_one_half_triple.2
    have hops := get_f64_operands_untagged sampleNumbering (fetched addDecimalFresh) (1 / 2)
      (by decide) (by decide) (by decide) hb
    have hsrc : (((fetched addDecimalFresh).r (fetched addDecimalFresh).src : Int) : ℚ)
        = -1 := by
      have : (fetched addDecimalFresh).r (fetched addDecimalFresh).src = -1 := by decide
      rw [this]; norm_num
    rw [hsrc] at hops
    have hsum : (1 / 2 : ℚ) + -1 = -1 / 2 := by norm_num
    have hrun : no_fault sampleNumbering (fetched addDecimalFresh) Opcode.ADD := by
      have htag : sampleNumbering.vtype ((fetched addDecimalFresh).r R0A)
          = some VType.V_FLOAT := by decide
      simp only [no_fault, arith_ready, htag, if_true]
      refine ⟨(get_f64_operands_some_iff _ _).mp ⟨_, hops⟩, fun f1 f2 h12 => ?_⟩
      rw [hops] at h12
      have hp : ((1 / 2 : ℚ), (-1 : ℚ)) = (f1, f2) := Option.some.inj h12
      rw [← (Prod.mk.inj hp).1, ← (Prod.mk.inj hp).2, hsum]
      exact ⟨_, rfl, (parse_f64_some_iff _).mp ⟨_, parse_f64_neg_half⟩⟩
    obtain ⟨c', hc'⟩ := h.1.mpr ⟨by decide, hrun⟩
    exact ⟨c', hc', (h.2 c' hc').1⟩
  · have h := general_form_pc sampleNumbering liiCpu Opcode.LII (by decide) (by decide)
    obtain ⟨c', hc'⟩ := h.1.mpr ⟨by decide, by unfold no_fault is_reg; decide⟩
    exact ⟨c', hc', (h.2 c' hc').1⟩

end Chaos
